import Mathlib

/-!
# CbrtPs: cube root of four packed single-precision floats

A shallow embedding of `src/CbrtPs.hpp` (namespace `simd`).  A 128-bit register
is four 32-bit lanes, each lane a natural number holding the bit pattern; the
casts between `__m128` and `__m128i` are the identity.  The integer intrinsics
are modelled on the lanes exactly as the instruction set reference describes
them; the floating-point intrinsics are modelled by an IEEE-754 binary
interchange arithmetic on bit patterns with round-to-nearest-even (the default
MXCSR state) and the SSE rules for NaN operands.
-/

namespace simd

/-! ## Registers -/

/-- A 128-bit register seen as four 32-bit lanes (`__m128`, `__m128i`). -/
structure M128 where
  e0 : Nat
  e1 : Nat
  e2 : Nat
  e3 : Nat
deriving DecidableEq, Repr

/-- A 128-bit register seen as two 64-bit lanes (`__m128d`). -/
structure M128d where
  d0 : Nat
  d1 : Nat
deriving DecidableEq, Repr

/-- A 256-bit register seen as four 64-bit lanes (`__m256d`). -/
structure M256d where
  d0 : Nat
  d1 : Nat
  d2 : Nat
  d3 : Nat
deriving DecidableEq, Repr

/-- Lane `k` of a four-lane register. -/
def M128.lane (v : M128) (k : Fin 4) : Nat :=
  match k with
  | 0 => v.e0
  | 1 => v.e1
  | 2 => v.e2
  | 3 => v.e3

/-- Apply a scalar function to every 32-bit lane. -/
def M128.map (f : Nat → Nat) (v : M128) : M128 :=
  ⟨f v.e0, f v.e1, f v.e2, f v.e3⟩

/-- Combine two registers lane by lane. -/
def M128.zip (f : Nat → Nat → Nat) (a b : M128) : M128 :=
  ⟨f a.e0 b.e0, f a.e1 b.e1, f a.e2 b.e2, f a.e3 b.e3⟩

/-- Combine three registers lane by lane. -/
def M128.zip3 (f : Nat → Nat → Nat → Nat) (a b c : M128) : M128 :=
  ⟨f a.e0 b.e0 c.e0, f a.e1 b.e1 c.e1, f a.e2 b.e2 c.e2, f a.e3 b.e3 c.e3⟩

/-- The value of a 32-bit pattern read as a two's complement integer. -/
def toInt32 (n : Nat) : Int :=
  if n % 2 ^ 32 < 2 ^ 31 then ((n % 2 ^ 32 : Nat) : Int) else ((n % 2 ^ 32 : Nat) : Int) - 2 ^ 32

/-- The 32-bit pattern of an integer (two's complement, wrapping). -/
def ofInt32 (z : Int) : Nat :=
  (z % 2 ^ 32).toNat

/-! ## Integer intrinsics -/

/-- The macro `_MM_SHUFFLE(z, y, x, w)`. -/
def MM_SHUFFLE (z y x w : Nat) : Nat :=
  (z <<< 6) ||| (y <<< 4) ||| (x <<< 2) ||| w

/-- The intrinsic `_mm_set1_epi32`: broadcast a 32-bit integer. -/
def mm_set1_epi32 (a : Int) : M128 :=
  ⟨ofInt32 a, ofInt32 a, ofInt32 a, ofInt32 a⟩

/-- The intrinsic `_mm_shuffle_epi32`: lane `j` of the result is the lane of `a`
selected by bits `2j+1 : 2j` of the immediate. -/
def mm_shuffle_epi32 (a : M128) (imm8 : Nat) : M128 :=
  let sel := fun (c : Nat) =>
    match c % 4 with
    | 0 => a.e0
    | 1 => a.e1
    | 2 => a.e2
    | _ => a.e3
  ⟨sel imm8, sel (imm8 >>> 2), sel (imm8 >>> 4), sel (imm8 >>> 6)⟩

/-- The signed 64-bit product of two signed 32-bit lanes, as a 64-bit pattern. -/
def mul64 (a b : Nat) : Nat :=
  ((toInt32 a * toInt32 b) % 2 ^ 64).toNat

/-- The intrinsic `_mm_mul_epi32`: multiply the signed 32-bit integers in lanes 0
and 2, giving two signed 64-bit products (lanes 0-1 and 2-3 of the result). -/
def mm_mul_epi32 (a b : M128) : M128 :=
  let p0 := mul64 a.e0 b.e0
  let p1 := mul64 a.e2 b.e2
  ⟨p0 % 2 ^ 32, p0 / 2 ^ 32, p1 % 2 ^ 32, p1 / 2 ^ 32⟩

/-- One 32-bit lane of `_mm_blend_epi16`: the low 16-bit word is selected by bit
`lo` of the immediate and the high word by bit `lo + 1`. -/
def blend16 (a b imm8 lo : Nat) : Nat :=
  (if imm8.testBit lo then b % 2 ^ 16 else a % 2 ^ 16)
    + 2 ^ 16 * (if imm8.testBit (lo + 1) then b / 2 ^ 16 % 2 ^ 16 else a / 2 ^ 16 % 2 ^ 16)

/-- The intrinsic `_mm_blend_epi16`: 16-bit word `j` comes from `b` when bit `j`
of the immediate is set, from `a` otherwise. -/
def mm_blend_epi16 (a b : M128) (imm8 : Nat) : M128 :=
  ⟨blend16 a.e0 b.e0 imm8 0, blend16 a.e1 b.e1 imm8 2,
   blend16 a.e2 b.e2 imm8 4, blend16 a.e3 b.e3 imm8 6⟩

/-- The intrinsic `_mm_add_epi32`: wrapping 32-bit addition. -/
def mm_add_epi32 (a b : M128) : M128 :=
  M128.zip (fun x y => (x + y) % 2 ^ 32) a b

/-- The intrinsic `_mm_srli_epi32`: logical right shift of every lane. -/
def mm_srli_epi32 (a : M128) (imm8 : Nat) : M128 :=
  M128.map (fun x => if imm8 > 31 then 0 else (x % 2 ^ 32) >>> imm8) a

/-- The intrinsic `_mm_cmpgt_epi32`: signed greater-than, all ones when true. -/
def mm_cmpgt_epi32 (a b : M128) : M128 :=
  M128.zip (fun x y => if toInt32 x > toInt32 y then 0xFFFFFFFF else 0) a b

/-- The intrinsic `_mm_cmplt_epi32`: signed less-than, all ones when true. -/
def mm_cmplt_epi32 (a b : M128) : M128 :=
  M128.zip (fun x y => if toInt32 x < toInt32 y then 0xFFFFFFFF else 0) a b

/-- One byte of `_mm_blendv_epi8`: byte `j` of the lane comes from `b` when the
top bit of byte `j` of the mask is set. -/
def blendByte (a b mask j : Nat) : Nat :=
  if (mask / 2 ^ (8 * j)) % 256 ≥ 128 then (b / 2 ^ (8 * j)) % 256 else (a / 2 ^ (8 * j)) % 256

/-- The intrinsic `_mm_blendv_epi8`: byte-wise select on the top bit of each
mask byte. -/
def mm_blendv_epi8 (a b mask : M128) : M128 :=
  M128.zip3 (fun x y m =>
    blendByte x y m 0 + 2 ^ 8 * blendByte x y m 1 + 2 ^ 16 * blendByte x y m 2
      + 2 ^ 24 * blendByte x y m 3) a b mask

/-! ## Floating-point arithmetic on bit patterns

IEEE-754 binary interchange formats, round to nearest with ties to even.  A
finite value is measured in units of the smallest positive subnormal number of
its format, so that every finite magnitude is a natural number.
-/

/-- A binary interchange format: width of the exponent field and of the
fraction field. -/
structure Fmt where
  ebits : Nat
  mbits : Nat
deriving DecidableEq, Repr

/-- Single precision. -/
def binary32 : Fmt := ⟨8, 23⟩

/-- Double precision. -/
def binary64 : Fmt := ⟨11, 52⟩

namespace Fmt

/-- The sign bit as a bit pattern. -/
def signBit (f : Fmt) : Nat := 2 ^ (f.ebits + f.mbits)

/-- The exponent field with all bits set (infinities and NaNs). -/
def expMax (f : Fmt) : Nat := 2 ^ f.ebits - 1

/-- The exponent bias. -/
def bias (f : Fmt) : Nat := 2 ^ (f.ebits - 1) - 1

/-- The binary logarithm of the reciprocal of the smallest positive subnormal
number: `2 ^ (-unitExp)` is the unit in which magnitudes are measured. -/
def unitExp (f : Fmt) : Nat := f.bias + f.mbits - 1

/-- The sign field: 1 for negative. -/
def sign (f : Fmt) (b : Nat) : Nat := b / 2 ^ (f.ebits + f.mbits) % 2

/-- The bit pattern with the sign bit cleared. -/
def absBits (f : Fmt) (b : Nat) : Nat := b % 2 ^ (f.ebits + f.mbits)

/-- The biased exponent field. -/
def expo (f : Fmt) (b : Nat) : Nat := b / 2 ^ f.mbits % 2 ^ f.ebits

/-- The fraction field. -/
def frac (f : Fmt) (b : Nat) : Nat := b % 2 ^ f.mbits

/-- The pattern is a NaN: exponent all ones, fraction non-zero. -/
def isNaN (f : Fmt) (b : Nat) : Prop := f.expo b = f.expMax ∧ f.frac b ≠ 0

/-- The pattern is an infinity: exponent all ones, fraction zero. -/
def isInf (f : Fmt) (b : Nat) : Prop := f.expo b = f.expMax ∧ f.frac b = 0

/-- The pattern is a zero of either sign. -/
def isZero (f : Fmt) (b : Nat) : Prop := f.absBits b = 0

instance (f : Fmt) (b : Nat) : Decidable (f.isNaN b) := by
  unfold isNaN
  infer_instance

instance (f : Fmt) (b : Nat) : Decidable (f.isInf b) := by
  unfold isInf
  infer_instance

instance (f : Fmt) (b : Nat) : Decidable (f.isZero b) := by
  unfold isZero
  infer_instance

/-- The magnitude pattern of infinity. -/
def infBits (f : Fmt) : Nat := f.expMax * 2 ^ f.mbits

/-- The quiet bit: the most significant bit of the fraction field. -/
def quietBit (f : Fmt) : Nat := 2 ^ (f.mbits - 1)

/-- Convert a NaN to a quiet NaN: set the quiet bit, keep sign and payload. -/
def quiet (f : Fmt) (b : Nat) : Nat :=
  if b / f.quietBit % 2 = 1 then b else b + f.quietBit

/-- The default NaN produced by an invalid operation (the "real indefinite"
QNaN: sign set, quiet bit set, empty payload). -/
def defaultNaN (f : Fmt) : Nat := f.signBit + f.infBits + f.quietBit

/-- The magnitude of a finite pattern, in units of the smallest subnormal. -/
def mag (f : Fmt) (b : Nat) : Nat :=
  if f.expo b = 0 then f.frac b else (2 ^ f.mbits + f.frac b) * 2 ^ (f.expo b - 1)

/-- The value of a finite pattern as a signed number of units. -/
def toUnits (f : Fmt) (b : Nat) : Int :=
  if f.sign b = 1 then -(f.mag b : Int) else (f.mag b : Int)

end Fmt

/-- Round the rational `n / d` to the nearest integer, ties to even. -/
def rne (n d : Nat) : Nat :=
  let q := n / d
  let r := n % d
  if 2 * r < d then q else if 2 * r > d then q + 1 else if q % 2 = 0 then q else q + 1

/-- The number of halvings after which `q` drops below `2 ^ (m + 1)`: the
exponent of the quantum, in units, for a magnitude whose integer part is `q`. -/
def shiftOf (m : Nat) : Nat → Nat → Nat
  | 0, _ => 0
  | fuel + 1, q => if q < 2 ^ (m + 1) then 0 else shiftOf m fuel (q / 2) + 1

/-- Round the non-negative magnitude `n / d` (in units of the smallest
subnormal) to the format, returning the magnitude bit pattern; magnitudes that
round beyond the largest finite number give the pattern of infinity. -/
def roundMag (f : Fmt) (n d : Nat) : Nat :=
  let k := shiftOf f.mbits (2 ^ f.ebits) (n / d)
  let r := k * 2 ^ f.mbits + rne n (d * 2 ^ k)
  if r ≥ f.infBits then f.infBits else r

/-- Floating-point addition. -/
def fadd (f : Fmt) (a b : Nat) : Nat :=
  if f.isNaN a then f.quiet a
  else if f.isNaN b then f.quiet b
  else if f.isInf a then
    (if f.isInf b ∧ f.sign a ≠ f.sign b then f.defaultNaN else a)
  else if f.isInf b then b
  else
    let s := f.toUnits a + f.toUnits b
    if s = 0 then (if f.sign a = 1 ∧ f.sign b = 1 then f.signBit else 0)
    else if s < 0 then f.signBit + roundMag f s.natAbs 1
    else roundMag f s.natAbs 1

/-- Floating-point multiplication. -/
def fmul (f : Fmt) (a b : Nat) : Nat :=
  if f.isNaN a then f.quiet a
  else if f.isNaN b then f.quiet b
  else if (f.isInf a ∧ f.isZero b) ∨ (f.isZero a ∧ f.isInf b) then f.defaultNaN
  else
    let s := (f.sign a + f.sign b) % 2 * f.signBit
    if f.isInf a ∨ f.isInf b then s + f.infBits
    else s + roundMag f (f.mag a * f.mag b) (2 ^ f.unitExp)

/-- Floating-point division. -/
def fdiv (f : Fmt) (a b : Nat) : Nat :=
  if f.isNaN a then f.quiet a
  else if f.isNaN b then f.quiet b
  else if (f.isInf a ∧ f.isInf b) ∨ (f.isZero a ∧ f.isZero b) then f.defaultNaN
  else
    let s := (f.sign a + f.sign b) % 2 * f.signBit
    if f.isInf a ∨ f.isZero b then s + f.infBits
    else if f.isInf b then s
    else s + roundMag f (f.mag a * 2 ^ f.unitExp) (f.mag b)

/-- Conversion from format `f` to format `g`.  A NaN keeps its sign and the
leading bits of its payload and becomes quiet. -/
def fcvt (f g : Fmt) (a : Nat) : Nat :=
  let s := f.sign a * g.signBit
  if f.isNaN a then g.quiet (s + g.infBits + f.frac a * 2 ^ g.mbits / 2 ^ f.mbits)
  else if f.isInf a then s + g.infBits
  else s + roundMag g (f.mag a * 2 ^ g.unitExp) (2 ^ f.unitExp)

/-- Ordered equality of two patterns (`cmpeq`): false when either is a NaN, the
two zeros compare equal. -/
def feq (f : Fmt) (a b : Nat) : Prop :=
  ¬ f.isNaN a ∧ ¬ f.isNaN b ∧
    ((f.isZero a ∧ f.isZero b) ∨ a % (2 * f.signBit) = b % (2 * f.signBit))

instance (f : Fmt) (a b : Nat) : Decidable (feq f a b) := by
  unfold feq
  infer_instance

/-! ## Floating-point intrinsics -/

/-- The intrinsic `_mm_set1_ps`, on the bit pattern of its argument. -/
def mm_set1_ps (bits : Nat) : M128 := ⟨bits, bits, bits, bits⟩

/-- The intrinsic `_mm_setzero_ps`. -/
def mm_setzero_ps : M128 := ⟨0, 0, 0, 0⟩

/-- The intrinsic `_mm_castps_si128`: reinterpretation, no conversion. -/
def mm_castps_si128 (a : M128) : M128 := a

/-- The intrinsic `_mm_castsi128_ps`: reinterpretation, no conversion. -/
def mm_castsi128_ps (a : M128) : M128 := a

/-- The intrinsic `_mm_and_ps`: bitwise AND. -/
def mm_and_ps (a b : M128) : M128 := M128.zip (fun x y => x &&& y) a b

/-- The intrinsic `_mm_andnot_ps`: bitwise `(NOT a) AND b`. -/
def mm_andnot_ps (a b : M128) : M128 :=
  M128.zip (fun x y => (2 ^ 32 - 1 - x % 2 ^ 32) &&& y) a b

/-- The intrinsic `_mm_or_ps`: bitwise OR. -/
def mm_or_ps (a b : M128) : M128 := M128.zip (fun x y => x ||| y) a b

/-- The intrinsic `_mm_cmpeq_ps`: ordered equality, all ones when true. -/
def mm_cmpeq_ps (a b : M128) : M128 :=
  M128.zip (fun x y => if feq binary32 x y then 0xFFFFFFFF else 0) a b

/-- The intrinsic `_mm_mul_ps`. -/
def mm_mul_ps (a b : M128) : M128 := M128.zip (fmul binary32) a b

/-- The intrinsic `_mm_add_ps`. -/
def mm_add_ps (a b : M128) : M128 := M128.zip (fadd binary32) a b

/-- The intrinsic `_mm_blendv_ps`: lane from `b` when the sign bit of the mask
lane is set, from `a` otherwise. -/
def mm_blendv_ps (a b mask : M128) : M128 :=
  M128.zip3 (fun x y m => if m / 2 ^ 31 % 2 = 1 then y else x) a b mask

/-- The intrinsic `_mm_movehl_ps`: the upper two lanes of `b`, then the upper
two lanes of `a`. -/
def mm_movehl_ps (a b : M128) : M128 := ⟨b.e2, b.e3, a.e2, a.e3⟩

/-- The intrinsic `_mm_movelh_ps`: the lower two lanes of `a`, then the lower
two lanes of `b`. -/
def mm_movelh_ps (a b : M128) : M128 := ⟨a.e0, a.e1, b.e0, b.e1⟩

/-- The intrinsic `_mm_cvtps_pd`: widen the two lower lanes. -/
def mm_cvtps_pd (a : M128) : M128d :=
  ⟨fcvt binary32 binary64 a.e0, fcvt binary32 binary64 a.e1⟩

/-- The intrinsic `_mm_cvtpd_ps`: narrow into the two lower lanes, the two
upper lanes are zero. -/
def mm_cvtpd_ps (a : M128d) : M128 :=
  ⟨fcvt binary64 binary32 a.d0, fcvt binary64 binary32 a.d1, 0, 0⟩

/-- The intrinsic `_mm_mul_pd`. -/
def mm_mul_pd (a b : M128d) : M128d := ⟨fmul binary64 a.d0 b.d0, fmul binary64 a.d1 b.d1⟩

/-- The intrinsic `_mm_add_pd`. -/
def mm_add_pd (a b : M128d) : M128d := ⟨fadd binary64 a.d0 b.d0, fadd binary64 a.d1 b.d1⟩

/-- The intrinsic `_mm_div_pd`. -/
def mm_div_pd (a b : M128d) : M128d := ⟨fdiv binary64 a.d0 b.d0, fdiv binary64 a.d1 b.d1⟩

/-- The intrinsic `_mm256_cvtps_pd`: widen all four lanes. -/
def mm256_cvtps_pd (a : M128) : M256d :=
  ⟨fcvt binary32 binary64 a.e0, fcvt binary32 binary64 a.e1,
   fcvt binary32 binary64 a.e2, fcvt binary32 binary64 a.e3⟩

/-- The intrinsic `_mm256_cvtpd_ps`: narrow all four lanes. -/
def mm256_cvtpd_ps (a : M256d) : M128 :=
  ⟨fcvt binary64 binary32 a.d0, fcvt binary64 binary32 a.d1,
   fcvt binary64 binary32 a.d2, fcvt binary64 binary32 a.d3⟩

/-- The intrinsic `_mm256_mul_pd`. -/
def mm256_mul_pd (a b : M256d) : M256d :=
  ⟨fmul binary64 a.d0 b.d0, fmul binary64 a.d1 b.d1,
   fmul binary64 a.d2 b.d2, fmul binary64 a.d3 b.d3⟩

/-- The intrinsic `_mm256_add_pd`. -/
def mm256_add_pd (a b : M256d) : M256d :=
  ⟨fadd binary64 a.d0 b.d0, fadd binary64 a.d1 b.d1,
   fadd binary64 a.d2 b.d2, fadd binary64 a.d3 b.d3⟩

/-- The intrinsic `_mm256_div_pd`. -/
def mm256_div_pd (a b : M256d) : M256d :=
  ⟨fdiv binary64 a.d0 b.d0, fdiv binary64 a.d1 b.d1,
   fdiv binary64 a.d2 b.d2, fdiv binary64 a.d3 b.d3⟩

namespace details

/-- Divide int32 lanes by 3 (`simd::details::div3_epi32`). -/
def div3_epi32 (vec : M128) : M128 :=
  let mul := mm_set1_epi32 0x55555556
  let tmp := mm_shuffle_epi32 vec (MM_SHUFFLE 3 3 1 1)
  let vec := mm_mul_epi32 vec mul
  let tmp := mm_mul_epi32 tmp mul
  let vec := mm_shuffle_epi32 vec (MM_SHUFFLE 3 3 1 1)
  let vec := mm_blend_epi16 vec tmp 0b11001100
  let vec := mm_add_epi32 vec (mm_srli_epi32 vec 31)
  vec


/-- Halley refinement, 256-bit variant (`simd::details::cbrtRefine` under
`USE_AVX`). -/
def cbrtRefine256 (a r : M256d) : M256d :=
  let a3 := mm256_mul_pd (mm256_mul_pd a a) a
  let tmp := mm256_add_pd a3 r
  let mul := mm256_add_pd r tmp
  let div := mm256_add_pd a3 tmp
  let mul := mm256_mul_pd mul a
  mm256_div_pd mul div

/-- Halley refinement, 128-bit variant (`simd::details::cbrtRefine` without
`USE_AVX`). -/
def cbrtRefine (a r : M128d) : M128d :=
  let a3 := mm_mul_pd (mm_mul_pd a a) a
  let tmp := mm_add_pd a3 r
  let mul := mm_add_pd r tmp
  let div := mm_add_pd a3 tmp
  let mul := mm_mul_pd mul a
  mm_div_pd mul div

end details

/-- The refinement block of `cbrt_ps` compiled with `USE_AVX`: widen all four
lanes, refine twice, narrow. -/
def refineAVX (r x : M128) : M128 :=
  let rd := mm256_cvtps_pd r
  let xd := mm256_cvtps_pd x
  let rd := details.cbrtRefine256 rd xd
  let rd := details.cbrtRefine256 rd xd
  mm256_cvtpd_ps rd

/-- The refinement block of `cbrt_ps` compiled without `USE_AVX`: split into
low and high halves, refine each twice, narrow and recombine. -/
def refineSSE (r x : M128) : M128 :=
  let rd1 := mm_cvtps_pd r
  let rd2 := mm_cvtps_pd (mm_movehl_ps r r)
  let xd1 := mm_cvtps_pd x
  let xd2 := mm_cvtps_pd (mm_movehl_ps x x)
  let rd1 := details.cbrtRefine rd1 xd1
  let rd2 := details.cbrtRefine rd2 xd2
  let rd1 := details.cbrtRefine rd1 xd1
  let rd2 := details.cbrtRefine rd2 xd2
  mm_movelh_ps (mm_cvtpd_ps rd1) (mm_cvtpd_ps rd2)

/-- The three lane masks of `cbrt_ps` and the seed, as computed before the
refinement block. -/
structure Stage where
  isZero : M128
  isNanOrInf : M128
  isSubnorm : M128
  t : M128
  r : M128
deriving DecidableEq, Repr

/-- Lines 67 to 96 of `cbrt_ps`: classification and initial estimate. -/
def cbrt_ps_seed (x : M128) : Stage :=
  let signBit := mm_set1_ps 0x80000000
  let sign := mm_and_ps x signBit
  let abs := mm_andnot_ps signBit x
  let isZero := mm_cmpeq_ps x mm_setzero_ps
  let i := mm_castps_si128 abs
  let isNanOrInf := mm_cmpgt_epi32 i (mm_set1_epi32 0x7F7FFFFF)
  let B1 : Int := 709958130
  let B2 : Int := 642849266
  let isSubnorm := mm_cmplt_epi32 i (mm_set1_epi32 0x00800000)
  let B := mm_blendv_epi8 (mm_set1_epi32 B1) (mm_set1_epi32 B2) isSubnorm
  let _2e24 := mm_castsi128_ps (mm_set1_epi32 0x4b800000)
  let t := mm_mul_ps x _2e24
  let t := mm_andnot_ps signBit t
  let i := mm_blendv_epi8 i (mm_castps_si128 t) isSubnorm
  let i := details.div3_epi32 i
  let i := mm_add_epi32 i B
  let r := mm_or_ps (mm_castsi128_ps i) sign
  ⟨isZero, isNanOrInf, isSubnorm, t, r⟩

/-- Compute cubic root of 4 FP32 numbers in the vector register
(`simd::cbrt_ps`); `USE_AVX` is the build-time macro choosing the refinement
block. -/
def cbrt_ps (USE_AVX : Bool) (x : M128) : M128 :=
  let st := cbrt_ps_seed x
  let r := if USE_AVX then refineAVX st.r x else refineSSE st.r x
  let r := mm_blendv_ps r x st.isZero
  let r := mm_blendv_ps r (mm_add_ps x x) (mm_castsi128_ps st.isNanOrInf)
  r


/-! ## The computation of one lane -/

/-- One lane of `cbrtRefine`, on double-precision bit patterns. -/
def refineLane (a r : Nat) : Nat :=
  let a3 := fmul binary64 (fmul binary64 a a) a
  let tmp := fadd binary64 a3 r
  let mul := fadd binary64 r tmp
  let div := fadd binary64 a3 tmp
  let mul := fmul binary64 mul a
  fdiv binary64 mul div

/-- One lane of the refinement block: widen seed and input, refine twice,
narrow. -/
def refine2Lane (r x : Nat) : Nat :=
  let rd := fcvt binary32 binary64 r
  let xd := fcvt binary32 binary64 x
  let rd := refineLane rd xd
  let rd := refineLane rd xd
  fcvt binary64 binary32 rd

/-- The scalar function computed in every lane by `div3_epi32`: the high half of
the signed product with `0x55555556`, plus its own sign bit. -/
def div3Lane (n : Nat) : Nat :=
  let h := mul64 n 0x55555556 / 2 ^ 32
  (h + h / 2 ^ 31) % 2 ^ 32

/-- The scalar function computed in every lane by `_mm_blendv_epi8`. -/
def blendv8 (x y m : Nat) : Nat :=
  blendByte x y m 0 + 2 ^ 8 * blendByte x y m 1 + 2 ^ 16 * blendByte x y m 2
    + 2 ^ 24 * blendByte x y m 3

/-- The values `cbrt_ps` computes for one lane before the refinement block. -/
structure LaneStage where
  isZero : Nat
  isNanOrInf : Nat
  isSubnorm : Nat
  t : Nat
  r : Nat
deriving DecidableEq, Repr

/-- One lane of `cbrt_ps_seed`. -/
def seedLane (x : Nat) : LaneStage :=
  let sign := x &&& 0x80000000
  let abs := (2 ^ 32 - 1 - 0x80000000 % 2 ^ 32) &&& x
  let isZero := if feq binary32 x 0 then 0xFFFFFFFF else 0
  let isNanOrInf := if toInt32 abs > toInt32 (ofInt32 0x7F7FFFFF) then 0xFFFFFFFF else 0
  let isSubnorm := if toInt32 abs < toInt32 (ofInt32 0x00800000) then 0xFFFFFFFF else 0
  let B := blendv8 (ofInt32 709958130) (ofInt32 642849266) isSubnorm
  let t := fmul binary32 x (ofInt32 0x4b800000)
  let t := (2 ^ 32 - 1 - 0x80000000 % 2 ^ 32) &&& t
  let i := blendv8 abs t isSubnorm
  let i := div3Lane i
  let i := (i + B) % 2 ^ 32
  let r := i ||| sign
  ⟨isZero, isNanOrInf, isSubnorm, t, r⟩

/-- One lane of `cbrt_ps`. -/
def cbrtLane (x : Nat) : Nat :=
  let st := seedLane x
  let r := refine2Lane st.r x
  let r := if st.isZero / 2 ^ 31 % 2 = 1 then x else r
  let r := if st.isNanOrInf / 2 ^ 31 % 2 = 1 then fadd binary32 x x else r
  r

/-- The magnitude bits of the seed of one lane: a third of the absolute bit
pattern (of the rescaled value for a subnormal lane) plus the offset. -/
def seedMag (x : Nat) : Nat :=
  if x % 2 ^ 31 < 0x00800000 then (seedLane x).t / 3 + 642849266
  else x % 2 ^ 31 / 3 + 709958130

/-- A pattern assembled from a sign and a magnitude pattern. -/
def Fmt.pack (f : Fmt) (s A : Nat) : Nat := s * f.signBit + A

/-- Flip the sign bit of a 32-bit pattern. -/
def flipSign (x : Nat) : Nat :=
  if x / 2 ^ 31 % 2 = 1 then x - 2 ^ 31 else x + 2 ^ 31

/-! ## Rational values and closeness -/

/-- Multiplicative closeness: `y` is `x` up to `n` factors within
`[1 / (1 + w), 1 + w]`, both positive. -/
def Near (w : ℚ) (n : Nat) (x y : ℚ) : Prop :=
  0 < x ∧ 0 < y ∧ x ≤ y * (1 + w) ^ n ∧ y ≤ x * (1 + w) ^ n

/-- The value of a magnitude pattern (finite, sign bit clear) as a rational. -/
def Fmt.val (f : Fmt) (b : Nat) : ℚ := (f.mag b : ℚ) / 2 ^ f.unitExp

/-- The rational `x` lies between `2 ^ -k` and `2 ^ k`. -/
def InRange (k : Nat) (x : ℚ) : Prop := 1 / 2 ^ k ≤ x ∧ x ≤ 2 ^ k

/-- The rounding factor of double precision. -/
def w64 : ℚ := 1 / 2 ^ 52

/-- The rounding factor of single precision. -/
def w32 : ℚ := 1 / 2 ^ 23

/-- The value of a finite pattern as a rational number. -/
def Fmt.value (f : Fmt) (b : Nat) : ℚ := (f.toUnits b : ℚ) / 2 ^ f.unitExp

/-! ## The refinement over exact arithmetic and the offsets -/

/-- The operations of `cbrtRefine` in the order of the source, over an
arbitrary arithmetic: the 128-bit and the 256-bit variant both apply this
sequence to every lane, with the double-precision operations. -/
def details.cbrtRefineWith {α : Type} (mulOp addOp divOp : α → α → α) (a r : α) : α :=
  let a3 := mulOp (mulOp a a) a
  let tmp := addOp a3 r
  let mul := addOp r tmp
  let div := addOp a3 tmp
  let mul := mulOp mul a
  divOp mul div

/-- The divisor `div` of `cbrtRefine`, over an arbitrary arithmetic. -/
def details.cbrtRefineDivWith {α : Type} (mulOp addOp : α → α → α) (a r : α) : α :=
  let a3 := mulOp (mulOp a a) a
  let tmp := addOp a3 r
  let div := addOp a3 tmp
  div

/-- The function `cbrtRefine` read over exact arithmetic: the operations of the
source without rounding, in a field. -/
def cbrtRefineExact {K : Type} [Field K] (a r : K) : K :=
  details.cbrtRefineWith (fun x y => x * y) (fun x y => x + y) (fun x y => x / y) a r

/-- The divisor of `cbrtRefine` read over exact arithmetic. -/
def cbrtRefineDivExact {K : Type} [Field K] (a r : K) : K :=
  details.cbrtRefineDivWith (fun x y => x * y) (fun x y => x + y) a r

/-- The Halley update for the cube root as the specification writes it:
`refine(a, v) = a * (a³ + 2v) / (2a³ + v)`. -/
def halleySpec {K : Type} [Field K] (a v : K) : K :=
  a * (a ^ 3 + 2 * v) / (2 * a ^ 3 + v)

/-- The derivation of the offset `B1` given in the comment of the source:
`(127-127.0/3-0.03306235651)*2**23`, in exact rational arithmetic. -/
def B1_derivation : ℚ := (127 - 127 / 3 - 3306235651 / 10 ^ 11) * 2 ^ 23

/-- The derivation of the offset `B2` given in the comment of the source:
`(127-127.0/3-24/3-0.03306235651)*2**23`, in exact rational arithmetic. -/
def B2_derivation : ℚ := (127 - 127 / 3 - 24 / 3 - 3306235651 / 10 ^ 11) * 2 ^ 23

/-- The cube of the value of the seed pattern `a / 3 + 709958130` lies between
`p / q` and `q / p` times the value of the pattern `a`; magnitudes in units of
`2 ^ -149`, so the values are `mag / 2 ^ 149`. -/
def SeedWithin (p q a : Nat) : Prop :=
  p * binary32.mag a * (2 ^ 149 * 2 ^ 149) ≤ q * binary32.mag (a / 3 + 709958130) ^ 3 ∧
  p * binary32.mag (a / 3 + 709958130) ^ 3 ≤ q * binary32.mag a * (2 ^ 149 * 2 ^ 149)

/-! # Properties -/

theorem mul64_lt (a b : Nat) : mul64 a b < 2 ^ 64 := by
  unfold mul64
  have h := Int.emod_lt_of_pos (toInt32 a * toInt32 b) (show (0 : Int) < 2 ^ 64 by norm_num)
  have h0 := Int.emod_nonneg (toInt32 a * toInt32 b) (show (2 ^ 64 : Int) ≠ 0 by norm_num)
  omega

theorem shuffle_3311 (a : M128) :
    mm_shuffle_epi32 a (MM_SHUFFLE 3 3 1 1) = ⟨a.e1, a.e1, a.e3, a.e3⟩ := by
  rfl

theorem blend16_lo (a b : Nat) (ha : a < 2 ^ 32) :
    blend16 a b 0b11001100 0 = a ∧ blend16 a b 0b11001100 4 = a := by
  have t0 : Nat.testBit 204 0 = false := by decide
  have t1 : Nat.testBit 204 1 = false := by decide
  have t4 : Nat.testBit 204 4 = false := by decide
  have t5 : Nat.testBit 204 5 = false := by decide
  simp only [blend16, t0, t1, t4, t5]
  constructor <;> simp <;> omega

theorem blend16_hi (a b : Nat) (hb : b < 2 ^ 32) :
    blend16 a b 0b11001100 2 = b ∧ blend16 a b 0b11001100 6 = b := by
  have t2 : Nat.testBit 204 2 = true := by decide
  have t3 : Nat.testBit 204 3 = true := by decide
  have t6 : Nat.testBit 204 6 = true := by decide
  have t7 : Nat.testBit 204 7 = true := by decide
  simp only [blend16, t2, t3, t6, t7]
  constructor <;> simp <;> omega

theorem div3_epi32_lanes (v : M128) :
    details.div3_epi32 v = M128.map div3Lane v := by
  have hm : ofInt32 0x55555556 = 0x55555556 := by decide
  have hlt : ∀ a b : Nat, mul64 a b / 2 ^ 32 < 2 ^ 32 := by
    intro a b
    have := mul64_lt a b
    omega
  have sh : ∀ x : Nat, x < 2 ^ 32 →
      (x + (if 31 > 31 then 0 else (x % 2 ^ 32) >>> 31)) % 2 ^ 32 = (x + x / 2 ^ 31) % 2 ^ 32 := by
    intro x hx
    rw [Nat.shiftRight_eq_div_pow, Nat.mod_eq_of_lt hx]
    simp
  simp only [details.div3_epi32, shuffle_3311, mm_mul_epi32, mm_blend_epi16, mm_add_epi32,
    mm_srli_epi32, mm_set1_epi32, M128.zip, M128.map, hm, div3Lane,
    (blend16_lo _ _ (hlt _ _)).1, (blend16_lo _ _ (hlt _ _)).2,
    (blend16_hi _ _ (hlt _ _)).1, (blend16_hi _ _ (hlt _ _)).2, sh _ (hlt _ _)]

theorem toInt32_range (n : Nat) : -2147483648 ≤ toInt32 n ∧ toInt32 n < 2147483648 := by
  unfold toInt32
  split <;> omega

theorem toNat_emod_two_pow_64 (P : Int) (h1 : -18446744073709551616 ≤ P)
    (h2 : P < 18446744073709551616) :
    ((P % 18446744073709551616).toNat : Int)
      = if P < 0 then P + 18446744073709551616 else P := by
  have h0 := Int.emod_nonneg P (show (18446744073709551616 : Int) ≠ 0 by norm_num)
  rw [Int.toNat_of_nonneg h0]
  split
  · rw [← Int.add_mul_emod_self (a := P) (b := 1) (c := 18446744073709551616)]
    rw [Int.emod_eq_of_lt (by omega) (by omega)]
    omega
  · rw [Int.emod_eq_of_lt (by omega) (by omega)]

theorem tdiv_three (z : Int) : Int.tdiv z 3 = if z < 0 then -((-z) / 3) else z / 3 := by
  split
  · have h : z = -(-z) := by omega
    rw [h, Int.neg_tdiv, Int.tdiv_eq_ediv (by omega) (by norm_num)]
    simp
  · exact Int.tdiv_eq_ediv (by omega) (by norm_num)

theorem toInt32_wrap (hi : Int) (h : Nat) (hb : -1073741824 ≤ hi ∧ hi < 1073741824)
    (hh : (h : Int) = if hi < 0 then hi + 4294967296 else hi) :
    toInt32 ((h + h / 2 ^ 31) % 2 ^ 32) = if hi < 0 then hi + 1 else hi := by
  unfold toInt32
  by_cases hneg : hi < 0
  · simp only [hneg, if_true] at hh ⊢
    norm_num
    split <;> omega
  · simp only [hneg, if_false] at hh ⊢
    norm_num
    split <;> omega

/-- The lane function of `div3_epi32` is division by 3 truncated toward zero on
the two's complement reading of the lane. -/
theorem div3Lane_eq_tdiv (n : Nat) : toInt32 (div3Lane n) = Int.tdiv (toInt32 n) 3 := by
  obtain ⟨h1, h2⟩ := toInt32_range n
  have hM : toInt32 0x55555556 = 1431655766 := by decide
  rw [tdiv_three]
  generalize hz : toInt32 n = z at h1 h2 ⊢
  have hu := toNat_emod_two_pow_64 (z * 1431655766) (by omega) (by omega)
  have hdef : div3Lane n = ((z * 1431655766 % 18446744073709551616).toNat / 2 ^ 32
      + (z * 1431655766 % 18446744073709551616).toNat / 2 ^ 32 / 2 ^ 31) % 2 ^ 32 := by
    simp only [div3Lane, mul64, hz, hM]
    norm_num
  rw [hdef]
  clear hdef
  generalize (z * 1431655766 % 18446744073709551616).toNat = u at hu ⊢
  generalize hP : z * 1431655766 = P at hu
  have hh : ((u / 4294967296 : Nat) : Int)
      = if P < 0 then P / 4294967296 + 4294967296 else P / 4294967296 := by
    split at hu <;> simp only [*, if_true, if_false] <;> omega
  clear hu
  generalize hhi : P / 4294967296 = hi at hh
  have e32 : (2 : Nat) ^ 32 = 4294967296 := by norm_num
  rw [e32]
  generalize u / 4294967296 = h at hh ⊢
  have hsgn : P < 0 ↔ hi < 0 := by omega
  have hr : (if z < 0 then -((-z) / 3) else z / 3) = if hi < 0 then hi + 1 else hi := by
    split <;> split <;> omega
  rw [hr]
  have hb : -1073741824 ≤ hi ∧ hi < 1073741824 := by omega
  have hh2 : (h : Int) = if hi < 0 then hi + 4294967296 else hi := by
    rw [hh]
    by_cases hneg : hi < 0
    · simp only [hneg, hsgn.mpr hneg, if_true]
    · simp only [hneg, mt hsgn.mp hneg, if_false]
  have := toInt32_wrap hi h hb hh2
  rw [e32] at this
  exact this


/-! ## Lane-wise form of the vector functions -/

theorem cbrtRefine256_lanes (a r : M256d) :
    details.cbrtRefine256 a r
      = ⟨refineLane a.d0 r.d0, refineLane a.d1 r.d1, refineLane a.d2 r.d2, refineLane a.d3 r.d3⟩ := by
  rfl

theorem cbrtRefine_lanes (a r : M128d) :
    details.cbrtRefine a r = ⟨refineLane a.d0 r.d0, refineLane a.d1 r.d1⟩ := by
  rfl

theorem refineAVX_lanes (r x : M128) : refineAVX r x = M128.zip refine2Lane r x := by
  simp only [refineAVX, cbrtRefine256_lanes, mm256_cvtps_pd, mm256_cvtpd_ps, M128.zip,
    refine2Lane]

theorem refineSSE_lanes (r x : M128) : refineSSE r x = M128.zip refine2Lane r x := by
  simp only [refineSSE, cbrtRefine_lanes, mm_cvtps_pd, mm_cvtpd_ps, mm_movehl_ps, mm_movelh_ps,
    M128.zip, refine2Lane]

theorem cbrt_ps_seed_lanes (x : M128) :
    cbrt_ps_seed x =
      ⟨M128.map (fun a => (seedLane a).isZero) x, M128.map (fun a => (seedLane a).isNanOrInf) x,
       M128.map (fun a => (seedLane a).isSubnorm) x, M128.map (fun a => (seedLane a).t) x,
       M128.map (fun a => (seedLane a).r) x⟩ := by
  simp only [cbrt_ps_seed, div3_epi32_lanes]
  rfl

theorem cbrt_ps_lanes (avx : Bool) (x : M128) : cbrt_ps avx x = M128.map cbrtLane x := by
  cases avx <;>
    simp only [cbrt_ps, cbrt_ps_seed_lanes, refineAVX_lanes, refineSSE_lanes, if_true] <;> rfl


theorem and_sign (x : Nat) : x &&& 0x80000000 = x / 2 ^ 31 % 2 * 2 ^ 31 := by
  have h := Nat.and_two_pow x 31
  have e : (2 : Nat) ^ 31 = 0x80000000 := by norm_num
  rw [e] at h
  rw [h, Nat.testBit_to_div_mod]
  by_cases hb : x / 2147483648 % 2 = 1
  · simp [hb]
  · have : x / 2147483648 % 2 = 0 := by omega
    simp [this]

theorem andnot_sign (x : Nat) : (2 ^ 32 - 1 - 0x80000000 % 2 ^ 32) &&& x = x % 2 ^ 31 := by
  have h := Nat.and_pow_two_sub_one_eq_mod x 31
  rw [Nat.land_comm] at h
  have e : (2 ^ 32 - 1 - 0x80000000 % 2 ^ 32 : Nat) = 2 ^ 31 - 1 := by norm_num
  rw [e, h]

theorem blendv8_ones (a b : Nat) : blendv8 a b 0xFFFFFFFF = b % 2 ^ 32 := by
  simp only [blendv8, blendByte]
  norm_num
  omega

theorem blendv8_zero (a b : Nat) : blendv8 a b 0 = a % 2 ^ 32 := by
  simp only [blendv8, blendByte]
  norm_num
  omega

theorem feq_zero (x : Nat) : feq binary32 x 0 ↔ x % 2 ^ 31 = 0 := by
  simp only [feq, Fmt.isNaN, Fmt.isZero, Fmt.expo, Fmt.frac, Fmt.expMax, Fmt.absBits,
    Fmt.signBit, binary32]
  norm_num
  omega


theorem toInt32_of_lt (n : Nat) (h : n < 2 ^ 31) : toInt32 n = (n : Int) := by
  unfold toInt32
  have : n % 2 ^ 32 = n := Nat.mod_eq_of_lt (by omega)
  rw [this, if_pos h]

theorem seedLane_isZero (x : Nat) :
    (seedLane x).isZero = if x % 2 ^ 31 = 0 then 0xFFFFFFFF else 0 := by
  simp only [seedLane, feq_zero]

theorem seedLane_isNanOrInf (x : Nat) :
    (seedLane x).isNanOrInf = if 0x7F7FFFFF < x % 2 ^ 31 then 0xFFFFFFFF else 0 := by
  have h : toInt32 (ofInt32 0x7F7FFFFF) = 0x7F7FFFFF := by decide
  have hx := toInt32_of_lt (x % 2 ^ 31) (Nat.mod_lt _ (by norm_num))
  simp only [seedLane, andnot_sign, h, hx]
  by_cases hc : 0x7F7FFFFF < x % 2 ^ 31
  · rw [if_pos hc, if_pos (by omega)]
  · rw [if_neg hc, if_neg (by omega)]

theorem seedLane_isSubnorm (x : Nat) :
    (seedLane x).isSubnorm = if x % 2 ^ 31 < 0x00800000 then 0xFFFFFFFF else 0 := by
  have h : toInt32 (ofInt32 0x00800000) = 0x00800000 := by decide
  have hx := toInt32_of_lt (x % 2 ^ 31) (Nat.mod_lt _ (by norm_num))
  simp only [seedLane, andnot_sign, h, hx]
  by_cases hc : x % 2 ^ 31 < 0x00800000
  · rw [if_pos hc, if_pos (by omega)]
  · rw [if_neg hc, if_neg (by omega)]

theorem seedLane_t (x : Nat) :
    (seedLane x).t = fmul binary32 x 0x4b800000 % 2 ^ 31 := by
  have h : ofInt32 0x4b800000 = 0x4b800000 := by decide
  simp only [seedLane, andnot_sign, h]

/-- The blend at the end of `cbrt_ps`, for one lane. -/
theorem cbrtLane_eq (x : Nat) :
    cbrtLane x = if 0x7F7FFFFF < x % 2 ^ 31 then fadd binary32 x x
      else if x % 2 ^ 31 = 0 then x else refine2Lane (seedLane x).r x := by
  unfold cbrtLane
  simp only [seedLane_isZero, seedLane_isNanOrInf]
  have e31 : (2 : Nat) ^ 31 = 2147483648 := by norm_num
  rw [e31]
  by_cases h1 : 0x7F7FFFFF < x % 2147483648
  · simp [h1]
  · by_cases h2 : x % 2147483648 = 0
    · simp [h1, h2]
    · simp [h1, h2]

theorem lane_map (f : Nat → Nat) (v : M128) (k : Fin 4) : (M128.map f v).lane k = f (v.lane k) := by
  fin_cases k <;> rfl

theorem lane_zip (f : Nat → Nat → Nat) (a b : M128) (k : Fin 4) :
    (M128.zip f a b).lane k = f (a.lane k) (b.lane k) := by
  fin_cases k <;> rfl


theorem lane_zip3 (f : Nat → Nat → Nat → Nat) (a b c : M128) (k : Fin 4) :
    (M128.zip3 f a b c).lane k = f (a.lane k) (b.lane k) (c.lane k) := by
  fin_cases k <;> rfl

theorem seed_isZero_lane (x : M128) (k : Fin 4) :
    (cbrt_ps_seed x).isZero.lane k = (seedLane (x.lane k)).isZero := by
  rw [cbrt_ps_seed_lanes, lane_map]

theorem seed_isNanOrInf_lane (x : M128) (k : Fin 4) :
    (cbrt_ps_seed x).isNanOrInf.lane k = (seedLane (x.lane k)).isNanOrInf := by
  rw [cbrt_ps_seed_lanes, lane_map]

theorem seed_isSubnorm_lane (x : M128) (k : Fin 4) :
    (cbrt_ps_seed x).isSubnorm.lane k = (seedLane (x.lane k)).isSubnorm := by
  rw [cbrt_ps_seed_lanes, lane_map]

theorem seed_t_lane (x : M128) (k : Fin 4) :
    (cbrt_ps_seed x).t.lane k = (seedLane (x.lane k)).t := by
  rw [cbrt_ps_seed_lanes, lane_map]

theorem seed_r_lane (x : M128) (k : Fin 4) :
    (cbrt_ps_seed x).r.lane k = (seedLane (x.lane k)).r := by
  rw [cbrt_ps_seed_lanes, lane_map]

theorem cbrt_ps_lane (avx : Bool) (x : M128) (k : Fin 4) :
    (cbrt_ps avx x).lane k = cbrtLane (x.lane k) := by
  rw [cbrt_ps_lanes, lane_map]

theorem refined_lane (avx : Bool) (r x : M128) (k : Fin 4) :
    (if avx then refineAVX r x else refineSSE r x).lane k = refine2Lane (r.lane k) (x.lane k) := by
  cases avx
  · simp only [refineSSE_lanes, lane_zip, Bool.false_eq_true, if_false]
  · simp only [refineAVX_lanes, lane_zip, if_true]

theorem fadd_inf_pos : fadd binary32 0x7F800000 0x7F800000 = 0x7F800000 := by
  decide

theorem fadd_inf_neg : fadd binary32 0xFF800000 0xFF800000 = 0xFF800000 := by
  decide

theorem isNaN32_iff (x : Nat) :
    binary32.isNaN x ↔ x / 8388608 % 256 = 255 ∧ x % 8388608 ≠ 0 := by
  simp only [Fmt.isNaN, Fmt.expo, Fmt.frac, Fmt.expMax, binary32]
  norm_num

theorem quiet32_eq (x : Nat) :
    binary32.quiet x = if x / 4194304 % 2 = 1 then x else x + 4194304 := by
  simp only [Fmt.quiet, Fmt.quietBit, binary32]
  norm_num

theorem isNaN32_quiet (x : Nat) (h : binary32.isNaN x) : binary32.isNaN (binary32.quiet x) := by
  rw [quiet32_eq]
  rw [isNaN32_iff] at h ⊢
  split <;> omega

theorem isNaN32_abs (x : Nat) (h : binary32.isNaN x) : 0x7F7FFFFF < x % 2 ^ 31 := by
  rw [isNaN32_iff] at h
  omega

theorem fadd_nan (f : Fmt) (x y : Nat) (h : f.isNaN x) : fadd f x y = f.quiet x := by
  unfold fadd
  rw [if_pos h]

/-! ## Bounds on rounding -/

theorem rne_ge_div (n d : Nat) : n / d ≤ rne n d := by
  unfold rne
  simp only
  split_ifs <;> omega

theorem rne_le_div_succ (n d : Nat) : rne n d ≤ n / d + 1 := by
  unfold rne
  simp only
  split_ifs <;> omega

theorem rne_le (n d X : Nat) (h : n < d * X) : rne n d ≤ X := by
  have h1 := rne_le_div_succ n d
  have h2 : n / d < X := Nat.div_lt_of_lt_mul h
  omega

theorem rne_ge (n d Y : Nat) (hd : 0 < d) (h : d * Y ≤ n) : Y ≤ rne n d := by
  have h1 := rne_ge_div n d
  have h2 : Y ≤ n / d := (Nat.le_div_iff_mul_le hd).mpr (by rw [Nat.mul_comm]; exact h)
  omega

theorem shiftOf_le_fuel (m fuel q : Nat) : shiftOf m fuel q ≤ fuel := by
  induction fuel generalizing q with
  | zero => simp [shiftOf]
  | succ n ih =>
    unfold shiftOf
    split
    · omega
    · have := ih (q / 2)
      omega

theorem shiftOf_le_of_lt (m fuel q K : Nat) (h : q < 2 ^ (m + 1 + K)) :
    shiftOf m fuel q ≤ K := by
  induction fuel generalizing q K with
  | zero => simp [shiftOf]
  | succ n ih =>
    unfold shiftOf
    split
    · omega
    · rename_i hq
      cases K with
      | zero => exact absurd h hq
      | succ K =>
        have h2 : q / 2 < 2 ^ (m + 1 + K) := by
          apply Nat.div_lt_of_lt_mul
          have e : 2 ^ (m + 1 + (K + 1)) = 2 * 2 ^ (m + 1 + K) := by
            rw [← Nat.add_assoc, Nat.pow_succ, Nat.mul_comm]
          omega
        have := ih (q / 2) K h2
        omega

theorem shiftOf_spec_lt (m fuel q : Nat) (h : shiftOf m fuel q < fuel) :
    q / 2 ^ shiftOf m fuel q < 2 ^ (m + 1) := by
  induction fuel generalizing q with
  | zero => omega
  | succ n ih =>
    unfold shiftOf at h ⊢
    split
    · rename_i hq
      simpa using hq
    · rename_i hq
      rw [if_neg hq] at h
      have := ih (q / 2) (by omega)
      rw [Nat.pow_succ, Nat.mul_comm, ← Nat.div_div_eq_div_mul]
      exact this

theorem shiftOf_div_ge (m fuel q : Nat) (h : 0 < shiftOf m fuel q) :
    2 ^ m ≤ q / 2 ^ shiftOf m fuel q := by
  induction fuel generalizing q with
  | zero => simp [shiftOf] at h
  | succ n ih =>
    unfold shiftOf at h ⊢
    split
    · rename_i hq
      rw [if_pos hq] at h
      omega
    · rename_i hq
      rw [Nat.pow_succ, Nat.mul_comm, ← Nat.div_div_eq_div_mul]
      by_cases h0 : 0 < shiftOf m n (q / 2)
      · exact ih (q / 2) h0
      · have hz : shiftOf m n (q / 2) = 0 := by omega
        rw [hz, Nat.pow_zero, Nat.div_one]
        have e : 2 ^ (m + 1) = 2 * 2 ^ m := by rw [Nat.pow_succ, Nat.mul_comm]
        omega

theorem shiftOf_ge (m fuel q K : Nat) (h : 2 ^ (m + K) ≤ q) (hK : 1 ≤ K) (hf : K ≤ fuel) :
    K ≤ shiftOf m fuel q := by
  induction fuel generalizing q K with
  | zero => omega
  | succ n ih =>
    unfold shiftOf
    have hq : ¬ q < 2 ^ (m + 1) := by
      have : 2 ^ (m + 1) ≤ 2 ^ (m + K) := Nat.pow_le_pow_right (by norm_num) (by omega)
      omega
    rw [if_neg hq]
    by_cases h1 : K = 1
    · omega
    · have h2 : 2 ^ (m + (K - 1)) ≤ q / 2 := by
        rw [Nat.le_div_iff_mul_le (by norm_num)]
        have e : 2 ^ (m + (K - 1)) * 2 = 2 ^ (m + K) := by
          rw [← Nat.pow_succ]
          congr 1
          omega
        omega
      have := ih (q / 2) (K - 1) h2 (by omega) (by omega)
      omega

theorem roundMag_le_inf (f : Fmt) (n d : Nat) : roundMag f n d ≤ f.infBits := by
  unfold roundMag
  simp only
  split <;> omega

theorem roundMag_le_raw (f : Fmt) (n d : Nat) :
    roundMag f n d ≤ shiftOf f.mbits (2 ^ f.ebits) (n / d) * 2 ^ f.mbits
        + rne n (d * 2 ^ shiftOf f.mbits (2 ^ f.ebits) (n / d)) := by
  unfold roundMag
  simp only
  split <;> omega

theorem roundMag_le (f : Fmt) (n d K : Nat) (hd : 0 < d) (h : n < d * 2 ^ (f.mbits + 1 + K)) :
    roundMag f n d ≤ (K + 2) * 2 ^ f.mbits := by
  by_cases hK : K < 2 ^ f.ebits
  · have hq : n / d < 2 ^ (f.mbits + 1 + K) := Nat.div_lt_of_lt_mul h
    have hk := shiftOf_le_of_lt f.mbits (2 ^ f.ebits) (n / d) K hq
    have hs := shiftOf_spec_lt f.mbits (2 ^ f.ebits) (n / d) (by omega)
    have hle := roundMag_le_raw f n d
    generalize shiftOf f.mbits (2 ^ f.ebits) (n / d) = k at hk hs hle
    have hdk : 0 < d * 2 ^ k := Nat.mul_pos hd (Nat.two_pow_pos k)
    have hr : rne n (d * 2 ^ k) ≤ 2 ^ (f.mbits + 1) := by
      apply rne_le _ _ _
      rw [Nat.div_div_eq_div_mul] at hs
      rw [Nat.mul_comm]
      exact (Nat.div_lt_iff_lt_mul hdk).mp hs
    have e : 2 ^ (f.mbits + 1) = 2 * 2 ^ f.mbits := by rw [Nat.pow_succ, Nat.mul_comm]
    have hkm : k * 2 ^ f.mbits ≤ K * 2 ^ f.mbits := Nat.mul_le_mul_right _ hk
    have e2 : (K + 2) * 2 ^ f.mbits = K * 2 ^ f.mbits + 2 * 2 ^ f.mbits := by ring
    omega
  · have h1 := roundMag_le_inf f n d
    have h2 : f.infBits ≤ (K + 2) * 2 ^ f.mbits := by
      unfold Fmt.infBits Fmt.expMax
      apply Nat.mul_le_mul_right
      omega
    omega

theorem roundMag_ge (f : Fmt) (n d K : Nat) (hd : 0 < d) (h : d * 2 ^ (f.mbits + K) ≤ n)
    (hK : 1 ≤ K) (hK2 : K + 1 ≤ f.expMax) :
    (K + 1) * 2 ^ f.mbits ≤ roundMag f n d := by
  have hq : 2 ^ (f.mbits + K) ≤ n / d :=
    (Nat.le_div_iff_mul_le hd).mpr (by rw [Nat.mul_comm]; exact h)
  have hfuel : K ≤ 2 ^ f.ebits := by
    unfold Fmt.expMax at hK2
    omega
  have hk := shiftOf_ge f.mbits (2 ^ f.ebits) (n / d) K hq hK hfuel
  have hs := shiftOf_div_ge f.mbits (2 ^ f.ebits) (n / d) (by omega)
  unfold roundMag
  simp only
  generalize shiftOf f.mbits (2 ^ f.ebits) (n / d) = k at hk hs
  have hdk : 0 < d * 2 ^ k := Nat.mul_pos hd (Nat.two_pow_pos k)
  have hr : 2 ^ f.mbits ≤ rne n (d * 2 ^ k) := by
    apply rne_ge _ _ _ hdk
    rw [Nat.div_div_eq_div_mul] at hs
    rw [Nat.mul_comm]
    exact (Nat.le_div_iff_mul_le hdk).mp hs
  have hkm : K * 2 ^ f.mbits ≤ k * 2 ^ f.mbits := Nat.mul_le_mul_right _ hk
  have e2 : (K + 1) * 2 ^ f.mbits = K * 2 ^ f.mbits + 2 ^ f.mbits := by ring
  have hinf : (K + 1) * 2 ^ f.mbits ≤ f.infBits := by
    unfold Fmt.infBits
    exact Nat.mul_le_mul_right _ hK2
  split <;> omega

/-! ## Sign and magnitude of a pattern -/

theorem signBit_eq (f : Fmt) : f.signBit = 2 ^ f.mbits * 2 ^ f.ebits := by
  unfold Fmt.signBit
  rw [Nat.add_comm, Nat.pow_add]

theorem signBit_pos (f : Fmt) : 0 < f.signBit := Nat.two_pow_pos _

theorem pack_zero (f : Fmt) (A : Nat) : f.pack 0 A = A := by
  simp [Fmt.pack]

theorem sign_pack (f : Fmt) (s A : Nat) (hs : s ≤ 1) (hA : A < f.signBit) :
    f.sign (f.pack s A) = s := by
  unfold Fmt.sign Fmt.pack
  have e : f.signBit = 2 ^ (f.ebits + f.mbits) := rfl
  rw [← e, Nat.mul_comm, Nat.mul_add_div (signBit_pos f), Nat.div_eq_of_lt hA]
  omega

theorem absBits_pack (f : Fmt) (s A : Nat) (hA : A < f.signBit) :
    f.absBits (f.pack s A) = A := by
  unfold Fmt.absBits Fmt.pack
  have e : f.signBit = 2 ^ (f.ebits + f.mbits) := rfl
  rw [← e, Nat.mul_comm, Nat.mul_add_mod, Nat.mod_eq_of_lt hA]

theorem expo_pack (f : Fmt) (s A : Nat) : f.expo (f.pack s A) = f.expo A := by
  unfold Fmt.expo Fmt.pack
  rw [signBit_eq]
  have e : s * (2 ^ f.mbits * 2 ^ f.ebits) + A = 2 ^ f.mbits * (2 ^ f.ebits * s) + A := by ring
  rw [e, Nat.mul_add_div (Nat.two_pow_pos _), Nat.mul_add_mod]

theorem frac_pack (f : Fmt) (s A : Nat) : f.frac (f.pack s A) = f.frac A := by
  unfold Fmt.frac Fmt.pack
  rw [signBit_eq]
  have e : s * (2 ^ f.mbits * 2 ^ f.ebits) + A = 2 ^ f.mbits * (2 ^ f.ebits * s) + A := by ring
  rw [e, Nat.mul_add_mod]

theorem mag_pack (f : Fmt) (s A : Nat) : f.mag (f.pack s A) = f.mag A := by
  unfold Fmt.mag
  rw [expo_pack, frac_pack]

theorem isNaN_pack (f : Fmt) (s A : Nat) : f.isNaN (f.pack s A) ↔ f.isNaN A := by
  unfold Fmt.isNaN
  rw [expo_pack, frac_pack]

theorem isInf_pack (f : Fmt) (s A : Nat) : f.isInf (f.pack s A) ↔ f.isInf A := by
  unfold Fmt.isInf
  rw [expo_pack, frac_pack]

theorem isZero_pack (f : Fmt) (s A : Nat) (hA : A < f.signBit) :
    f.isZero (f.pack s A) ↔ f.isZero A := by
  unfold Fmt.isZero
  rw [absBits_pack f s A hA]
  have := absBits_pack f 0 A hA
  rw [pack_zero] at this
  rw [this]

theorem sign_pos (f : Fmt) (A : Nat) (hA : A < f.signBit) : f.sign A = 0 := by
  have := sign_pack f 0 A (by omega) hA
  rwa [pack_zero] at this

theorem quiet_pack (f : Fmt) (s A : Nat) (hm : 1 ≤ f.mbits) :
    f.quiet (f.pack s A) = f.pack s (f.quiet A) := by
  unfold Fmt.quiet Fmt.pack
  have e : f.signBit = f.quietBit * (2 * 2 ^ f.ebits) := by
    rw [signBit_eq]
    unfold Fmt.quietBit
    have : 2 ^ f.mbits = 2 ^ (f.mbits - 1) * 2 := by
      rw [← Nat.pow_succ]
      congr 1
      omega
    rw [this]
    ring
  have hq : (s * f.signBit + A) / f.quietBit % 2 = A / f.quietBit % 2 := by
    rw [e]
    have e2 : s * (f.quietBit * (2 * 2 ^ f.ebits)) + A
        = f.quietBit * (2 * (2 ^ f.ebits * s)) + A := by ring
    have hQ : 0 < f.quietBit := Nat.two_pow_pos _
    rw [e2, Nat.mul_add_div hQ, Nat.mul_add_mod]
  rw [hq]
  split <;> omega

theorem pack_lt (f : Fmt) (s A : Nat) (hs : s ≤ 1) (hA : A < f.signBit) :
    f.pack s A < 2 * f.signBit := by
  unfold Fmt.pack
  have : s * f.signBit ≤ 1 * f.signBit := Nat.mul_le_mul_right _ hs
  omega

theorem pack_sign_abs (f : Fmt) (b : Nat) (hb : b < 2 * f.signBit) :
    f.pack (f.sign b) (f.absBits b) = b := by
  unfold Fmt.pack Fmt.sign Fmt.absBits
  have e : f.signBit = 2 ^ (f.ebits + f.mbits) := rfl
  rw [← e]
  have h1 : b / f.signBit < 2 := Nat.div_lt_of_lt_mul (by omega)
  rw [Nat.mod_eq_of_lt h1, Nat.mul_comm]
  exact Nat.div_add_mod b f.signBit

theorem infBits_lt (f : Fmt) : f.infBits < f.signBit := by
  rw [signBit_eq]
  unfold Fmt.infBits Fmt.expMax
  rw [Nat.mul_comm (2 ^ f.mbits)]
  apply Nat.mul_lt_mul_of_pos_right _ (Nat.two_pow_pos _)
  have := Nat.two_pow_pos f.ebits
  omega

/-! ## Operations on sign and magnitude -/

theorem fmul_pack (f : Fmt) (s1 s2 A B : Nat) (h1 : s1 ≤ 1) (h2 : s2 ≤ 1)
    (hA : A < f.signBit) (hB : B < f.signBit) (nA : ¬ f.isNaN A) (nB : ¬ f.isNaN B)
    (hv : ¬ ((f.isInf A ∧ f.isZero B) ∨ (f.isZero A ∧ f.isInf B))) :
    fmul f (f.pack s1 A) (f.pack s2 B) = f.pack ((s1 + s2) % 2) (fmul f A B) := by
  unfold fmul
  simp only [isNaN_pack, isInf_pack, isZero_pack f _ _ hA, isZero_pack f _ _ hB,
    sign_pack f _ _ h1 hA, sign_pack f _ _ h2 hB, mag_pack, sign_pos f _ hA, sign_pos f _ hB,
    nA, nB, hv, if_false]
  unfold Fmt.pack
  split <;> simp

theorem fmul_pos_le (f : Fmt) (A B : Nat) (hA : A < f.signBit) (hB : B < f.signBit)
    (nA : ¬ f.isNaN A) (nB : ¬ f.isNaN B)
    (hv : ¬ ((f.isInf A ∧ f.isZero B) ∨ (f.isZero A ∧ f.isInf B))) :
    fmul f A B ≤ f.infBits := by
  unfold fmul
  simp only [sign_pos f _ hA, sign_pos f _ hB, nA, nB, hv, if_false]
  have := roundMag_le_inf f (f.mag A * f.mag B) (2 ^ f.unitExp)
  split <;> simp <;> omega

theorem fdiv_pack (f : Fmt) (s1 s2 A B : Nat) (h1 : s1 ≤ 1) (h2 : s2 ≤ 1)
    (hA : A < f.signBit) (hB : B < f.signBit) (nA : ¬ f.isNaN A) (nB : ¬ f.isNaN B)
    (hv : ¬ ((f.isInf A ∧ f.isInf B) ∨ (f.isZero A ∧ f.isZero B))) :
    fdiv f (f.pack s1 A) (f.pack s2 B) = f.pack ((s1 + s2) % 2) (fdiv f A B) := by
  unfold fdiv
  simp only [isNaN_pack, isInf_pack, isZero_pack f _ _ hA, isZero_pack f _ _ hB,
    sign_pack f _ _ h1 hA, sign_pack f _ _ h2 hB, mag_pack, sign_pos f _ hA, sign_pos f _ hB,
    nA, nB, hv, if_false]
  unfold Fmt.pack
  split
  · simp
  · split <;> simp

theorem fdiv_pos_le (f : Fmt) (A B : Nat) (hA : A < f.signBit) (hB : B < f.signBit)
    (nA : ¬ f.isNaN A) (nB : ¬ f.isNaN B)
    (hv : ¬ ((f.isInf A ∧ f.isInf B) ∨ (f.isZero A ∧ f.isZero B))) :
    fdiv f A B ≤ f.infBits := by
  unfold fdiv
  simp only [sign_pos f _ hA, sign_pos f _ hB, nA, nB, hv, if_false]
  have := roundMag_le_inf f (f.mag A * 2 ^ f.unitExp) (f.mag B)
  split
  · simp
  · split <;> simp <;> omega

theorem toUnits_pack (f : Fmt) (s A : Nat) (hs : s ≤ 1) (hA : A < f.signBit) :
    f.toUnits (f.pack s A) = if s = 1 then -(f.mag A : Int) else (f.mag A : Int) := by
  unfold Fmt.toUnits
  rw [sign_pack f s A hs hA, mag_pack]

theorem toUnits_pos (f : Fmt) (A : Nat) (hA : A < f.signBit) : f.toUnits A = (f.mag A : Int) := by
  have := toUnits_pack f 0 A (by omega) hA
  rw [pack_zero] at this
  rw [this, if_neg (by omega)]

theorem fadd_finite (f : Fmt) (a b : Nat) (nA : ¬ f.isNaN a) (nB : ¬ f.isNaN b)
    (iA : ¬ f.isInf a) (iB : ¬ f.isInf b) :
    fadd f a b =
      if f.toUnits a + f.toUnits b = 0 then (if f.sign a = 1 ∧ f.sign b = 1 then f.signBit else 0)
      else if f.toUnits a + f.toUnits b < 0
        then f.signBit + roundMag f (f.toUnits a + f.toUnits b).natAbs 1
      else roundMag f (f.toUnits a + f.toUnits b).natAbs 1 := by
  unfold fadd
  simp only [nA, nB, iA, iB, if_false]

theorem fadd_inf_left (f : Fmt) (a b : Nat) (nA : ¬ f.isNaN a) (nB : ¬ f.isNaN b)
    (iA : f.isInf a) (hs : f.sign a = f.sign b) : fadd f a b = a := by
  unfold fadd
  simp only [nA, nB, iA, hs, if_false, if_true, ne_eq, not_true, and_false]

theorem fadd_inf_right (f : Fmt) (a b : Nat) (nA : ¬ f.isNaN a) (nB : ¬ f.isNaN b)
    (iA : ¬ f.isInf a) (iB : f.isInf b) : fadd f a b = b := by
  unfold fadd
  simp only [nA, nB, iA, iB, if_false, if_true]

theorem fadd_pos (f : Fmt) (A B : Nat) (hA : A < f.signBit) (hB : B < f.signBit)
    (nA : ¬ f.isNaN A) (nB : ¬ f.isNaN B) :
    fadd f A B = if f.isInf A then A else if f.isInf B then B
      else if f.mag A + f.mag B = 0 then 0 else roundMag f (f.mag A + f.mag B) 1 := by
  by_cases iA : f.isInf A
  · rw [if_pos iA, fadd_inf_left f A B nA nB iA (by rw [sign_pos f A hA, sign_pos f B hB])]
  · by_cases iB : f.isInf B
    · rw [if_neg iA, if_pos iB, fadd_inf_right f A B nA nB iA iB]
    · rw [if_neg iA, if_neg iB, fadd_finite f A B nA nB iA iB, toUnits_pos f A hA,
        toUnits_pos f B hB, sign_pos f A hA]
      generalize f.mag A = a
      generalize f.mag B = b
      by_cases h : a + b = 0
      · have h0 : (a : Int) + (b : Int) = 0 := by omega
        rw [if_pos h, if_pos h0, if_neg (by omega)]
      · have h0 : ¬ ((a : Int) + (b : Int) = 0) := by omega
        have h1 : ¬ ((a : Int) + (b : Int) < 0) := by omega
        have e : ((a : Int) + (b : Int)).natAbs = a + b := by omega
        rw [if_neg h, if_neg h0, if_neg h1, e]

theorem toUnits_neg (f : Fmt) (A : Nat) (hA : A < f.signBit) :
    f.toUnits (f.pack 1 A) = -(f.mag A : Int) := by
  rw [toUnits_pack f 1 A (by omega) hA, if_pos rfl]

theorem fadd_pack (f : Fmt) (s A B : Nat) (hs : s ≤ 1)
    (hA : A < f.signBit) (hB : B < f.signBit) (nA : ¬ f.isNaN A) (nB : ¬ f.isNaN B) :
    fadd f (f.pack s A) (f.pack s B) = f.pack s (fadd f A B) := by
  rcases Nat.le_one_iff_eq_zero_or_eq_one.mp hs with h | h
  · subst h
    simp only [pack_zero]
  subst h
  have nA2 : ¬ f.isNaN (f.pack 1 A) := by rwa [isNaN_pack]
  have nB2 : ¬ f.isNaN (f.pack 1 B) := by rwa [isNaN_pack]
  rw [fadd_pos f A B hA hB nA nB]
  by_cases iA : f.isInf A
  · rw [if_pos iA, fadd_inf_left f _ _ nA2 nB2 ((isInf_pack f 1 A).mpr iA)
      (by rw [sign_pack f 1 A hs hA, sign_pack f 1 B hs hB])]
  · by_cases iB : f.isInf B
    · rw [if_neg iA, if_pos iB, fadd_inf_right f _ _ nA2 nB2
        (by rwa [isInf_pack]) ((isInf_pack f 1 B).mpr iB)]
    · rw [if_neg iA, if_neg iB, fadd_finite f _ _ nA2 nB2 (by rwa [isInf_pack])
        (by rwa [isInf_pack]), toUnits_neg f A hA, toUnits_neg f B hB,
        sign_pack f 1 A hs hA, sign_pack f 1 B hs hB]
      generalize f.mag A = a
      generalize f.mag B = b
      unfold Fmt.pack
      by_cases h : a + b = 0
      · have h0 : -(a : Int) + -(b : Int) = 0 := by omega
        rw [if_pos h, if_pos h0, if_pos ⟨rfl, rfl⟩]
        omega
      · have h0 : ¬ (-(a : Int) + -(b : Int) = 0) := by omega
        have h1 : -(a : Int) + -(b : Int) < 0 := by omega
        have e : (-(a : Int) + -(b : Int)).natAbs = a + b := by omega
        rw [if_neg h, if_neg h0, if_pos h1, e]
        omega

theorem fcvt_pack (f g : Fmt) (s A : Nat) (hs : s ≤ 1) (hA : A < f.signBit) (hm : 1 ≤ g.mbits) :
    fcvt f g (f.pack s A) = g.pack s (fcvt f g A) := by
  unfold fcvt
  simp only [sign_pack f s A hs hA, isNaN_pack, isInf_pack, frac_pack, mag_pack,
    sign_pos f A hA, Nat.zero_mul, Nat.zero_add]
  split
  · rw [← quiet_pack g s _ hm]
    unfold Fmt.pack
    rw [Nat.add_assoc]
  · split <;> rfl

theorem fcvt_pos_le (f g : Fmt) (A : Nat) (hA : A < f.signBit) (nA : ¬ f.isNaN A) :
    fcvt f g A ≤ g.infBits := by
  unfold fcvt
  simp only [sign_pos f A hA, nA, if_false, Nat.zero_mul, Nat.zero_add]
  have := roundMag_le_inf g (f.mag A * 2 ^ g.unitExp) (2 ^ f.unitExp)
  split <;> omega

/-! ## Ranges of magnitude patterns -/

theorem lt_signBit_of_lt (f : Fmt) (A U : Nat) (h : A < U * 2 ^ f.mbits) (hU : U ≤ f.expMax) :
    A < f.signBit := by
  have h1 : U * 2 ^ f.mbits ≤ f.infBits := Nat.mul_le_mul_right _ hU
  have h2 := infBits_lt f
  omega

theorem expo_eq_div (f : Fmt) (A : Nat) (hA : A < f.signBit) : f.expo A = A / 2 ^ f.mbits := by
  unfold Fmt.expo
  apply Nat.mod_eq_of_lt
  apply Nat.div_lt_of_lt_mul
  rw [← signBit_eq]
  exact hA

theorem frac_lt (f : Fmt) (A : Nat) : f.frac A < 2 ^ f.mbits :=
  Nat.mod_lt _ (Nat.two_pow_pos _)

theorem expo_lt (f : Fmt) (A U : Nat) (h : A < U * 2 ^ f.mbits) : f.expo A < U := by
  unfold Fmt.expo
  have h1 : A / 2 ^ f.mbits < U := Nat.div_lt_of_lt_mul (by rw [Nat.mul_comm]; exact h)
  have h2 := Nat.mod_le (A / 2 ^ f.mbits) (2 ^ f.ebits)
  omega

theorem expo_ge (f : Fmt) (A L : Nat) (hA : A < f.signBit) (h : L * 2 ^ f.mbits ≤ A) :
    L ≤ f.expo A := by
  rw [expo_eq_div f A hA]
  exact (Nat.le_div_iff_mul_le (Nat.two_pow_pos _)).mpr h

theorem finite_of_lt (f : Fmt) (A U : Nat) (h : A < U * 2 ^ f.mbits) (hU : U ≤ f.expMax) :
    ¬ f.isNaN A ∧ ¬ f.isInf A := by
  have := expo_lt f A U h
  unfold Fmt.isNaN Fmt.isInf
  constructor <;> intro hc <;> omega

theorem not_isZero_of_ge (f : Fmt) (A L : Nat) (hA : A < f.signBit) (h : L * 2 ^ f.mbits ≤ A)
    (hL : 1 ≤ L) : ¬ f.isZero A := by
  unfold Fmt.isZero Fmt.absBits
  have e : f.signBit = 2 ^ (f.ebits + f.mbits) := rfl
  rw [← e, Nat.mod_eq_of_lt hA]
  have h1 : 1 * 2 ^ f.mbits ≤ L * 2 ^ f.mbits := Nat.mul_le_mul_right _ hL
  have h2 := Nat.two_pow_pos f.mbits
  omega

theorem mag_lt (f : Fmt) (A U : Nat) (h : A < U * 2 ^ f.mbits) (hU : 1 ≤ U) :
    f.mag A < 2 ^ (f.mbits + U - 1) := by
  have he := expo_lt f A U h
  have hf := frac_lt f A
  unfold Fmt.mag
  split
  · have : 2 ^ f.mbits ≤ 2 ^ (f.mbits + U - 1) := Nat.pow_le_pow_right (by norm_num) (by omega)
    omega
  · rename_i h0
    have h1 : (2 ^ f.mbits + f.frac A) * 2 ^ (f.expo A - 1)
        < (2 * 2 ^ f.mbits) * 2 ^ (f.expo A - 1) :=
      Nat.mul_lt_mul_of_pos_right (by omega) (Nat.two_pow_pos _)
    have h2 : (2 * 2 ^ f.mbits) * 2 ^ (f.expo A - 1) = 2 ^ (f.mbits + f.expo A) := by
      rw [Nat.mul_comm 2, ← Nat.pow_succ, ← Nat.pow_add]
      congr 1
      omega
    have h3 : 2 ^ (f.mbits + f.expo A) ≤ 2 ^ (f.mbits + U - 1) :=
      Nat.pow_le_pow_right (by norm_num) (by omega)
    omega

theorem mag_ge (f : Fmt) (A L : Nat) (hA : A < f.signBit) (h : L * 2 ^ f.mbits ≤ A)
    (hL : 1 ≤ L) : 2 ^ (f.mbits + L - 1) ≤ f.mag A := by
  have he := expo_ge f A L hA h
  unfold Fmt.mag
  rw [if_neg (by omega)]
  have h1 : 2 ^ f.mbits * 2 ^ (L - 1) ≤ (2 ^ f.mbits + f.frac A) * 2 ^ (f.expo A - 1) :=
    Nat.mul_le_mul (by omega) (Nat.pow_le_pow_right (by norm_num) (by omega))
  have h2 : 2 ^ f.mbits * 2 ^ (L - 1) = 2 ^ (f.mbits + L - 1) := by
    rw [← Nat.pow_add]
    congr 1
    omega
  omega

theorem mag_pos (f : Fmt) (A : Nat) (hA : A < f.signBit) (h : 0 < A) : 0 < f.mag A := by
  unfold Fmt.mag
  split
  · rename_i h0
    rw [expo_eq_div f A hA] at h0
    unfold Fmt.frac
    have := Nat.div_add_mod A (2 ^ f.mbits)
    rw [h0] at this
    omega
  · exact Nat.mul_pos (by have := Nat.two_pow_pos f.mbits; omega) (Nat.two_pow_pos _)

/-! ## Bounds on the results of operations on finite magnitudes -/

theorem fmul_finite (f : Fmt) (A B Ua Ub : Nat) (hA : A < Ua * 2 ^ f.mbits)
    (hB : B < Ub * 2 ^ f.mbits) (hUa : Ua ≤ f.expMax) (hUb : Ub ≤ f.expMax) :
    fmul f A B = roundMag f (f.mag A * f.mag B) (2 ^ f.unitExp) := by
  obtain ⟨nA, iA⟩ := finite_of_lt f A Ua hA hUa
  obtain ⟨nB, iB⟩ := finite_of_lt f B Ub hB hUb
  have sA := sign_pos f A (lt_signBit_of_lt f A Ua hA hUa)
  have sB := sign_pos f B (lt_signBit_of_lt f B Ub hB hUb)
  unfold fmul
  simp only [nA, nB, iA, iB, sA, sB, if_false, false_and, and_false, or_self, Nat.zero_mul,
    Nat.zero_add, Nat.zero_mod]

theorem fmul_lt (f : Fmt) (A B Ua Ub K : Nat) (hA : A < Ua * 2 ^ f.mbits)
    (hB : B < Ub * 2 ^ f.mbits) (hUa : Ua ≤ f.expMax) (hUb : Ub ≤ f.expMax)
    (hUa1 : 1 ≤ Ua) (hUb1 : 1 ≤ Ub) (hK : f.mbits + Ua + Ub = f.unitExp + 3 + K) :
    fmul f A B ≤ (K + 2) * 2 ^ f.mbits := by
  rw [fmul_finite f A B Ua Ub hA hB hUa hUb]
  apply roundMag_le f _ _ K (Nat.two_pow_pos _)
  have h1 := mag_lt f A Ua hA hUa1
  have h2 := mag_lt f B Ub hB hUb1
  have h3 : f.mag A * f.mag B < 2 ^ (f.mbits + Ua - 1) * 2 ^ (f.mbits + Ub - 1) :=
    Nat.mul_lt_mul'' h1 h2
  have e : 2 ^ (f.mbits + Ua - 1) * 2 ^ (f.mbits + Ub - 1)
      = 2 ^ f.unitExp * 2 ^ (f.mbits + 1 + K) := by
    rw [← Nat.pow_add, ← Nat.pow_add]
    congr 1
    omega
  omega

theorem fadd_finite_pos (f : Fmt) (A B Ua Ub : Nat) (hA : A < Ua * 2 ^ f.mbits)
    (hB : B < Ub * 2 ^ f.mbits) (hUa : Ua ≤ f.expMax) (hUb : Ub ≤ f.expMax) :
    fadd f A B = if f.mag A + f.mag B = 0 then 0 else roundMag f (f.mag A + f.mag B) 1 := by
  obtain ⟨nA, iA⟩ := finite_of_lt f A Ua hA hUa
  obtain ⟨nB, iB⟩ := finite_of_lt f B Ub hB hUb
  rw [fadd_pos f A B (lt_signBit_of_lt f A Ua hA hUa) (lt_signBit_of_lt f B Ub hB hUb) nA nB,
    if_neg iA, if_neg iB]

theorem fadd_lt (f : Fmt) (A B U : Nat) (hA : A < U * 2 ^ f.mbits)
    (hB : B < U * 2 ^ f.mbits) (hU : U ≤ f.expMax) (hU1 : 1 ≤ U) :
    fadd f A B ≤ (U + 1) * 2 ^ f.mbits := by
  rw [fadd_finite_pos f A B U U hA hB hU hU]
  split
  · exact Nat.zero_le _
  · have h := roundMag_le f (f.mag A + f.mag B) 1 (U - 1) (by norm_num) (by
      have h1 := mag_lt f A U hA hU1
      have h2 := mag_lt f B U hB hU1
      have e : 2 ^ (f.mbits + 1 + (U - 1)) = 2 * 2 ^ (f.mbits + U - 1) := by
        rw [Nat.mul_comm, ← Nat.pow_succ]
        congr 1
        omega
      omega)
    have e2 : U - 1 + 2 = U + 1 := by omega
    rw [e2] at h
    exact h

theorem fadd_ge_right (f : Fmt) (A B Ua Ub L : Nat) (hA : A < Ua * 2 ^ f.mbits)
    (hB : B < Ub * 2 ^ f.mbits) (hUa : Ua ≤ f.expMax) (hUb : Ub ≤ f.expMax)
    (hL : L * 2 ^ f.mbits ≤ B) (hL2 : 2 ≤ L) (hL3 : L ≤ f.expMax) :
    L * 2 ^ f.mbits ≤ fadd f A B := by
  rw [fadd_finite_pos f A B Ua Ub hA hB hUa hUb]
  have hm := mag_ge f B L (lt_signBit_of_lt f B Ub hB hUb) hL (by omega)
  have hp := Nat.two_pow_pos (f.mbits + L - 1)
  rw [if_neg (by omega)]
  have h := roundMag_ge f (f.mag A + f.mag B) 1 (L - 1) (by norm_num) (by
    have e : f.mbits + (L - 1) = f.mbits + L - 1 := by omega
    rw [e]
    omega) (by omega) (by omega)
  have e2 : L - 1 + 1 = L := by omega
  rw [e2] at h
  exact h

theorem fadd_ge_left (f : Fmt) (A B Ua Ub L : Nat) (hA : A < Ua * 2 ^ f.mbits)
    (hB : B < Ub * 2 ^ f.mbits) (hUa : Ua ≤ f.expMax) (hUb : Ub ≤ f.expMax)
    (hL : L * 2 ^ f.mbits ≤ A) (hL2 : 2 ≤ L) (hL3 : L ≤ f.expMax) :
    L * 2 ^ f.mbits ≤ fadd f A B := by
  rw [fadd_finite_pos f A B Ua Ub hA hB hUa hUb]
  have hm := mag_ge f A L (lt_signBit_of_lt f A Ua hA hUa) hL (by omega)
  have hp := Nat.two_pow_pos (f.mbits + L - 1)
  rw [if_neg (by omega)]
  have h := roundMag_ge f (f.mag A + f.mag B) 1 (L - 1) (by norm_num) (by
    have e : f.mbits + (L - 1) = f.mbits + L - 1 := by omega
    rw [e]
    omega) (by omega) (by omega)
  have e2 : L - 1 + 1 = L := by omega
  rw [e2] at h
  exact h

theorem fdiv_finite (f : Fmt) (A B Ua Ub L : Nat) (hA : A < Ua * 2 ^ f.mbits)
    (hB : B < Ub * 2 ^ f.mbits) (hUa : Ua ≤ f.expMax) (hUb : Ub ≤ f.expMax)
    (hL : L * 2 ^ f.mbits ≤ B) (hL1 : 1 ≤ L) :
    fdiv f A B = roundMag f (f.mag A * 2 ^ f.unitExp) (f.mag B) := by
  obtain ⟨nA, iA⟩ := finite_of_lt f A Ua hA hUa
  obtain ⟨nB, iB⟩ := finite_of_lt f B Ub hB hUb
  have sA := sign_pos f A (lt_signBit_of_lt f A Ua hA hUa)
  have sB := sign_pos f B (lt_signBit_of_lt f B Ub hB hUb)
  have zB := not_isZero_of_ge f B L (lt_signBit_of_lt f B Ub hB hUb) hL hL1
  unfold fdiv
  simp only [nA, nB, iA, iB, zB, sA, sB, if_false, false_and, and_false, or_self, Nat.zero_mul,
    Nat.zero_add, Nat.zero_mod]

theorem fdiv_lt (f : Fmt) (A B Ua Ub L K : Nat) (hA : A < Ua * 2 ^ f.mbits)
    (hB : B < Ub * 2 ^ f.mbits) (hUa : Ua ≤ f.expMax) (hUb : Ub ≤ f.expMax)
    (hL : L * 2 ^ f.mbits ≤ B) (hL1 : 1 ≤ L) (hUa1 : 1 ≤ Ua)
    (hK : Ua + f.unitExp = L + f.mbits + 1 + K) :
    fdiv f A B ≤ (K + 2) * 2 ^ f.mbits := by
  rw [fdiv_finite f A B Ua Ub L hA hB hUa hUb hL hL1]
  have hd := mag_ge f B L (lt_signBit_of_lt f B Ub hB hUb) hL hL1
  have hn := mag_lt f A Ua hA hUa1
  apply roundMag_le f _ _ K (by have := Nat.two_pow_pos (f.mbits + L - 1); omega)
  have h1 : f.mag A * 2 ^ f.unitExp < 2 ^ (f.mbits + Ua - 1) * 2 ^ f.unitExp :=
    Nat.mul_lt_mul_of_pos_right hn (Nat.two_pow_pos _)
  have h2 : 2 ^ (f.mbits + L - 1) * 2 ^ (f.mbits + 1 + K) ≤ f.mag B * 2 ^ (f.mbits + 1 + K) :=
    Nat.mul_le_mul_right _ hd
  have e : 2 ^ (f.mbits + Ua - 1) * 2 ^ f.unitExp
      = 2 ^ (f.mbits + L - 1) * 2 ^ (f.mbits + 1 + K) := by
    rw [← Nat.pow_add, ← Nat.pow_add]
    congr 1
    omega
  omega

theorem fcvt_finite (f g : Fmt) (A U : Nat) (hA : A < U * 2 ^ f.mbits) (hU : U ≤ f.expMax) :
    fcvt f g A = roundMag g (f.mag A * 2 ^ g.unitExp) (2 ^ f.unitExp) := by
  obtain ⟨nA, iA⟩ := finite_of_lt f A U hA hU
  have sA := sign_pos f A (lt_signBit_of_lt f A U hA hU)
  unfold fcvt
  simp only [nA, iA, sA, if_false, Nat.zero_mul, Nat.zero_add]

theorem fcvt_lt (f g : Fmt) (A U K : Nat) (hA : A < U * 2 ^ f.mbits) (hU : U ≤ f.expMax)
    (hU1 : 1 ≤ U) (hK : f.mbits + U - 1 + g.unitExp = f.unitExp + g.mbits + 1 + K) :
    fcvt f g A ≤ (K + 2) * 2 ^ g.mbits := by
  rw [fcvt_finite f g A U hA hU]
  apply roundMag_le g _ _ K (Nat.two_pow_pos _)
  have hn := mag_lt f A U hA hU1
  have h1 : f.mag A * 2 ^ g.unitExp < 2 ^ (f.mbits + U - 1) * 2 ^ g.unitExp :=
    Nat.mul_lt_mul_of_pos_right hn (Nat.two_pow_pos _)
  have e : 2 ^ (f.mbits + U - 1) * 2 ^ g.unitExp = 2 ^ f.unitExp * 2 ^ (g.mbits + 1 + K) := by
    rw [← Nat.pow_add, ← Nat.pow_add]
    congr 1
    omega
  omega

theorem fcvt_ge (f g : Fmt) (A U K : Nat) (hA : A < U * 2 ^ f.mbits) (hU : U ≤ f.expMax)
    (h0 : 0 < A) (hK : g.unitExp = f.unitExp + g.mbits + K) (hK1 : 1 ≤ K)
    (hK2 : K + 1 ≤ g.expMax) :
    (K + 1) * 2 ^ g.mbits ≤ fcvt f g A := by
  rw [fcvt_finite f g A U hA hU]
  apply roundMag_ge g _ _ K (Nat.two_pow_pos _) _ hK1 hK2
  have hp := mag_pos f A (lt_signBit_of_lt f A U hA hU) h0
  have e : 2 ^ f.unitExp * 2 ^ (g.mbits + K) = 2 ^ g.unitExp := by
    rw [← Nat.pow_add]
    congr 1
    omega
  rw [e]
  exact Nat.le_mul_of_pos_left _ hp

/-! ## The refinement on sign and magnitude -/

theorem b64_mbits : binary64.mbits = 52 := rfl

theorem b64_expMax : binary64.expMax = 2047 := by decide

theorem b64_unitExp : binary64.unitExp = 1074 := by decide

theorem b32_mbits : binary32.mbits = 23 := rfl

theorem b32_expMax : binary32.expMax = 255 := by decide

theorem b32_unitExp : binary32.unitExp = 149 := by decide

theorem lt_of_le_mul (A K U m : Nat) (h : A ≤ K * 2 ^ m) (hK : K < U) : A < U * 2 ^ m := by
  have h1 : (K + 1) * 2 ^ m ≤ U * 2 ^ m := Nat.mul_le_mul_right _ hK
  have h2 : (K + 1) * 2 ^ m = K * 2 ^ m + 2 ^ m := by ring
  have h3 := Nat.two_pow_pos m
  omega

theorem lt_mul_mono (A U U2 m : Nat) (h : A < U * 2 ^ m) (hU : U ≤ U2) : A < U2 * 2 ^ m := by
  have h1 : U * 2 ^ m ≤ U2 * 2 ^ m := Nat.mul_le_mul_right _ hU
  omega

theorem not_nan_of_le_inf (f : Fmt) (A : Nat) (h : A ≤ f.infBits) : ¬ f.isNaN A := by
  intro hn
  have hA : A < f.signBit := by have := infBits_lt f; omega
  have he := expo_eq_div f A hA
  unfold Fmt.isNaN Fmt.frac at hn
  rw [he] at hn
  have := Nat.div_add_mod A (2 ^ f.mbits)
  rw [hn.1] at this
  unfold Fmt.infBits at h
  have hc : 2 ^ f.mbits * f.expMax = f.expMax * 2 ^ f.mbits := Nat.mul_comm _ _
  omega

theorem valid_mul (f : Fmt) (A B : Nat) (iA : ¬ f.isInf A) (iB : ¬ f.isInf B) :
    ¬ ((f.isInf A ∧ f.isZero B) ∨ (f.isZero A ∧ f.isInf B)) :=
  fun h => h.elim (fun h => iA h.1) (fun h => iB h.2)

theorem valid_div (f : Fmt) (A B : Nat) (iB : ¬ f.isInf B) (zB : ¬ f.isZero B) :
    ¬ ((f.isInf A ∧ f.isInf B) ∨ (f.isZero A ∧ f.isZero B)) :=
  fun h => h.elim (fun h => iB h.2) (fun h => zB h.2)

/-- One Halley step on a seed and an input of equal sign: the result carries
the same sign and its magnitude is the step on the magnitudes, provided the
seed's exponent field is below `Ua` and the input is finite and non-zero. -/
theorem refineLane_pack (s A V Ua L : Nat) (hs : s ≤ 1)
    (hA : A < Ua * 2 ^ binary64.mbits) (hV : V < (3 * Ua - 2044) * 2 ^ binary64.mbits)
    (hL : L * 2 ^ binary64.mbits ≤ V) (hL2 : 2 ≤ L) (hUa1 : 1025 ≤ Ua) (hUa2 : Ua ≤ 1362) :
    refineLane (binary64.pack s A) (binary64.pack s V) = binary64.pack s (refineLane A V) ∧
    refineLane A V ≤ binary64.infBits ∧
    (4 * Ua ≤ 5109 → refineLane A V < (4 * Ua - 2038 - L) * 2 ^ binary64.mbits) := by
  simp only [refineLane]
  have hLV : L < 3 * Ua - 2044 := by
    by_contra hc
    have : (3 * Ua - 2044) * 2 ^ binary64.mbits ≤ L * 2 ^ binary64.mbits :=
      Nat.mul_le_mul_right _ (by omega)
    omega
  have sA := lt_signBit_of_lt binary64 A Ua hA (by rw [b64_expMax]; omega)
  have sV := lt_signBit_of_lt binary64 V _ hV (by rw [b64_expMax]; omega)
  obtain ⟨nA, iA⟩ := finite_of_lt binary64 A Ua hA (by rw [b64_expMax]; omega)
  obtain ⟨nV, iV⟩ := finite_of_lt binary64 V _ hV (by rw [b64_expMax]; omega)
  -- a * a
  have bAA := fmul_lt binary64 A A Ua Ua (2 * Ua - 1025) hA hA (by rw [b64_expMax]; omega)
    (by rw [b64_expMax]; omega) (by omega) (by omega) (by rw [b64_mbits, b64_unitExp]; omega)
  have pAA := fmul_pack binary64 s s A A hs hs sA sA nA nA (valid_mul _ _ _ iA iA)
  have hss : (s + s) % 2 = 0 := by omega
  rw [hss, pack_zero] at pAA
  generalize fmul binary64 A A = AA at bAA pAA ⊢
  have bAA' := lt_of_le_mul AA _ (2 * Ua - 1022) _ bAA (by omega)
  have sAA := lt_signBit_of_lt binary64 AA _ bAA' (by rw [b64_expMax]; omega)
  obtain ⟨nAA, iAA⟩ := finite_of_lt binary64 AA _ bAA' (by rw [b64_expMax]; omega)
  -- (a * a) * a
  have bA3 := fmul_lt binary64 AA A (2 * Ua - 1022) Ua (3 * Ua - 2047) bAA' hA
    (by rw [b64_expMax]; omega) (by rw [b64_expMax]; omega) (by omega) (by omega)
    (by rw [b64_mbits, b64_unitExp]; omega)
  have pA3 := fmul_pack binary64 0 s AA A (by omega) hs sAA sA nAA nA (valid_mul _ _ _ iAA iA)
  have h0s : (0 + s) % 2 = s := by omega
  rw [h0s, pack_zero] at pA3
  generalize fmul binary64 AA A = A3 at bA3 pA3 ⊢
  have bA3' := lt_of_le_mul A3 _ (3 * Ua - 2044) _ bA3 (by omega)
  have sA3 := lt_signBit_of_lt binary64 A3 _ bA3' (by rw [b64_expMax]; omega)
  obtain ⟨nA3, iA3⟩ := finite_of_lt binary64 A3 _ bA3' (by rw [b64_expMax]; omega)
  -- tmp = a3 + r
  have bT := fadd_lt binary64 A3 V (3 * Ua - 2044) bA3' hV (by rw [b64_expMax]; omega) (by omega)
  have lT := fadd_ge_right binary64 A3 V _ _ L bA3' hV (by rw [b64_expMax]; omega)
    (by rw [b64_expMax]; omega) hL hL2 (by rw [b64_expMax]; omega)
  have pT := fadd_pack binary64 s A3 V hs sA3 sV nA3 nV
  generalize fadd binary64 A3 V = T at bT lT pT ⊢
  have bT' := lt_of_le_mul T _ (3 * Ua - 2042) _ bT (by omega)
  have sT := lt_signBit_of_lt binary64 T _ bT' (by rw [b64_expMax]; omega)
  obtain ⟨nT, iT⟩ := finite_of_lt binary64 T _ bT' (by rw [b64_expMax]; omega)
  -- mul = r + tmp
  have bM := fadd_lt binary64 V T (3 * Ua - 2042)
    (lt_mul_mono V _ _ _ hV (by omega)) bT' (by rw [b64_expMax]; omega) (by omega)
  have pM := fadd_pack binary64 s V T hs sV sT nV nT
  generalize fadd binary64 V T = M at bM pM ⊢
  have bM' := lt_of_le_mul M _ (3 * Ua - 2040) _ bM (by omega)
  have sM := lt_signBit_of_lt binary64 M _ bM' (by rw [b64_expMax]; omega)
  obtain ⟨nM, iM⟩ := finite_of_lt binary64 M _ bM' (by rw [b64_expMax]; omega)
  -- div = a3 + tmp
  have bD := fadd_lt binary64 A3 T (3 * Ua - 2042)
    (lt_mul_mono A3 _ _ _ bA3' (by omega)) bT' (by rw [b64_expMax]; omega) (by omega)
  have lD := fadd_ge_right binary64 A3 T _ _ L bA3' bT' (by rw [b64_expMax]; omega)
    (by rw [b64_expMax]; omega) lT hL2 (by rw [b64_expMax]; omega)
  have pD := fadd_pack binary64 s A3 T hs sA3 sT nA3 nT
  generalize fadd binary64 A3 T = D at bD lD pD ⊢
  have bD' := lt_of_le_mul D _ (3 * Ua - 2040) _ bD (by omega)
  have sD := lt_signBit_of_lt binary64 D _ bD' (by rw [b64_expMax]; omega)
  obtain ⟨nD, iD⟩ := finite_of_lt binary64 D _ bD' (by rw [b64_expMax]; omega)
  have zD := not_isZero_of_ge binary64 D L sD lD (by omega)
  -- mul = mul * a
  have bM2 := fmul_lt binary64 M A (3 * Ua - 2040) Ua (4 * Ua - 3065) bM' hA
    (by rw [b64_expMax]; omega) (by rw [b64_expMax]; omega) (by omega) (by omega)
    (by rw [b64_mbits, b64_unitExp]; omega)
  have iM2 := fmul_pos_le binary64 M A sM sA nM nA (valid_mul _ _ _ iM iA)
  have pM2 := fmul_pack binary64 s s M A hs hs sM sA nM nA (valid_mul _ _ _ iM iA)
  rw [hss, pack_zero] at pM2
  generalize fmul binary64 M A = M2 at bM2 iM2 pM2 ⊢
  have sM2 : M2 < binary64.signBit := by have := infBits_lt binary64; omega
  have nM2 := not_nan_of_le_inf binary64 M2 iM2
  -- mul / div
  have iR := fdiv_pos_le binary64 M2 D sM2 sD nM2 nD (valid_div _ _ _ iD zD)
  have pR := fdiv_pack binary64 0 s M2 D (by omega) hs sM2 sD nM2 nD (valid_div _ _ _ iD zD)
  rw [h0s, pack_zero] at pR
  have bR : 4 * Ua ≤ 5109 → fdiv binary64 M2 D < (4 * Ua - 2038 - L) * 2 ^ binary64.mbits := by
    intro h4
    have bM2' := lt_of_le_mul M2 _ (4 * Ua - 3062) _ bM2 (by omega)
    have := fdiv_lt binary64 M2 D (4 * Ua - 3062) (3 * Ua - 2040) L (4 * Ua - 2041 - L) bM2' bD'
      (by rw [b64_expMax]; omega) (by rw [b64_expMax]; omega) lD (by omega) (by omega)
      (by rw [b64_mbits, b64_unitExp]; omega)
    exact lt_of_le_mul _ _ _ _ this (by omega)
  rw [pAA, pA3, pT, pM, pD, pM2, pR]
  exact ⟨rfl, iR, bR⟩

theorem b64_infBits_lt : binary64.infBits < binary64.signBit := infBits_lt binary64

/-- The refinement block on a seed and an input of equal sign, the seed's
exponent field below 170 and the input finite and non-zero: the result
carries that sign and its magnitude is the block applied to the magnitudes. -/
theorem refine2Lane_pack (s R X : Nat) (hs : s ≤ 1) (hR : R < 170 * 2 ^ binary32.mbits)
    (hX : X < 255 * 2 ^ binary32.mbits) (hX0 : 0 < X) :
    refine2Lane (binary32.pack s R) (binary32.pack s X)
      = binary32.pack s (refine2Lane R X) ∧
    refine2Lane R X ≤ binary32.infBits := by
  have sR := lt_signBit_of_lt binary32 R 170 hR (by rw [b32_expMax]; omega)
  have sX := lt_signBit_of_lt binary32 X 255 hX (by rw [b32_expMax])
  simp only [refine2Lane]
  rw [fcvt_pack binary32 binary64 s R hs sR (by decide),
    fcvt_pack binary32 binary64 s X hs sX (by decide)]
  have bR := fcvt_lt binary32 binary64 R 170 1064 hR (by rw [b32_expMax]; omega) (by omega)
    (by rw [b32_mbits, b32_unitExp, b64_mbits, b64_unitExp])
  have bX := fcvt_lt binary32 binary64 X 255 1149 hX (by rw [b32_expMax]) (by omega)
    (by rw [b32_mbits, b32_unitExp, b64_mbits, b64_unitExp])
  have lX := fcvt_ge binary32 binary64 X 255 873 hX (by rw [b32_expMax]) hX0
    (by rw [b32_unitExp, b64_mbits, b64_unitExp]) (by omega) (by rw [b64_expMax]; omega)
  generalize fcvt binary32 binary64 R = RD at bR ⊢
  generalize fcvt binary32 binary64 X = XD at bX lX ⊢
  have bR' := lt_of_le_mul RD _ 1067 _ bR (by omega)
  have bX' := lt_of_le_mul XD _ 1152 _ bX (by omega)
  obtain ⟨p1, -, b1⟩ := refineLane_pack s RD XD 1067 874 hs bR'
    (lt_mul_mono XD _ _ _ bX' (by omega)) lX (by omega) (by omega) (by omega)
  have b1' := b1 (by omega)
  rw [p1]
  generalize refineLane RD XD = R1 at b1' ⊢
  obtain ⟨p2, i2, -⟩ := refineLane_pack s R1 XD 1356 874 hs
    (lt_mul_mono R1 _ _ _ b1' (by omega))
    (lt_mul_mono XD _ _ _ bX' (by omega)) lX (by omega) (by omega) (by omega)
  rw [p2]
  generalize refineLane R1 XD = R2 at i2 ⊢
  have sR2 : R2 < binary64.signBit := by have := b64_infBits_lt; omega
  rw [fcvt_pack binary64 binary32 s R2 hs sR2 (by decide)]
  exact ⟨rfl, fcvt_pos_le binary64 binary32 R2 sR2 (not_nan_of_le_inf binary64 R2 i2)⟩

/-! ## The seed -/

theorem div3Lane_of_lt (n : Nat) (h : n < 2 ^ 31) : div3Lane n = n / 3 := by
  have h1 := div3Lane_eq_tdiv n
  rw [toInt32_of_lt n h, tdiv_three, if_neg (by omega)] at h1
  have h2 : div3Lane n < 2 ^ 32 := by
    unfold div3Lane
    exact Nat.mod_lt _ (by norm_num)
  unfold toInt32 at h1
  rw [Nat.mod_eq_of_lt h2] at h1
  split at h1 <;> omega

theorem or_sign (i s : Nat) (hi : i < 2 ^ 31) : i ||| s * 2 ^ 31 = s * 2 ^ 31 + i := by
  rw [Nat.or_comm, Nat.mul_comm, ← Nat.mul_add_lt_is_or hi]

theorem seedLane_t_lt (x : Nat) : (seedLane x).t < 2 ^ 31 := by
  rw [seedLane_t]
  exact Nat.mod_lt _ (by norm_num)

theorem seedMag_lt (x : Nat) : seedMag x < 170 * 2 ^ 23 := by
  unfold seedMag
  have := seedLane_t_lt x
  split <;> omega

theorem seedLane_r (x : Nat) : (seedLane x).r = x / 2 ^ 31 % 2 * 2 ^ 31 + seedMag x := by
  have hB1 : ofInt32 709958130 = 709958130 := by decide
  have hB2 : ofInt32 642849266 = 642849266 := by decide
  have hs : toInt32 (ofInt32 0x00800000) = 0x00800000 := by decide
  have ht := seedLane_t_lt x
  have hx := toInt32_of_lt (x % 2 ^ 31) (Nat.mod_lt _ (by norm_num))
  have hm := seedMag_lt x
  have key : (seedLane x).r = (div3Lane (blendv8 (x % 2 ^ 31) (seedLane x).t
        (if x % 2 ^ 31 < 0x00800000 then 0xFFFFFFFF else 0))
      + blendv8 709958130 642849266 (if x % 2 ^ 31 < 0x00800000 then 0xFFFFFFFF else 0))
        % 2 ^ 32 ||| x / 2 ^ 31 % 2 * 2 ^ 31 := by
    have hsub : (if toInt32 (x % 2 ^ 31) < toInt32 (ofInt32 0x00800000) then 0xFFFFFFFF else 0)
        = (if x % 2 ^ 31 < 0x00800000 then 0xFFFFFFFF else 0 : Nat) := by
      rw [hs, hx]
      by_cases hc : x % 2 ^ 31 < 0x00800000
      · rw [if_pos hc, if_pos (by omega)]
      · rw [if_neg hc, if_neg (by omega)]
    simp only [seedLane, andnot_sign, and_sign, hB1, hB2, hsub]
  rw [key]
  unfold seedMag at hm ⊢
  by_cases hc : x % 2 ^ 31 < 0x00800000
  · rw [if_pos hc] at hm ⊢
    rw [if_pos hc, blendv8_ones, blendv8_ones, Nat.mod_eq_of_lt (by omega : (seedLane x).t < 2 ^ 32),
      div3Lane_of_lt _ ht]
    norm_num
    rw [Nat.mod_eq_of_lt (by omega)]
    exact or_sign _ _ (by omega)
  · rw [if_neg hc] at hm ⊢
    rw [if_neg hc, blendv8_zero, blendv8_zero, Nat.mod_eq_of_lt (by omega : x % 2 ^ 31 < 2 ^ 32),
      div3Lane_of_lt _ (Nat.mod_lt _ (by norm_num))]
    norm_num
    rw [Nat.mod_eq_of_lt (by omega)]
    exact or_sign _ _ (by omega)

theorem b32_signBit : binary32.signBit = 2 ^ 31 := rfl

theorem b32_infBits : binary32.infBits = 0x7F800000 := by decide

theorem absBits_pack_any (f : Fmt) (s A : Nat) : f.absBits (f.pack s A) = f.absBits A := by
  unfold Fmt.absBits Fmt.pack
  have e : f.signBit = 2 ^ (f.ebits + f.mbits) := rfl
  rw [← e, Nat.mul_comm, Nat.mul_add_mod]

theorem pack32_mod (s A : Nat) (hA : A < 2 ^ 31) : binary32.pack s A % 2 ^ 31 = A := by
  have := absBits_pack binary32 s A (by rw [b32_signBit]; exact hA)
  unfold Fmt.absBits at this
  exact this

theorem pack32_div (s A : Nat) (hs : s ≤ 1) (hA : A < 2 ^ 31) :
    binary32.pack s A / 2 ^ 31 % 2 = s := by
  have := sign_pack binary32 s A hs (by rw [b32_signBit]; exact hA)
  unfold Fmt.sign at this
  exact this

/-- The rescaled magnitude `t` does not depend on the sign bit. -/
theorem seedLane_t_pack (s A : Nat) (hs : s ≤ 1) (hA : A < 2 ^ 31) :
    (seedLane (binary32.pack s A)).t = (seedLane A).t := by
  have hA' : A < binary32.signBit := by rw [b32_signBit]; exact hA
  rw [seedLane_t, seedLane_t]
  have e : ∀ y, y % 2 ^ 31 = binary32.absBits y := fun y => rfl
  rw [e, e]
  by_cases hn : binary32.isNaN A
  · unfold fmul
    rw [if_pos hn, if_pos ((isNaN_pack binary32 s A).mpr hn), quiet_pack binary32 s A (by decide),
      absBits_pack_any]
  · have hc : (0x4b800000 : Nat) = binary32.pack 0 0x4b800000 := by rw [pack_zero]
    have h := fmul_pack binary32 s 0 A 0x4b800000 hs (by omega) hA' (by decide) hn (by decide)
      (fun h => h.elim (fun h => absurd h.2 (by decide)) (fun h => absurd h.2 (by decide)))
    rw [pack_zero] at h
    rw [h, absBits_pack_any]

theorem seedMag_pack (s A : Nat) (hs : s ≤ 1) (hA : A < 2 ^ 31) :
    seedMag (binary32.pack s A) = seedMag A := by
  unfold seedMag
  rw [pack32_mod s A hA, Nat.mod_eq_of_lt hA, seedLane_t_pack s A hs hA]

theorem seedLane_r_pack (s A : Nat) (hs : s ≤ 1) (hA : A < 2 ^ 31) :
    (seedLane (binary32.pack s A)).r = binary32.pack s (seedMag A) := by
  rw [seedLane_r, pack32_div s A hs hA, seedMag_pack s A hs hA]
  rfl

theorem quiet32_lt (A : Nat) (hA : A < 2 ^ 31) : binary32.quiet A < 2 ^ 31 := by
  rw [quiet32_eq]
  split <;> omega

theorem isInf32_of_gt (A : Nat) (hA : A < 2 ^ 31) (h : 0x7F7FFFFF < A)
    (hn : ¬ binary32.isNaN A) : binary32.isInf A := by
  rw [isNaN32_iff] at hn
  simp only [Fmt.isInf, Fmt.expo, Fmt.frac, Fmt.expMax, binary32]
  norm_num
  omega

/-- The computation of one lane commutes with the sign bit: the output for a
sign and a magnitude pattern is that sign on the output for the magnitude. -/
theorem cbrtLane_pack (s A : Nat) (hs : s ≤ 1) (hA : A < 2 ^ 31) :
    cbrtLane (binary32.pack s A) = binary32.pack s (cbrtLane A) ∧ cbrtLane A < 2 ^ 31 := by
  have hA' : A < binary32.signBit := by rw [b32_signBit]; exact hA
  rw [cbrtLane_eq, cbrtLane_eq, pack32_mod s A hA, Nat.mod_eq_of_lt hA]
  by_cases h1 : 0x7F7FFFFF < A
  · rw [if_pos h1, if_pos h1]
    by_cases hn : binary32.isNaN A
    · rw [fadd_nan _ _ _ hn, fadd_nan _ _ _ ((isNaN_pack binary32 s A).mpr hn),
        quiet_pack binary32 s A (by decide)]
      exact ⟨rfl, quiet32_lt A hA⟩
    · rw [fadd_pack binary32 s A A hs hA' hA' hn hn,
        fadd_inf_left binary32 A A hn hn (isInf32_of_gt A hA h1 hn) rfl]
      exact ⟨rfl, hA⟩
  · rw [if_neg h1, if_neg h1]
    by_cases h2 : A = 0
    · rw [if_pos h2, if_pos h2]
      exact ⟨rfl, hA⟩
    · rw [if_neg h2, if_neg h2, seedLane_r_pack s A hs hA]
      have hr0 := seedLane_r_pack 0 A (by omega) hA
      rw [pack_zero, pack_zero] at hr0
      rw [hr0]
      have h := refine2Lane_pack s (seedMag A) A hs (by rw [b32_mbits]; exact seedMag_lt A)
        (by rw [b32_mbits]; omega) (by omega)
      refine ⟨h.1, ?_⟩
      have := h.2
      rw [b32_infBits] at this
      omega

theorem flipSign_pack (s A : Nat) (hs : s ≤ 1) (hA : A < 2 ^ 31) :
    flipSign (binary32.pack s A) = binary32.pack (1 - s) A := by
  unfold flipSign
  rw [pack32_div s A hs hA]
  unfold Fmt.pack
  rw [b32_signBit]
  rcases Nat.le_one_iff_eq_zero_or_eq_one.mp hs with h | h
  · subst h
    simp
    omega
  · subst h
    simp

theorem pack32_of_lt (x : Nat) (hx : x < 2 ^ 32) :
    binary32.pack (x / 2 ^ 31) (x % 2 ^ 31) = x ∧ x / 2 ^ 31 ≤ 1 ∧ x % 2 ^ 31 < 2 ^ 31 := by
  unfold Fmt.pack
  rw [b32_signBit]
  omega

/-- The output of one lane is an odd function of the input, bit for bit. -/
theorem cbrtLane_flipSign (x : Nat) (hx : x < 2 ^ 32) :
    cbrtLane (flipSign x) = flipSign (cbrtLane x) := by
  obtain ⟨e, hs, hA⟩ := pack32_of_lt x hx
  rw [← e, flipSign_pack _ _ hs hA, (cbrtLane_pack _ _ hs hA).1,
    (cbrtLane_pack _ _ (by omega) hA).1, flipSign_pack _ _ hs (cbrtLane_pack _ _ hs hA).2]

theorem flipSign_mod (x : Nat) : flipSign x % 2 ^ 31 = x % 2 ^ 31 := by
  unfold flipSign
  split <;> omega

/-! ## The error of rounding -/

theorem rne_err (n d : Nat) (hd : 0 < d) :
    rne n d * d * 2 ≤ 2 * n + d ∧ 2 * n ≤ rne n d * d * 2 + d := by
  have h := Nat.div_add_mod n d
  have hr := Nat.mod_lt n hd
  have e : d * (n / d) = n / d * d := Nat.mul_comm _ _
  unfold rne
  simp only
  generalize n / d = q at *
  generalize n % d = r at *
  have e1 : (q + 1) * d = q * d + d := by ring
  split_ifs <;> (try rw [e1]) <;> omega

theorem mag_compose (f : Fmt) (k N : Nat) (hN : N ≤ 2 ^ (f.mbits + 1))
    (hk : k = 0 ∨ 2 ^ f.mbits ≤ N) (hfin : k * 2 ^ f.mbits + N < f.signBit) :
    f.mag (k * 2 ^ f.mbits + N) = N * 2 ^ k := by
  have hp := Nat.two_pow_pos f.mbits
  have e2 : 2 ^ (f.mbits + 1) = 2 * 2 ^ f.mbits := by rw [Nat.pow_succ, Nat.mul_comm]
  have hexp : f.expo (k * 2 ^ f.mbits + N) = k + N / 2 ^ f.mbits := by
    rw [expo_eq_div f _ hfin, Nat.add_comm, Nat.add_mul_div_right _ _ hp, Nat.add_comm]
  have hfrac : f.frac (k * 2 ^ f.mbits + N) = N % 2 ^ f.mbits := by
    unfold Fmt.frac
    rw [Nat.add_comm, Nat.add_mul_mod_self_right]
  unfold Fmt.mag
  rw [hexp, hfrac]
  by_cases h1 : N < 2 ^ f.mbits
  · have hk0 : k = 0 := by omega
    subst hk0
    rw [Nat.div_eq_of_lt h1, Nat.mod_eq_of_lt h1]
    simp
  · by_cases h2 : N < 2 ^ (f.mbits + 1)
    · have hd : N / 2 ^ f.mbits = 1 := by
        apply Nat.div_eq_of_lt_le <;> omega
      have hm : N % 2 ^ f.mbits = N - 2 ^ f.mbits := by
        have := Nat.div_add_mod N (2 ^ f.mbits)
        rw [hd] at this
        omega
      rw [hd, hm, if_neg (by omega)]
      have : 2 ^ f.mbits + (N - 2 ^ f.mbits) = N := by omega
      rw [this]
      congr 2
    · have hN2 : N = 2 ^ (f.mbits + 1) := by omega
      have hd : N / 2 ^ f.mbits = 2 := by
        rw [hN2, e2, Nat.mul_div_cancel _ hp]
      have hm : N % 2 ^ f.mbits = 0 := by
        rw [hN2, e2, Nat.mul_mod_left]
      rw [hd, hm, if_neg (by omega), hN2]
      have : k + 2 - 1 = k + 1 := by omega
      rw [this, Nat.add_zero, e2, Nat.pow_succ]
      ring

theorem roundMag_mag (f : Fmt) (n d : Nat) (hd : 0 < d) (hfin : roundMag f n d < f.infBits) :
    f.mag (roundMag f n d)
      = rne n (d * 2 ^ shiftOf f.mbits (2 ^ f.ebits) (n / d))
        * 2 ^ shiftOf f.mbits (2 ^ f.ebits) (n / d) := by
  have hraw : roundMag f n d = shiftOf f.mbits (2 ^ f.ebits) (n / d) * 2 ^ f.mbits
      + rne n (d * 2 ^ shiftOf f.mbits (2 ^ f.ebits) (n / d)) := by
    unfold roundMag at hfin ⊢
    simp only at hfin ⊢
    split
    · rename_i h
      rw [if_pos h] at hfin
      omega
    · rfl
  rw [hraw] at hfin ⊢
  have hs := shiftOf_spec_lt f.mbits (2 ^ f.ebits) (n / d)
  have hg := shiftOf_div_ge f.mbits (2 ^ f.ebits) (n / d)
  generalize shiftOf f.mbits (2 ^ f.ebits) (n / d) = k at *
  have hdk : 0 < d * 2 ^ k := Nat.mul_pos hd (Nat.two_pow_pos k)
  have hkf : k < 2 ^ f.ebits := by
    have h1 : k * 2 ^ f.mbits < f.infBits := by omega
    unfold Fmt.infBits Fmt.expMax at h1
    have := Nat.lt_of_mul_lt_mul_right h1
    omega
  apply mag_compose
  · apply rne_le
    have := hs hkf
    rw [Nat.div_div_eq_div_mul] at this
    rw [Nat.mul_comm]
    exact (Nat.div_lt_iff_lt_mul hdk).mp this
  · by_cases hk0 : k = 0
    · exact Or.inl hk0
    · right
      apply rne_ge _ _ _ hdk
      have := hg (by omega)
      rw [Nat.div_div_eq_div_mul] at this
      rw [Nat.mul_comm]
      exact (Nat.le_div_iff_mul_le hdk).mp this
  · have := infBits_lt f
    omega

/-- Rounding a magnitude in the normal range changes it by at most half a unit
in the last place: relative error at most `2 ^ -(mbits + 1)`. -/
theorem roundMag_err (f : Fmt) (n d : Nat) (hd : 0 < d) (hlo : 2 ^ f.mbits * d ≤ n)
    (hfin : roundMag f n d < f.infBits) :
    f.mag (roundMag f n d) * d * 2 ^ (f.mbits + 1) ≤ n * 2 ^ (f.mbits + 1) + n ∧
    n * 2 ^ (f.mbits + 1) ≤ f.mag (roundMag f n d) * d * 2 ^ (f.mbits + 1) + n := by
  rw [roundMag_mag f n d hd hfin]
  have hg := shiftOf_div_ge f.mbits (2 ^ f.ebits) (n / d)
  generalize shiftOf f.mbits (2 ^ f.ebits) (n / d) = k at *
  have hdk : 0 < d * 2 ^ k := Nat.mul_pos hd (Nat.two_pow_pos k)
  have hD : 2 ^ f.mbits * (d * 2 ^ k) ≤ n := by
    by_cases hk0 : k = 0
    · subst hk0
      simpa using hlo
    · have := hg (by omega)
      rw [Nat.div_div_eq_div_mul] at this
      exact (Nat.le_div_iff_mul_le hdk).mp this
  obtain ⟨h1, h2⟩ := rne_err n (d * 2 ^ k) hdk
  generalize rne n (d * 2 ^ k) = N at *
  have e : N * 2 ^ k * d = N * (d * 2 ^ k) := by ring
  rw [e]
  generalize d * 2 ^ k = D at *
  have e2 : 2 ^ (f.mbits + 1) = 2 ^ f.mbits * 2 := by rw [Nat.pow_succ]
  rw [e2]
  generalize 2 ^ f.mbits = P at *
  constructor
  · nlinarith
  · nlinarith

theorem near_refl (w : ℚ) (x : ℚ) (hx : 0 < x) : Near w 0 x x := by
  refine ⟨hx, hx, ?_, ?_⟩ <;> simp

theorem near_mono (w : ℚ) (hw : 0 ≤ w) (n m : Nat) (x y : ℚ) (hnm : n ≤ m) (h : Near w n x y) :
    Near w m x y := by
  obtain ⟨hx, hy, h1, h2⟩ := h
  have hp : (1 + w) ^ n ≤ (1 + w) ^ m := pow_le_pow_right₀ (by linarith) hnm
  refine ⟨hx, hy, ?_, ?_⟩
  · exact h1.trans (mul_le_mul_of_nonneg_left hp hy.le)
  · exact h2.trans (mul_le_mul_of_nonneg_left hp hx.le)

theorem near_symm (w : ℚ) (n : Nat) (x y : ℚ) (h : Near w n x y) : Near w n y x :=
  ⟨h.2.1, h.1, h.2.2.2, h.2.2.1⟩

theorem near_trans (w : ℚ) (hw : 0 ≤ w) (n m : Nat) (x y z : ℚ) (h1 : Near w n x y)
    (h2 : Near w m y z) : Near w (n + m) x z := by
  obtain ⟨hx, hy, a1, a2⟩ := h1
  obtain ⟨-, hz, b1, b2⟩ := h2
  have hp : 0 ≤ (1 + w) ^ n := pow_nonneg (by linarith) n
  have hq : 0 ≤ (1 + w) ^ m := pow_nonneg (by linarith) m
  refine ⟨hx, hz, ?_, ?_⟩
  · calc x ≤ y * (1 + w) ^ n := a1
      _ ≤ (z * (1 + w) ^ m) * (1 + w) ^ n := mul_le_mul_of_nonneg_right b1 hp
      _ = z * (1 + w) ^ (n + m) := by rw [pow_add]; ring
  · calc z ≤ y * (1 + w) ^ m := b2
      _ ≤ (x * (1 + w) ^ n) * (1 + w) ^ m := mul_le_mul_of_nonneg_right a2 hq
      _ = x * (1 + w) ^ (n + m) := by rw [pow_add]; ring

theorem near_mul (w : ℚ) (hw : 0 ≤ w) (n m : Nat) (x y x' y' : ℚ) (h1 : Near w n x y)
    (h2 : Near w m x' y') : Near w (n + m) (x * x') (y * y') := by
  obtain ⟨hx, hy, a1, a2⟩ := h1
  obtain ⟨hx', hy', b1, b2⟩ := h2
  have hp : 0 ≤ (1 + w) ^ n := pow_nonneg (by linarith) n
  have hq : 0 ≤ (1 + w) ^ m := pow_nonneg (by linarith) m
  refine ⟨mul_pos hx hx', mul_pos hy hy', ?_, ?_⟩
  · calc x * x' ≤ (y * (1 + w) ^ n) * (y' * (1 + w) ^ m) :=
        mul_le_mul a1 b1 hx'.le (mul_nonneg hy.le hp)
      _ = y * y' * (1 + w) ^ (n + m) := by rw [pow_add]; ring
  · calc y * y' ≤ (x * (1 + w) ^ n) * (x' * (1 + w) ^ m) :=
        mul_le_mul a2 b2 hy'.le (mul_nonneg hx.le hp)
      _ = x * x' * (1 + w) ^ (n + m) := by rw [pow_add]; ring

theorem near_add (w : ℚ) (n : Nat) (x y x' y' : ℚ) (h1 : Near w n x y)
    (h2 : Near w n x' y') : Near w n (x + x') (y + y') := by
  obtain ⟨hx, hy, a1, a2⟩ := h1
  obtain ⟨hx', hy', b1, b2⟩ := h2
  refine ⟨add_pos hx hx', add_pos hy hy', ?_, ?_⟩
  · rw [add_mul]; exact add_le_add a1 b1
  · rw [add_mul]; exact add_le_add a2 b2

theorem near_div (w : ℚ) (hw : 0 ≤ w) (n m : Nat) (x y x' y' : ℚ) (h1 : Near w n x y)
    (h2 : Near w m x' y') : Near w (n + m) (x / x') (y / y') := by
  obtain ⟨hx, hy, a1, a2⟩ := h1
  obtain ⟨hx', hy', b1, b2⟩ := h2
  have hp : 0 ≤ (1 + w) ^ n := pow_nonneg (by linarith) n
  have hq : 0 ≤ (1 + w) ^ m := pow_nonneg (by linarith) m
  refine ⟨div_pos hx hx', div_pos hy hy', ?_, ?_⟩
  · rw [div_le_iff₀ hx', pow_add]
    calc x ≤ y * (1 + w) ^ n := a1
      _ = (y / y') * (1 + w) ^ n * y' := by field_simp
      _ ≤ (y / y') * (1 + w) ^ n * (x' * (1 + w) ^ m) :=
        mul_le_mul_of_nonneg_left b2 (mul_nonneg (div_pos hy hy').le hp)
      _ = y / y' * ((1 + w) ^ n * (1 + w) ^ m) * x' := by ring
  · rw [div_le_iff₀ hy', pow_add]
    calc y ≤ x * (1 + w) ^ n := a2
      _ = (x / x') * (1 + w) ^ n * x' := by field_simp
      _ ≤ (x / x') * (1 + w) ^ n * (y' * (1 + w) ^ m) :=
        mul_le_mul_of_nonneg_left b1 (mul_nonneg (div_pos hx hx').le hp)
      _ = x / x' * ((1 + w) ^ n * (1 + w) ^ m) * y' := by ring

theorem near_pow3 (w : ℚ) (hw : 0 ≤ w) (n : Nat) (x y : ℚ) (h : Near w n x y) :
    Near w (3 * n) (x ^ 3) (y ^ 3) := by
  have h2 := near_mul w hw n n x y x y h h
  have h3 := near_mul w hw (n + n) n (x * x) (y * y) x y h2 h
  have e : n + n + n = 3 * n := by ring
  rw [e] at h3
  have ex : x * x * x = x ^ 3 := by ring
  have ey : y * y * y = y ^ 3 := by ring
  rw [ex, ey] at h3
  exact h3

/-- One Halley step computed with seven rounded operations stays within ten
rounding factors of the exact rational step. -/
theorem near_halley (w : ℚ) (hw : 0 ≤ w) (a v aa a3 tmp mul div mul2 res : ℚ)
    (ha : 0 < a) (hv : 0 < v)
    (h1 : Near w 1 (a * a) aa) (h2 : Near w 1 (aa * a) a3) (h3 : Near w 1 (a3 + v) tmp)
    (h4 : Near w 1 (v + tmp) mul) (h5 : Near w 1 (a3 + tmp) div)
    (h6 : Near w 1 (mul * a) mul2) (h7 : Near w 1 (mul2 / div) res) :
    Near w 10 ((v + (a * a * a + v)) * a / (a * a * a + (a * a * a + v))) res := by
  have ra := near_refl w a ha
  have rv := near_refl w v hv
  have k2 : Near w 2 (a * a * a) a3 :=
    near_trans w hw 1 1 _ _ _ (near_mul w hw 1 0 _ _ _ _ h1 ra) h2
  have k3 : Near w 3 (a * a * a + v) tmp :=
    near_trans w hw 2 1 _ _ _ (near_add w 2 _ _ _ _ k2 (near_mono w hw 0 2 _ _ (by omega) rv)) h3
  have k4 : Near w 4 (v + (a * a * a + v)) mul :=
    near_trans w hw 3 1 _ _ _ (near_add w 3 _ _ _ _ (near_mono w hw 0 3 _ _ (by omega) rv) k3) h4
  have k4' : Near w 4 (a * a * a + (a * a * a + v)) div :=
    near_trans w hw 3 1 _ _ _ (near_add w 3 _ _ _ _ (near_mono w hw 2 3 _ _ (by omega) k2) k3) h5
  have k5 : Near w 5 ((v + (a * a * a + v)) * a) mul2 :=
    near_trans w hw 4 1 _ _ _ (near_mul w hw 4 0 _ _ _ _ k4 ra) h6
  exact near_trans w hw 9 1 _ _ _ (near_div w hw 5 4 _ _ _ _ k5 k4') h7

theorem two_le_one_add_sq (P : ℚ) (hP : 2 ≤ P) : 1 ≤ (1 + 2 / P) * (1 - 1 / P) := by
  have hP0 : 0 < P := by linarith
  have e : (1 + 2 / P) * (1 - 1 / P) = 1 + (P - 2) / (P * P) := by
    field_simp
    ring
  rw [e]
  have : 0 ≤ (P - 2) / (P * P) := div_nonneg (by linarith) (by positivity)
  linarith

/-- Rounding in the normal range: the result is finite and within one rounding
factor `1 + 2 ^ -mbits` of the exact quotient. -/
theorem round_val (f : Fmt) (n d K : Nat) (hd : 0 < d) (hlo : 2 ^ f.mbits * d ≤ n)
    (hhi : n < d * 2 ^ (f.mbits + 1 + K)) (hK : K + 2 < f.expMax) :
    roundMag f n d < f.infBits ∧
    Near (1 / 2 ^ f.mbits) 1 ((n : ℚ) / ((d : ℚ) * 2 ^ f.unitExp)) (f.val (roundMag f n d)) := by
  have hle := roundMag_le f n d K hd hhi
  have hfin : roundMag f n d < f.infBits := by
    unfold Fmt.infBits
    have : (K + 2) * 2 ^ f.mbits < f.expMax * 2 ^ f.mbits :=
      Nat.mul_lt_mul_of_pos_right hK (Nat.two_pow_pos _)
    omega
  refine ⟨hfin, ?_⟩
  obtain ⟨e1, e2⟩ := roundMag_err f n d hd hlo hfin
  unfold Fmt.val
  generalize f.mag (roundMag f n d) = M at e1 e2
  have hn : 0 < n := by
    have := Nat.mul_pos (Nat.two_pow_pos f.mbits) hd
    omega
  have e1q : (M : ℚ) * d * 2 ^ (f.mbits + 1) ≤ n * 2 ^ (f.mbits + 1) + n := by exact_mod_cast e1
  have e2q : (n : ℚ) * 2 ^ (f.mbits + 1) ≤ M * d * 2 ^ (f.mbits + 1) + n := by exact_mod_cast e2
  have hdq : (0 : ℚ) < d := by exact_mod_cast hd
  have hnq : (0 : ℚ) < n := by exact_mod_cast hn
  have hU : (0 : ℚ) < 2 ^ f.unitExp := by positivity
  have hP : (0 : ℚ) < 2 ^ f.mbits := by positivity
  have hP1 : (1 : ℚ) ≤ 2 ^ f.mbits := one_le_pow₀ (by norm_num)
  have ep : (2 : ℚ) ^ (f.mbits + 1) = 2 * 2 ^ f.mbits := by rw [pow_succ]; ring
  rw [ep] at e1q e2q
  generalize (2 : ℚ) ^ f.mbits = P at *
  generalize (2 : ℚ) ^ f.unitExp = U at *
  generalize (M : ℚ) = Mq at *
  generalize (n : ℚ) = nq at *
  generalize (d : ℚ) = dq at *
  have hMd : 0 < Mq * dq := by nlinarith
  have hM : 0 < Mq := by
    by_contra hc
    have : Mq * dq ≤ 0 := mul_nonpos_of_nonpos_of_nonneg (by linarith) hdq.le
    linarith
  refine ⟨by positivity, by positivity, ?_, ?_⟩
  · rw [pow_one, div_le_iff₀ (by positivity)]
    have : Mq / U * (1 + 1 / P) * (dq * U) = Mq * dq * (1 + 1 / P) := by
      field_simp
      try ring
    rw [this]
    have h3 : Mq * dq * (1 + 1 / P) * P = Mq * dq * P + Mq * dq := by
      field_simp
      try ring
    have h4 : nq * P ≤ Mq * dq * (1 + 1 / P) * P := by
      rw [h3]
      nlinarith
    exact le_of_mul_le_mul_right h4 hP
  · rw [pow_one, div_le_iff₀ hU]
    have : nq / (dq * U) * (1 + 1 / P) * U = nq * (1 + 1 / P) / dq := by
      field_simp
      try ring
    rw [this, le_div_iff₀ hdq]
    have h3 : nq * (1 + 1 / P) * P = nq * P + nq := by
      field_simp
      try ring
    have h4 : Mq * dq * P ≤ nq * (1 + 1 / P) * P := by
      rw [h3]
      nlinarith
    exact le_of_mul_le_mul_right h4 hP

theorem round_val_q (f : Fmt) (n d K : Nat) (hd : 0 < d) (x : ℚ)
    (hx : x = (n : ℚ) / ((d : ℚ) * 2 ^ f.unitExp))
    (hlo : (2 : ℚ) ^ f.mbits / 2 ^ f.unitExp ≤ x)
    (hhi : x < (2 : ℚ) ^ (f.mbits + 1 + K) / 2 ^ f.unitExp) (hK : K + 2 < f.expMax) :
    roundMag f n d < f.infBits ∧ Near (1 / 2 ^ f.mbits) 1 x (f.val (roundMag f n d)) := by
  have hdq : (0 : ℚ) < d := by exact_mod_cast hd
  have hU : (0 : ℚ) < 2 ^ f.unitExp := by positivity
  rw [hx] at hlo hhi ⊢
  have h1 : 2 ^ f.mbits * d ≤ n := by
    rw [div_le_div_iff₀ hU (by positivity)] at hlo
    have : (2 : ℚ) ^ f.mbits * d * 2 ^ f.unitExp ≤ n * 2 ^ f.unitExp := by linarith
    have := le_of_mul_le_mul_right this hU
    exact_mod_cast this
  have h2 : n < d * 2 ^ (f.mbits + 1 + K) := by
    rw [div_lt_div_iff₀ (by positivity) hU] at hhi
    have : (n : ℚ) * 2 ^ f.unitExp < d * 2 ^ (f.mbits + 1 + K) * 2 ^ f.unitExp := by linarith
    have := lt_of_mul_lt_mul_right this hU.le
    exact_mod_cast this
  exact round_val f n d K hd h1 h2 hK

theorem range64 (x : ℚ) (h : InRange 1022 x) :
    (2 : ℚ) ^ binary64.mbits / 2 ^ binary64.unitExp ≤ x ∧
    x < (2 : ℚ) ^ (binary64.mbits + 1 + 2044) / 2 ^ binary64.unitExp := by
  rw [b64_mbits, b64_unitExp]
  obtain ⟨h1, h2⟩ := h
  have e1 : (2 : ℚ) ^ 52 / 2 ^ 1074 = 1 / 2 ^ 1022 := by
    rw [div_eq_div_iff (by positivity) (by positivity), ← pow_add]
    norm_num
  have e2 : (2 : ℚ) ^ (52 + 1 + 2044) / 2 ^ 1074 = 2 ^ 1023 := by
    rw [div_eq_iff (by positivity), ← pow_add]
  have e3 : (2 : ℚ) ^ 1022 < 2 ^ 1023 := pow_lt_pow_right₀ (by norm_num) (by norm_num)
  rw [e1, e2]
  exact ⟨h1, lt_of_le_of_lt h2 e3⟩

theorem range32 (x : ℚ) (h : InRange 126 x) :
    (2 : ℚ) ^ binary32.mbits / 2 ^ binary32.unitExp ≤ x ∧
    x < (2 : ℚ) ^ (binary32.mbits + 1 + 252) / 2 ^ binary32.unitExp := by
  rw [b32_mbits, b32_unitExp]
  obtain ⟨h1, h2⟩ := h
  have e1 : (2 : ℚ) ^ 23 / 2 ^ 149 = 1 / 2 ^ 126 := by
    rw [div_eq_div_iff (by positivity) (by positivity), ← pow_add]
    norm_num
  have e2 : (2 : ℚ) ^ (23 + 1 + 252) / 2 ^ 149 = 2 ^ 127 := by
    rw [div_eq_iff (by positivity), ← pow_add]
  have e3 : (2 : ℚ) ^ 126 < 2 ^ 127 := pow_lt_pow_right₀ (by norm_num) (by norm_num)
  rw [e1, e2]
  exact ⟨h1, lt_of_le_of_lt h2 e3⟩

theorem lt_expMax_of_lt_inf (f : Fmt) (A : Nat) (h : A < f.infBits) :
    A < f.expMax * 2 ^ f.mbits := h

theorem val_pos_iff (f : Fmt) (A : Nat) : 0 < f.val A ↔ 0 < f.mag A := by
  unfold Fmt.val
  constructor
  · intro h
    by_contra hc
    have : f.mag A = 0 := by omega
    rw [this] at h
    simp at h
  · intro h
    have : (0 : ℚ) < f.mag A := by exact_mod_cast h
    positivity

theorem inRange_pos (k : Nat) (x : ℚ) (h : InRange k x) : 0 < x :=
  lt_of_lt_of_le (by positivity) h.1

/-- Multiplication of finite magnitudes with the exact product in the normal
range. -/
theorem fmul_val (f : Fmt) (A B K : Nat) (hA : A < f.infBits) (hB : B < f.infBits)
    (hlo : (2 : ℚ) ^ f.mbits / 2 ^ f.unitExp ≤ f.val A * f.val B)
    (hhi : f.val A * f.val B < (2 : ℚ) ^ (f.mbits + 1 + K) / 2 ^ f.unitExp)
    (hK : K + 2 < f.expMax) :
    fmul f A B < f.infBits ∧ Near (1 / 2 ^ f.mbits) 1 (f.val A * f.val B) (f.val (fmul f A B)) := by
  rw [fmul_finite f A B f.expMax f.expMax hA hB (le_refl _) (le_refl _)]
  apply round_val_q f _ _ K (Nat.two_pow_pos _) _ _ hlo hhi hK
  unfold Fmt.val
  push_cast
  field_simp

/-- Addition of finite magnitudes with the exact sum in the normal range. -/
theorem fadd_val (f : Fmt) (A B K : Nat) (hA : A < f.infBits) (hB : B < f.infBits)
    (hlo : (2 : ℚ) ^ f.mbits / 2 ^ f.unitExp ≤ f.val A + f.val B)
    (hhi : f.val A + f.val B < (2 : ℚ) ^ (f.mbits + 1 + K) / 2 ^ f.unitExp)
    (hK : K + 2 < f.expMax) :
    fadd f A B < f.infBits ∧ Near (1 / 2 ^ f.mbits) 1 (f.val A + f.val B) (f.val (fadd f A B)) := by
  rw [fadd_finite_pos f A B f.expMax f.expMax hA hB (le_refl _) (le_refl _)]
  have hpos : 0 < f.val A + f.val B := lt_of_lt_of_le (by positivity) hlo
  have hne : f.mag A + f.mag B ≠ 0 := by
    intro hc
    have h1 : f.mag A = 0 := by omega
    have h2 : f.mag B = 0 := by omega
    unfold Fmt.val at hpos
    rw [h1, h2] at hpos
    simp at hpos
  rw [if_neg hne]
  apply round_val_q f _ _ K (by norm_num) _ _ hlo hhi hK
  unfold Fmt.val
  push_cast
  field_simp

theorem mag_zero (f : Fmt) : f.mag 0 = 0 := by
  simp [Fmt.mag, Fmt.expo, Fmt.frac]

theorem not_isZero_of_mag_pos (f : Fmt) (B : Nat) (hB : B < f.signBit) (h : 0 < f.mag B) :
    ¬ f.isZero B := by
  unfold Fmt.isZero Fmt.absBits
  have e : f.signBit = 2 ^ (f.ebits + f.mbits) := rfl
  rw [← e, Nat.mod_eq_of_lt hB]
  intro hc
  rw [hc, mag_zero] at h
  exact Nat.lt_irrefl _ h

theorem fdiv_finite_nz (f : Fmt) (A B : Nat) (hA : A < f.infBits) (hB : B < f.infBits)
    (hz : 0 < f.mag B) :
    fdiv f A B = roundMag f (f.mag A * 2 ^ f.unitExp) (f.mag B) := by
  obtain ⟨nA, iA⟩ := finite_of_lt f A f.expMax hA (le_refl _)
  obtain ⟨nB, iB⟩ := finite_of_lt f B f.expMax hB (le_refl _)
  have sA := sign_pos f A (lt_signBit_of_lt f A f.expMax hA (le_refl _))
  have sB := sign_pos f B (lt_signBit_of_lt f B f.expMax hB (le_refl _))
  have zB := not_isZero_of_mag_pos f B (lt_signBit_of_lt f B f.expMax hB (le_refl _)) hz
  unfold fdiv
  simp only [nA, nB, iA, iB, zB, sA, sB, if_false, false_and, and_false, or_self, Nat.zero_mul,
    Nat.zero_add, Nat.zero_mod]

/-- Division of finite magnitudes with the exact quotient in the normal range. -/
theorem fdiv_val (f : Fmt) (A B K : Nat) (hA : A < f.infBits) (hB : B < f.infBits)
    (hz : 0 < f.val B)
    (hlo : (2 : ℚ) ^ f.mbits / 2 ^ f.unitExp ≤ f.val A / f.val B)
    (hhi : f.val A / f.val B < (2 : ℚ) ^ (f.mbits + 1 + K) / 2 ^ f.unitExp)
    (hK : K + 2 < f.expMax) :
    fdiv f A B < f.infBits ∧ Near (1 / 2 ^ f.mbits) 1 (f.val A / f.val B) (f.val (fdiv f A B)) := by
  have hm := (val_pos_iff f B).mp hz
  rw [fdiv_finite_nz f A B hA hB hm]
  apply round_val_q f _ _ K hm _ _ hlo hhi hK
  have hmq : (0 : ℚ) < f.mag B := by exact_mod_cast hm
  unfold Fmt.val
  push_cast
  field_simp
  ring

/-- Conversion of a finite magnitude whose value is in the normal range of the
target format. -/
theorem fcvt_val (f g : Fmt) (A K : Nat) (hA : A < f.infBits)
    (hlo : (2 : ℚ) ^ g.mbits / 2 ^ g.unitExp ≤ f.val A)
    (hhi : f.val A < (2 : ℚ) ^ (g.mbits + 1 + K) / 2 ^ g.unitExp)
    (hK : K + 2 < g.expMax) :
    fcvt f g A < g.infBits ∧ Near (1 / 2 ^ g.mbits) 1 (f.val A) (g.val (fcvt f g A)) := by
  rw [fcvt_finite f g A f.expMax hA (le_refl _)]
  apply round_val_q g _ _ K (Nat.two_pow_pos _) _ _ hlo hhi hK
  unfold Fmt.val
  push_cast
  field_simp
  ring

/-! ## Ranges of rational values -/

theorem inRange_mono (j k : Nat) (x : ℚ) (hjk : j ≤ k) (h : InRange j x) : InRange k x := by
  obtain ⟨h1, h2⟩ := h
  have hp : (2 : ℚ) ^ j ≤ 2 ^ k := pow_le_pow_right₀ (by norm_num) hjk
  refine ⟨le_trans ?_ h1, le_trans h2 hp⟩
  exact one_div_le_one_div_of_le (by positivity) hp

theorem inRange_mul (j k : Nat) (x y : ℚ) (hx : InRange j x) (hy : InRange k y) :
    InRange (j + k) (x * y) := by
  obtain ⟨h1, h2⟩ := hx
  obtain ⟨h3, h4⟩ := hy
  have px : 0 < x := lt_of_lt_of_le (by positivity) h1
  have py : 0 < y := lt_of_lt_of_le (by positivity) h3
  constructor
  · calc (1 : ℚ) / 2 ^ (j + k) = 1 / 2 ^ j * (1 / 2 ^ k) := by rw [pow_add]; field_simp
      _ ≤ x * y := mul_le_mul h1 h3 (by positivity) px.le
  · calc x * y ≤ 2 ^ j * 2 ^ k := mul_le_mul h2 h4 py.le (by positivity)
      _ = 2 ^ (j + k) := by rw [pow_add]

theorem inRange_add (k : Nat) (x y : ℚ) (hx : InRange k x) (hy : InRange k y) :
    InRange (k + 1) (x + y) := by
  obtain ⟨h1, h2⟩ := hx
  obtain ⟨h3, h4⟩ := hy
  have py : 0 < y := lt_of_lt_of_le (by positivity) h3
  have e : (2 : ℚ) ^ (k + 1) = 2 ^ k + 2 ^ k := by rw [pow_succ]; ring
  constructor
  · have : (1 : ℚ) / 2 ^ (k + 1) ≤ 1 / 2 ^ k :=
      one_div_le_one_div_of_le (by positivity) (pow_le_pow_right₀ (by norm_num) (by omega))
    linarith
  · rw [e]
    linarith

theorem inRange_inv (k : Nat) (x : ℚ) (hx : InRange k x) : InRange k (1 / x) := by
  obtain ⟨h1, h2⟩ := hx
  have px : 0 < x := lt_of_lt_of_le (by positivity) h1
  constructor
  · exact one_div_le_one_div_of_le px h2
  · rw [div_le_iff₀ px]
    rw [div_le_iff₀ (by positivity)] at h1
    linarith

theorem inRange_div (j k : Nat) (x y : ℚ) (hx : InRange j x) (hy : InRange k y) :
    InRange (j + k) (x / y) := by
  have := inRange_mul j k x (1 / y) hx (inRange_inv k y hy)
  rw [mul_one_div] at this
  exact this

theorem inRange_near (w : ℚ) (hw : 0 ≤ w) (hw1 : w ≤ 1) (k : Nat) (x y : ℚ)
    (h : Near w 1 x y) (hx : InRange k x) : InRange (k + 1) y := by
  obtain ⟨px, py, a1, a2⟩ := h
  obtain ⟨h1, h2⟩ := hx
  rw [pow_one] at a1 a2
  have e : (2 : ℚ) ^ (k + 1) = 2 ^ k * 2 := by rw [pow_succ]
  constructor
  · rw [e, div_le_iff₀ (by positivity)]
    rw [div_le_iff₀ (by positivity)] at h1
    have hk : (0 : ℚ) < 2 ^ k := by positivity
    calc (1 : ℚ) ≤ x * 2 ^ k := h1
      _ ≤ y * (1 + w) * 2 ^ k := mul_le_mul_of_nonneg_right a1 hk.le
      _ ≤ y * 2 * 2 ^ k := by
        apply mul_le_mul_of_nonneg_right _ hk.le
        exact mul_le_mul_of_nonneg_left (by linarith) py.le
      _ = y * (2 ^ k * 2) := by ring
  · rw [e]
    calc y ≤ x * (1 + w) := a2
      _ ≤ 2 ^ k * 2 := mul_le_mul h2 (by linarith) (by linarith) (by positivity)

theorem w64_eq : (1 : ℚ) / 2 ^ binary64.mbits = w64 := rfl

theorem w64_nonneg : 0 ≤ w64 := by unfold w64; positivity

theorem w64_le_one : w64 ≤ 1 := by unfold w64; norm_num

theorem b64_K : 2044 + 2 < binary64.expMax := by rw [b64_expMax]; norm_num

theorem fmul64 (A B k : Nat) (hA : A < binary64.infBits) (hB : B < binary64.infBits)
    (h : InRange k (binary64.val A * binary64.val B)) (hk : k ≤ 1022) :
    fmul binary64 A B < binary64.infBits ∧
    Near w64 1 (binary64.val A * binary64.val B) (binary64.val (fmul binary64 A B)) ∧
    InRange (k + 1) (binary64.val (fmul binary64 A B)) := by
  obtain ⟨h1, h2⟩ := range64 _ (inRange_mono k 1022 _ hk h)
  obtain ⟨r1, r2⟩ := fmul_val binary64 A B 2044 hA hB h1 h2 b64_K
  rw [w64_eq] at r2
  exact ⟨r1, r2, inRange_near w64 w64_nonneg w64_le_one k _ _ r2 h⟩

theorem fadd64 (A B k : Nat) (hA : A < binary64.infBits) (hB : B < binary64.infBits)
    (h : InRange k (binary64.val A + binary64.val B)) (hk : k ≤ 1022) :
    fadd binary64 A B < binary64.infBits ∧
    Near w64 1 (binary64.val A + binary64.val B) (binary64.val (fadd binary64 A B)) ∧
    InRange (k + 1) (binary64.val (fadd binary64 A B)) := by
  obtain ⟨h1, h2⟩ := range64 _ (inRange_mono k 1022 _ hk h)
  obtain ⟨r1, r2⟩ := fadd_val binary64 A B 2044 hA hB h1 h2 b64_K
  rw [w64_eq] at r2
  exact ⟨r1, r2, inRange_near w64 w64_nonneg w64_le_one k _ _ r2 h⟩

theorem fdiv64 (A B k : Nat) (hA : A < binary64.infBits) (hB : B < binary64.infBits)
    (hz : 0 < binary64.val B)
    (h : InRange k (binary64.val A / binary64.val B)) (hk : k ≤ 1022) :
    fdiv binary64 A B < binary64.infBits ∧
    Near w64 1 (binary64.val A / binary64.val B) (binary64.val (fdiv binary64 A B)) ∧
    InRange (k + 1) (binary64.val (fdiv binary64 A B)) := by
  obtain ⟨h1, h2⟩ := range64 _ (inRange_mono k 1022 _ hk h)
  obtain ⟨r1, r2⟩ := fdiv_val binary64 A B 2044 hA hB hz h1 h2 b64_K
  rw [w64_eq] at r2
  exact ⟨r1, r2, inRange_near w64 w64_nonneg w64_le_one k _ _ r2 h⟩

/-- One Halley step in double precision on finite magnitudes: the result is
finite and within ten rounding factors of the exact rational step. -/
theorem refineLane_val (A V : Nat) (hA : A < binary64.infBits) (hV : V < binary64.infBits)
    (rA : InRange 51 (binary64.val A)) (rV : InRange 150 (binary64.val V)) :
    refineLane A V < binary64.infBits ∧
    Near w64 10
      ((binary64.val V + (binary64.val A * binary64.val A * binary64.val A + binary64.val V))
          * binary64.val A
        / (binary64.val A * binary64.val A * binary64.val A
          + (binary64.val A * binary64.val A * binary64.val A + binary64.val V)))
      (binary64.val (refineLane A V)) := by
  simp only [refineLane]
  obtain ⟨f1, n1, r1⟩ := fmul64 A A 102 hA hA (inRange_mul 51 51 _ _ rA rA) (by norm_num)
  generalize fmul binary64 A A = AA at f1 n1 r1 ⊢
  obtain ⟨f2, n2, r2⟩ := fmul64 AA A 154 f1 hA (inRange_mul 103 51 _ _ r1 rA) (by norm_num)
  generalize fmul binary64 AA A = A3 at f2 n2 r2 ⊢
  obtain ⟨f3, n3, r3⟩ := fadd64 A3 V 156 f2 hV
    (inRange_add 155 _ _ r2 (inRange_mono 150 155 _ (by norm_num) rV)) (by norm_num)
  generalize fadd binary64 A3 V = T at f3 n3 r3 ⊢
  obtain ⟨f4, n4, r4⟩ := fadd64 V T 158 hV f3
    (inRange_add 157 _ _ (inRange_mono 150 157 _ (by norm_num) rV) r3) (by norm_num)
  generalize fadd binary64 V T = M at f4 n4 r4 ⊢
  obtain ⟨f5, n5, r5⟩ := fadd64 A3 T 158 f2 f3
    (inRange_add 157 _ _ (inRange_mono 155 157 _ (by norm_num) r2) r3) (by norm_num)
  generalize fadd binary64 A3 T = D at f5 n5 r5 ⊢
  obtain ⟨f6, n6, r6⟩ := fmul64 M A 210 f4 hA (inRange_mul 159 51 _ _ r4 rA) (by norm_num)
  generalize fmul binary64 M A = M2 at f6 n6 r6 ⊢
  obtain ⟨f7, n7, -⟩ := fdiv64 M2 D 370 f6 f5 (inRange_pos _ _ r5)
    (inRange_div 211 159 _ _ r6 r5) (by norm_num)
  exact ⟨f7, near_halley w64 w64_nonneg _ _ _ _ _ _ _ _ _ (inRange_pos _ _ rA)
    (inRange_pos _ _ rV) n1 n2 n3 n4 n5 n6 n7⟩

/-! ## Convergence of the Halley step -/

/-- The error of the cube after one exact Halley step. -/
theorem halley_cube (a v : ℚ) (ha : 0 < a) (hv : 0 < v) :
    ((v + (a * a * a + v)) * a / (a * a * a + (a * a * a + v))) ^ 3 - v
      = (a ^ 3 - v) ^ 3 * (a ^ 3 + v) / (2 * a ^ 3 + v) ^ 3 := by
  have h1 : a * a * a + (a * a * a + v) ≠ 0 := by positivity
  have h2 : 2 * a ^ 3 + v ≠ 0 := by positivity
  field_simp
  ring

theorem halley_conv (a v ε δ : ℚ) (ha : 0 < a) (hv : 0 < v) (hε0 : 0 ≤ ε) (hε1 : ε < 1)
    (h : |a ^ 3 - v| ≤ ε * v) (hδ : ε ^ 3 * (2 + ε) ≤ δ * (3 - 2 * ε) ^ 3) :
    |((v + (a * a * a + v)) * a / (a * a * a + (a * a * a + v))) ^ 3 - v| ≤ δ * v := by
  rw [halley_cube a v ha hv]
  obtain ⟨h1, h2⟩ := abs_le.mp h
  have hp : 0 < a ^ 3 := by positivity
  have hden : 0 < (3 - 2 * ε) * v := mul_pos (by linarith) hv
  have hden2 : (3 - 2 * ε) * v ≤ 2 * a ^ 3 + v := by nlinarith
  have hden3 : ((3 - 2 * ε) * v) ^ 3 ≤ (2 * a ^ 3 + v) ^ 3 :=
    pow_le_pow_left₀ hden.le hden2 3
  have hnum1 : |a ^ 3 - v| ^ 3 ≤ (ε * v) ^ 3 := pow_le_pow_left₀ (abs_nonneg _) h 3
  have hnum2 : a ^ 3 + v ≤ (2 + ε) * v := by nlinarith
  have hD : 0 < (2 * a ^ 3 + v) ^ 3 := by positivity
  rw [abs_div, abs_mul, abs_pow, abs_of_pos (by positivity : 0 < a ^ 3 + v), abs_of_pos hD,
    div_le_iff₀ hD]
  have hδ0 : 0 ≤ δ := by
    have h3 : 0 < (3 - 2 * ε) ^ 3 := by
      have : 0 < 3 - 2 * ε := by linarith
      positivity
    by_contra hc
    have : δ * (3 - 2 * ε) ^ 3 < 0 := mul_neg_of_neg_of_pos (by linarith) h3
    have : 0 ≤ ε ^ 3 * (2 + ε) := by positivity
    linarith
  calc |a ^ 3 - v| ^ 3 * (a ^ 3 + v) ≤ (ε * v) ^ 3 * ((2 + ε) * v) :=
        mul_le_mul hnum1 hnum2 (by positivity) (by positivity)
    _ = ε ^ 3 * (2 + ε) * v ^ 4 := by ring
    _ ≤ δ * (3 - 2 * ε) ^ 3 * v ^ 4 := mul_le_mul_of_nonneg_right hδ (by positivity)
    _ = δ * v * ((3 - 2 * ε) * v) ^ 3 := by ring
    _ ≤ δ * v * (2 * a ^ 3 + v) ^ 3 := mul_le_mul_of_nonneg_left hden3 (by positivity)

/-- A value within `n` rounding factors of `h`, whose cube is within `δ` of
`v`, has its cube within `δ + τ + δ τ` of `v`, where `(1 + w) ^ (3 n) ≤ 1 + τ`. -/
theorem near_cube_bound (w τ δ : ℚ) (n : Nat) (h r v : ℚ) (hw : 0 ≤ w) (hv : 0 < v)
    (hτ : (1 + w) ^ (3 * n) ≤ 1 + τ) (hδ : 0 ≤ δ) (hn : Near w n h r) (hh : |h ^ 3 - v| ≤ δ * v) :
    |r ^ 3 - v| ≤ (δ + τ + δ * τ) * v := by
  obtain ⟨p1, p2, a1, a2⟩ := near_pow3 w hw n h r hn
  obtain ⟨h1, h2⟩ := abs_le.mp hh
  have hτ0 : 0 ≤ τ := by
    have : (1 : ℚ) ≤ (1 + w) ^ (3 * n) := one_le_pow₀ (by linarith)
    linarith
  have b1 : h ^ 3 ≤ r ^ 3 * (1 + τ) := a1.trans (mul_le_mul_of_nonneg_left hτ p2.le)
  have b2 : r ^ 3 ≤ h ^ 3 * (1 + τ) := a2.trans (mul_le_mul_of_nonneg_left hτ p1.le)
  rw [abs_le]
  constructor
  · have : v * (1 - δ) ≤ r ^ 3 * (1 + τ) := by nlinarith
    have hδτ : 0 ≤ δ * τ := mul_nonneg hδ hτ0
    nlinarith [mul_nonneg p2.le hτ0, mul_nonneg hv.le hδτ, mul_nonneg hv.le hτ0,
      mul_nonneg (mul_nonneg hv.le hτ0) hτ0, mul_nonneg (mul_nonneg hv.le hδτ) hτ0]
  · nlinarith

/-- A positive number whose cube is within a factor two of a number between
`2 ^ -150` and `2 ^ 150` lies between `2 ^ -51` and `2 ^ 51`. -/
theorem inRange_cbrt (a v : ℚ) (ha : 0 < a) (hv : InRange 150 v) (h1 : v ≤ 2 * a ^ 3)
    (h2 : a ^ 3 ≤ 2 * v) : InRange 51 a := by
  obtain ⟨v1, v2⟩ := hv
  constructor
  · by_contra hc
    push_neg at hc
    have h3 : a ^ 3 < (1 / 2 ^ 51) ^ 3 := pow_lt_pow_left₀ hc ha.le (by norm_num)
    have e : ((1 : ℚ) / 2 ^ 51) ^ 3 = 1 / 2 ^ 153 := by
      rw [div_pow, one_pow, ← pow_mul]
    have e2 : (1 : ℚ) / 2 ^ 150 = 8 * (1 / 2 ^ 153) := by
      rw [show (153 : ℕ) = 150 + 3 by norm_num, pow_add]
      field_simp
      norm_num
    rw [e] at h3
    rw [e2] at v1
    linarith
  · by_contra hc
    push_neg at hc
    have h3 : (2 ^ 51) ^ 3 < a ^ 3 := pow_lt_pow_left₀ hc (by positivity) (by norm_num)
    have e : ((2 : ℚ) ^ 51) ^ 3 = 2 ^ 150 * 8 := by
      rw [← pow_mul]
      rw [show (51 * 3 : ℕ) = 150 + 3 by norm_num, pow_add]
      norm_num
    rw [e] at h3
    linarith

/-! ## Accuracy of the seed -/

theorem mag_mono (f : Fmt) (p q : Nat) (hq : q < f.signBit) (h : p ≤ q) : f.mag p ≤ f.mag q := by
  have hp : p < f.signBit := by omega
  have ep := expo_eq_div f p hp
  have eq := expo_eq_div f q hq
  have hpow := Nat.two_pow_pos f.mbits
  have hle : f.expo p ≤ f.expo q := by
    rw [ep, eq]
    exact Nat.div_le_div_right h
  rcases Nat.lt_or_ge (f.expo p) (f.expo q) with hlt | hge
  · have h1 : p < (f.expo p + 1) * 2 ^ f.mbits := by
      rw [ep]
      have := Nat.div_add_mod p (2 ^ f.mbits)
      have := Nat.mod_lt p hpow
      have e : (p / 2 ^ f.mbits + 1) * 2 ^ f.mbits = 2 ^ f.mbits * (p / 2 ^ f.mbits) + 2 ^ f.mbits := by
        ring
      omega
    have h2 : f.expo q * 2 ^ f.mbits ≤ q := by
      rw [eq]
      exact Nat.div_mul_le_self q _
    have m1 := mag_lt f p (f.expo p + 1) h1 (by omega)
    have m2 := mag_ge f q (f.expo q) hq h2 (by omega)
    have : 2 ^ (f.mbits + (f.expo p + 1) - 1) ≤ 2 ^ (f.mbits + f.expo q - 1) :=
      Nat.pow_le_pow_right (by norm_num) (by omega)
    omega
  · have he : f.expo p = f.expo q := by omega
    have hf : f.frac p ≤ f.frac q := by
      unfold Fmt.frac
      have d1 := Nat.div_add_mod p (2 ^ f.mbits)
      have d2 := Nat.div_add_mod q (2 ^ f.mbits)
      rw [← ep] at d1
      rw [← eq, ← he] at d2
      omega
    unfold Fmt.mag
    rw [he]
    split
    · exact hf
    · exact Nat.mul_le_mul_right _ (by omega)

theorem mag_shift (f : Fmt) (p j : Nat) (hp : 2 ^ f.mbits ≤ p)
    (hq : p + j * 2 ^ f.mbits < f.signBit) : f.mag (p + j * 2 ^ f.mbits) = f.mag p * 2 ^ j := by
  have hpow := Nat.two_pow_pos f.mbits
  have e1 : f.expo (p + j * 2 ^ f.mbits) = f.expo p + j := by
    rw [expo_eq_div f _ hq, expo_eq_div f p (by omega), Nat.add_mul_div_right _ _ hpow]
  have e2 : f.frac (p + j * 2 ^ f.mbits) = f.frac p := by
    unfold Fmt.frac
    rw [Nat.add_mul_mod_self_right]
  have e3 : 1 ≤ f.expo p := by
    rw [expo_eq_div f p (by omega)]
    exact (Nat.le_div_iff_mul_le hpow).mpr (by omega)
  unfold Fmt.mag
  rw [e1, e2, if_neg (by omega), if_neg (by omega)]
  have : f.expo p + j - 1 = f.expo p - 1 + j := by omega
  rw [this, Nat.pow_add]
  ring

/-- On an interval of patterns the seed inequality follows from its two end
points, by monotonicity of the magnitude in the pattern. -/
theorem seed_piece (lo hi a : Nat) (h1 : lo ≤ a) (h2 : a ≤ hi) (hhi : hi < 2 ^ 25)
    (c1 : 7 * binary32.mag hi * (2 ^ 149 * 2 ^ 149)
      ≤ 10 * binary32.mag (lo / 3 + 709958130) ^ 3)
    (c2 : 1000 * binary32.mag (hi / 3 + 709958130) ^ 3
      ≤ 1345 * binary32.mag lo * (2 ^ 149 * 2 ^ 149)) :
    7 * binary32.mag a * (2 ^ 149 * 2 ^ 149) ≤ 10 * binary32.mag (a / 3 + 709958130) ^ 3 ∧
    1000 * binary32.mag (a / 3 + 709958130) ^ 3
      ≤ 1345 * binary32.mag a * (2 ^ 149 * 2 ^ 149) := by
  have m1 := mag_mono binary32 lo a (by rw [b32_signBit]; omega) h1
  have m2 := mag_mono binary32 a hi (by rw [b32_signBit]; omega) h2
  have m3 := mag_mono binary32 (lo / 3 + 709958130) (a / 3 + 709958130)
    (by rw [b32_signBit]; omega) (by omega)
  have m4 := mag_mono binary32 (a / 3 + 709958130) (hi / 3 + 709958130)
    (by rw [b32_signBit]; omega) (by omega)
  have p3 : binary32.mag (lo / 3 + 709958130) ^ 3 ≤ binary32.mag (a / 3 + 709958130) ^ 3 :=
    Nat.pow_le_pow_left m3 3
  have p4 : binary32.mag (a / 3 + 709958130) ^ 3 ≤ binary32.mag (hi / 3 + 709958130) ^ 3 :=
    Nat.pow_le_pow_left m4 3
  constructor
  · calc 7 * binary32.mag a * (2 ^ 149 * 2 ^ 149)
        ≤ 7 * binary32.mag hi * (2 ^ 149 * 2 ^ 149) :=
          Nat.mul_le_mul_right _ (Nat.mul_le_mul_left _ m2)
      _ ≤ 10 * binary32.mag (lo / 3 + 709958130) ^ 3 := c1
      _ ≤ 10 * binary32.mag (a / 3 + 709958130) ^ 3 := Nat.mul_le_mul_left _ p3
  · calc 1000 * binary32.mag (a / 3 + 709958130) ^ 3
        ≤ 1000 * binary32.mag (hi / 3 + 709958130) ^ 3 := Nat.mul_le_mul_left _ p4
      _ ≤ 1345 * binary32.mag lo * (2 ^ 149 * 2 ^ 149) := c2
      _ ≤ 1345 * binary32.mag a * (2 ^ 149 * 2 ^ 149) :=
          Nat.mul_le_mul_right _ (Nat.mul_le_mul_left _ m1)

/-- The seed inequality on the three lowest normal binades. -/
theorem seed_base (a : Nat) (h1 : 2 ^ 23 ≤ a) (h2 : a < 2 ^ 25) :
    7 * binary32.mag a * (2 ^ 149 * 2 ^ 149) ≤ 10 * binary32.mag (a / 3 + 709958130) ^ 3 ∧
    1000 * binary32.mag (a / 3 + 709958130) ^ 3
      ≤ 1345 * binary32.mag a * (2 ^ 149 * 2 ^ 149) := by
  by_cases b1 : a ≤ 0x9fffff
  · exact seed_piece 0x800000 0x9fffff a (by omega) b1 (by norm_num) (by decide) (by decide)
  by_cases b2 : a ≤ 0xbfffff
  · exact seed_piece 0xa00000 0xbfffff a (by omega) b2 (by norm_num) (by decide) (by decide)
  by_cases b3 : a ≤ 0xdfffff
  · exact seed_piece 0xc00000 0xdfffff a (by omega) b3 (by norm_num) (by decide) (by decide)
  by_cases b4 : a ≤ 0xffffff
  · exact seed_piece 0xe00000 0xffffff a (by omega) b4 (by norm_num) (by decide) (by decide)
  by_cases b5 : a ≤ 0x11fffff
  · exact seed_piece 0x1000000 0x11fffff a (by omega) b5 (by norm_num) (by decide) (by decide)
  by_cases b6 : a ≤ 0x13fffff
  · exact seed_piece 0x1200000 0x13fffff a (by omega) b6 (by norm_num) (by decide) (by decide)
  by_cases b7 : a ≤ 0x15fffff
  · exact seed_piece 0x1400000 0x15fffff a (by omega) b7 (by norm_num) (by decide) (by decide)
  by_cases b8 : a ≤ 0x17fffff
  · exact seed_piece 0x1600000 0x17fffff a (by omega) b8 (by norm_num) (by decide) (by decide)
  by_cases b9 : a ≤ 0x19fffff
  · exact seed_piece 0x1800000 0x19fffff a (by omega) b9 (by norm_num) (by decide) (by decide)
  by_cases b10 : a ≤ 0x1bfffff
  · exact seed_piece 0x1a00000 0x1bfffff a (by omega) b10 (by norm_num) (by decide) (by decide)
  by_cases b11 : a ≤ 0x1dfffff
  · exact seed_piece 0x1c00000 0x1dfffff a (by omega) b11 (by norm_num) (by decide) (by decide)
  · exact seed_piece 0x1e00000 0x1ffffff a (by omega) (by omega) (by norm_num) (by decide)
      (by decide)

/-- The seed of a normal input: its cube is between 0.7 and 1.345 times the
input (magnitudes in units of `2 ^ -149`). -/
theorem seed_normal (a : Nat) (h1 : 2 ^ 23 ≤ a) (h2 : a < 255 * 2 ^ 23) :
    7 * binary32.mag a * (2 ^ 149 * 2 ^ 149) ≤ 10 * binary32.mag (a / 3 + 709958130) ^ 3 ∧
    1000 * binary32.mag (a / 3 + 709958130) ^ 3
      ≤ 1345 * binary32.mag a * (2 ^ 149 * 2 ^ 149) := by
  obtain ⟨j, a0, ha, hlo, hhi⟩ : ∃ j a0 : Nat, a = a0 + 3 * j * 2 ^ 23 ∧ 2 ^ 23 ≤ a0 ∧ a0 < 2 ^ 25 :=
    ⟨(a / 2 ^ 23 - 1) / 3, a - 3 * ((a / 2 ^ 23 - 1) / 3) * 2 ^ 23, by omega, by omega, by omega⟩
  have hs : a / 3 + 709958130 = (a0 / 3 + 709958130) + j * 2 ^ 23 := by omega
  have m1 : binary32.mag a = binary32.mag a0 * 2 ^ (3 * j) := by
    rw [ha]
    exact mag_shift binary32 a0 (3 * j) (by rw [b32_mbits]; exact hlo)
      (by rw [b32_signBit, b32_mbits]; omega)
  have m2 : binary32.mag (a / 3 + 709958130) = binary32.mag (a0 / 3 + 709958130) * 2 ^ j := by
    rw [hs]
    exact mag_shift binary32 _ j (by rw [b32_mbits]; omega)
      (by rw [b32_signBit, b32_mbits]; omega)
  obtain ⟨c1, c2⟩ := seed_base a0 hlo hhi
  rw [m1, m2]
  generalize binary32.mag a0 = M at c1 c2
  generalize binary32.mag (a0 / 3 + 709958130) = S at c1 c2
  have e : (S * 2 ^ j) ^ 3 = S ^ 3 * 2 ^ (3 * j) := by
    rw [Nat.mul_pow, ← Nat.pow_mul, Nat.mul_comm j 3]
  rw [e]
  generalize (2 : Nat) ^ (3 * j) = P
  constructor
  · calc 7 * (M * P) * (2 ^ 149 * 2 ^ 149) = 7 * M * (2 ^ 149 * 2 ^ 149) * P := by ring
      _ ≤ 10 * S ^ 3 * P := Nat.mul_le_mul_right _ c1
      _ = 10 * (S ^ 3 * P) := by ring
  · calc 1000 * (S ^ 3 * P) = 1000 * S ^ 3 * P := by ring
      _ ≤ 1345 * M * (2 ^ 149 * 2 ^ 149) * P := Nat.mul_le_mul_right _ c2
      _ = 1345 * (M * P) * (2 ^ 149 * 2 ^ 149) := by ring

theorem w32_eq : (1 : ℚ) / 2 ^ binary32.mbits = w32 := rfl

theorem w32_nonneg : 0 ≤ w32 := by unfold w32; positivity

theorem w32_le_one : w32 ≤ 1 := by unfold w32; norm_num

theorem b32_K : 252 + 2 < binary32.expMax := by rw [b32_expMax]; norm_num

theorem fmul32 (A B k : Nat) (hA : A < binary32.infBits) (hB : B < binary32.infBits)
    (h : InRange k (binary32.val A * binary32.val B)) (hk : k ≤ 126) :
    fmul binary32 A B < binary32.infBits ∧
    Near w32 1 (binary32.val A * binary32.val B) (binary32.val (fmul binary32 A B)) ∧
    InRange (k + 1) (binary32.val (fmul binary32 A B)) := by
  obtain ⟨h1, h2⟩ := range32 _ (inRange_mono k 126 _ hk h)
  obtain ⟨r1, r2⟩ := fmul_val binary32 A B 252 hA hB h1 h2 b32_K
  rw [w32_eq] at r2
  exact ⟨r1, r2, inRange_near w32 w32_nonneg w32_le_one k _ _ r2 h⟩

theorem fcvt_32_64 (A k : Nat) (hA : A < binary32.infBits) (h : InRange k (binary32.val A))
    (hk : k ≤ 1022) :
    fcvt binary32 binary64 A < binary64.infBits ∧
    Near w64 1 (binary32.val A) (binary64.val (fcvt binary32 binary64 A)) ∧
    InRange (k + 1) (binary64.val (fcvt binary32 binary64 A)) := by
  obtain ⟨h1, h2⟩ := range64 _ (inRange_mono k 1022 _ hk h)
  obtain ⟨r1, r2⟩ := fcvt_val binary32 binary64 A 2044 hA h1 h2 b64_K
  rw [w64_eq] at r2
  exact ⟨r1, r2, inRange_near w64 w64_nonneg w64_le_one k _ _ r2 h⟩

theorem fcvt_64_32 (A k : Nat) (hA : A < binary64.infBits) (h : InRange k (binary64.val A))
    (hk : k ≤ 126) :
    fcvt binary64 binary32 A < binary32.infBits ∧
    Near w32 1 (binary64.val A) (binary32.val (fcvt binary64 binary32 A)) ∧
    InRange (k + 1) (binary32.val (fcvt binary64 binary32 A)) := by
  obtain ⟨h1, h2⟩ := range32 _ (inRange_mono k 126 _ hk h)
  obtain ⟨r1, r2⟩ := fcvt_val binary64 binary32 A 252 hA h1 h2 b32_K
  rw [w32_eq] at r2
  exact ⟨r1, r2, inRange_near w32 w32_nonneg w32_le_one k _ _ r2 h⟩

theorem val32_eq (A : Nat) : binary32.val A = (binary32.mag A : ℚ) / 2 ^ 149 := rfl

set_option exponentiation.threshold 512 in
/-- A finite non-zero single has a value between `2 ^ -149` and `2 ^ 128`. -/
theorem val32_range (X : Nat) (h0 : 0 < X) (h1 : X < 255 * 2 ^ 23) :
    (1 : ℚ) / 2 ^ 149 ≤ binary32.val X ∧ binary32.val X ≤ 2 ^ 128 := by
  have m1 := mag_pos binary32 X (by rw [b32_signBit]; omega) h0
  have m2 := mag_lt binary32 X 255 (by rw [b32_mbits]; exact h1) (by norm_num)
  rw [b32_mbits] at m2
  rw [val32_eq]
  have q1 : (1 : ℚ) ≤ binary32.mag X := by exact_mod_cast m1
  have q2 : (binary32.mag X : ℚ) ≤ 2 ^ (23 + 255 - 1) := by exact_mod_cast m2.le
  constructor
  · exact div_le_div_of_nonneg_right q1 (by positivity)
  · rw [div_le_iff₀ (by positivity), ← pow_add]
    exact q2

/-- A normal single with exponent field below 253 has a value between
`2 ^ -126` and `2 ^ 126`. -/
theorem val32_normal (R : Nat) (h0 : 2 ^ 23 ≤ R) (h1 : R < 253 * 2 ^ 23) :
    InRange 126 (binary32.val R) := by
  have m1 := mag_ge binary32 R 1 (by rw [b32_signBit]; omega) (by rw [b32_mbits]; omega)
    (by norm_num)
  have m2 := mag_lt binary32 R 253 (by rw [b32_mbits]; exact h1) (by norm_num)
  rw [b32_mbits] at m1 m2
  rw [val32_eq]
  have q1 : ((2 : ℚ) ^ 23) ≤ binary32.mag R := by exact_mod_cast m1
  have q2 : (binary32.mag R : ℚ) ≤ 2 ^ 149 * 2 ^ 126 := by
    have : binary32.mag R ≤ 2 ^ 149 * 2 ^ 126 := by
      have e : 2 ^ (23 + 253 - 1) = 2 ^ 149 * 2 ^ 126 := by rw [← Nat.pow_add]
      omega
    exact_mod_cast this
  constructor
  · rw [div_le_div_iff₀ (by positivity) (by positivity), one_mul]
    calc (2 : ℚ) ^ 149 = 2 ^ 23 * 2 ^ 126 := by norm_num
      _ ≤ (binary32.mag R : ℚ) * 2 ^ 126 := mul_le_mul_of_nonneg_right q1 (by positivity)
  · rw [div_le_iff₀ (by positivity)]
    linarith

theorem val_c24 : binary32.val 0x4b800000 = 2 ^ 24 := by
  have h : binary32.mag 0x4b800000 = 2 ^ 173 := by decide
  rw [val32_eq, h]
  norm_num

theorem cube_scale (s : ℚ) : (s * 2 ^ 8) ^ 3 = s ^ 3 * 2 ^ 24 := by
  rw [mul_pow, ← pow_mul]

/-- The cube of the seed is between 0.69 and 1.346 times the input, for every
finite non-zero magnitude. -/
theorem seed_ratio (X : Nat) (h0 : 0 < X) (h1 : X < 255 * 2 ^ 23) :
    69 / 100 * binary32.val X ≤ binary32.val (seedMag X) ^ 3 ∧
    binary32.val (seedMag X) ^ 3 ≤ 1346 / 1000 * binary32.val X := by
  have hmod : X % 2 ^ 31 = X := Nat.mod_eq_of_lt (by omega)
  have key : ∀ T S1 : Nat, 2 ^ 23 ≤ T → T < 255 * 2 ^ 23 → S1 = T / 3 + 709958130 →
      7 / 10 * binary32.val T ≤ binary32.val S1 ^ 3 ∧
      binary32.val S1 ^ 3 ≤ 1345 / 1000 * binary32.val T := by
    intro T S1 t1 t2 hS
    obtain ⟨c1, c2⟩ := seed_normal T t1 t2
    rw [← hS] at c1 c2
    rw [val32_eq, val32_eq]
    generalize binary32.mag T = M at c1 c2
    generalize binary32.mag S1 = S at c1 c2
    have q1 : (7 : ℚ) * M * (2 ^ 149 * 2 ^ 149) ≤ 10 * (S : ℚ) ^ 3 := by exact_mod_cast c1
    have q2 : (1000 : ℚ) * (S : ℚ) ^ 3 ≤ 1345 * M * (2 ^ 149 * 2 ^ 149) := by exact_mod_cast c2
    have hP : (0 : ℚ) < 2 ^ 149 := by positivity
    generalize (2 : ℚ) ^ 149 = P at *
    have e : ((S : ℚ) / P) ^ 3 = (S : ℚ) ^ 3 / (P * P * P) := by
      rw [div_pow]
      ring
    rw [e]
    constructor
    · rw [le_div_iff₀ (by positivity)]
      have : 7 / 10 * ((M : ℚ) / P) * (P * P * P) = 7 / 10 * M * (P * P) := by
        field_simp
        ring
      rw [this]
      linarith
    · rw [div_le_iff₀ (by positivity)]
      have : 1345 / 1000 * ((M : ℚ) / P) * (P * P * P) = 1345 / 1000 * M * (P * P) := by
        field_simp
        ring
      rw [this]
      linarith
  have hx := val32_range X h0 h1
  have hxpos : 0 < binary32.val X := lt_of_lt_of_le (by positivity) hx.1
  by_cases hsub : X < 0x00800000
  · -- subnormal input: the seed comes from the rescaled value
    have hmag : binary32.mag X = X := by
      unfold Fmt.mag
      have he : binary32.expo X = 0 := by
        rw [expo_eq_div binary32 X (by rw [b32_signBit]; omega), b32_mbits]
        exact Nat.div_eq_of_lt (by omega)
      rw [if_pos he]
      unfold Fmt.frac
      rw [b32_mbits]
      exact Nat.mod_eq_of_lt (by omega)
    have hX : X < binary32.infBits := by rw [b32_infBits]; omega
    have hrange : InRange 125 (binary32.val X * binary32.val 0x4b800000) := by
      rw [val_c24, val32_eq, hmag]
      have x1 : (1 : ℚ) ≤ X := by exact_mod_cast h0
      have x2 : (X : ℚ) ≤ 2 ^ 23 := by exact_mod_cast (by omega : X ≤ 2 ^ 23)
      constructor
      · rw [div_le_iff₀ (by positivity)]
        have e : (X : ℚ) / 2 ^ 149 * 2 ^ 24 * 2 ^ 125 = X := by
          field_simp
          rw [mul_assoc, ← pow_add]
        rw [e]
        exact x1
      · have e : (X : ℚ) / 2 ^ 149 * 2 ^ 24 = X / 2 ^ 125 := by
          rw [div_mul_eq_mul_div, div_eq_div_iff (by positivity) (by positivity), mul_assoc,
            ← pow_add]
        rw [e, div_le_iff₀ (by positivity)]
        have : (2 : ℚ) ^ 23 ≤ 2 ^ 125 * 2 ^ 125 := by
          rw [← pow_add]
          exact pow_le_pow_right₀ (by norm_num) (by norm_num)
        linarith
    obtain ⟨fT, nT, rT⟩ := fmul32 X 0x4b800000 125 hX (by decide) hrange (by norm_num)
    have ht : (seedLane X).t = fmul binary32 X 0x4b800000 := by
      rw [seedLane_t]
      exact Nat.mod_eq_of_lt (by rw [b32_infBits] at fT; omega)
    rw [← ht] at fT nT rT
    have hS : seedMag X = (seedLane X).t / 3 + 642849266 := by
      unfold seedMag
      rw [hmod, if_pos hsub]
    generalize (seedLane X).t = T at fT nT rT ht hS
    have hTn : 2 ^ 23 ≤ T := by
      by_contra hc
      have := mag_lt binary32 T 1 (by rw [b32_mbits]; omega) (by norm_num)
      rw [b32_mbits] at this
      have q : (binary32.mag T : ℚ) < 2 ^ (23 + 1 - 1) := by exact_mod_cast this
      have r1 := rT.1
      rw [val32_eq, div_le_div_iff₀ (by positivity) (by positivity), one_mul] at r1
      have e : (2 : ℚ) ^ 149 = 2 ^ (23 + 1 - 1) * 2 ^ (125 + 1) := by rw [← pow_add]
      rw [e] at r1
      have := lt_of_lt_of_le (mul_lt_mul_of_pos_right q (by positivity : (0:ℚ) < 2 ^ (125 + 1))) (le_refl _)
      linarith
    have hT2 : T < 255 * 2 ^ 23 := by rw [b32_infBits] at fT; omega
    obtain ⟨k1, k2⟩ := key T (T / 3 + 709958130) hTn hT2 rfl
    have hshift : binary32.mag (T / 3 + 709958130) = binary32.mag (seedMag X) * 2 ^ 8 := by
      have e : T / 3 + 709958130 = seedMag X + 8 * 2 ^ 23 := by rw [hS]; omega
      rw [e]
      exact mag_shift binary32 _ 8 (by rw [b32_mbits, hS]; omega)
        (by rw [b32_signBit, b32_mbits, hS]; omega)
    have hv : binary32.val (T / 3 + 709958130) = binary32.val (seedMag X) * 2 ^ 8 := by
      rw [val32_eq, val32_eq, hshift]
      push_cast
      ring
    rw [hv, cube_scale] at k1 k2
    obtain ⟨-, -, n1, n2⟩ := nT
    rw [pow_one, val_c24] at n1 n2
    generalize binary32.val (seedMag X) ^ 3 = s3 at k1 k2 ⊢
    generalize binary32.val T = t at k1 k2 n1 n2
    generalize binary32.val X = x at n1 n2 hxpos ⊢
    unfold w32 at n1 n2
    constructor
    · nlinarith
    · nlinarith
  · have hS : seedMag X = X / 3 + 709958130 := by
      unfold seedMag
      rw [hmod, if_neg hsub]
    obtain ⟨k1, k2⟩ := key X (seedMag X) (by omega) h1 hS
    constructor
    · linarith
    · linarith

/-! ## Accuracy of the refined result -/

theorem pow30_w64 : (1 + w64) ^ (3 * 10) ≤ 1 + 1 / 2 ^ 46 := by
  unfold w64
  norm_num

theorem abs_cube_of_bounds (a3 v ε : ℚ) (h1 : (1 - ε) * v ≤ a3) (h2 : a3 ≤ (1 + ε) * v) :
    |a3 - v| ≤ ε * v := by
  rw [abs_le]
  constructor <;> linarith

theorem bounds_of_abs_cube (a3 v ε : ℚ) (h : |a3 - v| ≤ ε * v) :
    (1 - ε) * v ≤ a3 ∧ a3 ≤ (1 + ε) * v := by
  obtain ⟨h1, h2⟩ := abs_le.mp h
  constructor <;> linarith

/-- The widened seed: its cube is within 0.35 of the widened input. -/
theorem seed_widened (x s a v : ℚ) (hx : 0 < x) (h1 : 69 / 100 * x ≤ s ^ 3)
    (h2 : s ^ 3 ≤ 1346 / 1000 * x) (na : Near w64 1 s a) (nv : Near w64 1 x v) :
    |a ^ 3 - v| ≤ 7 / 20 * v := by
  obtain ⟨-, -, a1, a2⟩ := near_pow3 w64 w64_nonneg 1 s a na
  obtain ⟨-, pv, b1, b2⟩ := nv
  rw [pow_one] at b1 b2
  unfold w64 at a1 a2 b1 b2
  norm_num at a1 a2 b1 b2
  apply abs_cube_of_bounds
  · linarith
  · linarith

/-- The narrowed result: its cube is within `10 ^ -6` of the input. -/
theorem result_narrowed (x v r y : ℚ) (hx : 0 < x) (nv : Near w64 1 x v)
    (hr : |r ^ 3 - v| ≤ 1 / 10 ^ 7 * v) (ny : Near w32 1 r y) :
    |y ^ 3 - x| ≤ x / 10 ^ 6 := by
  obtain ⟨-, -, a1, a2⟩ := near_pow3 w32 w32_nonneg 1 r y ny
  obtain ⟨-, pv, b1, b2⟩ := nv
  obtain ⟨c1, c2⟩ := bounds_of_abs_cube _ _ _ hr
  rw [pow_one] at b1 b2
  unfold w32 at a1 a2
  unfold w64 at b1 b2
  norm_num at a1 a2 b1 b2 c1 c2
  rw [abs_le]
  constructor
  · linarith
  · linarith

theorem seedMag_ge (X : Nat) : 2 ^ 23 ≤ seedMag X := by
  unfold seedMag
  split <;> omega

theorem inRange_of_cube (a v ε : ℚ) (ha : 0 < a) (hv : InRange 150 v) (hε : ε ≤ 1 / 2)
    (h : |a ^ 3 - v| ≤ ε * v) : InRange 51 a := by
  obtain ⟨h1, h2⟩ := bounds_of_abs_cube _ _ _ h
  have pv := inRange_pos _ _ hv
  apply inRange_cbrt a v ha hv
  · nlinarith
  · nlinarith

/-- The refinement block applied to the seed of a finite non-zero magnitude:
the result is finite and its cube is within `10 ^ -6` of the input. -/
theorem refine2Lane_accurate (X : Nat) (h0 : 0 < X) (h1 : X < 255 * 2 ^ 23) :
    refine2Lane (seedMag X) X < binary32.infBits ∧
    |binary32.val (refine2Lane (seedMag X) X) ^ 3 - binary32.val X| ≤ binary32.val X / 10 ^ 6 := by
  have hR1 := seedMag_lt X
  have hR0 := seedMag_ge X
  obtain ⟨s1, s2⟩ := seed_ratio X h0 h1
  generalize seedMag X = R at hR0 hR1 s1 s2 ⊢
  have hx := val32_range X h0 h1
  have hxpos : 0 < binary32.val X := lt_of_lt_of_le (by positivity) hx.1
  have rx : InRange 149 (binary32.val X) :=
    ⟨hx.1, hx.2.trans (pow_le_pow_right₀ (by norm_num) (by norm_num))⟩
  have rs := val32_normal R hR0 (by omega)
  obtain ⟨fRD, nRD, -⟩ := fcvt_32_64 R 126 (by rw [b32_infBits]; omega) rs (by norm_num)
  obtain ⟨fXD, nXD, rXD⟩ := fcvt_32_64 X 149 (by rw [b32_infBits]; omega) rx (by norm_num)
  simp only [refine2Lane]
  generalize fcvt binary32 binary64 R = RD at fRD nRD ⊢
  generalize fcvt binary32 binary64 X = XD at fXD nXD rXD ⊢
  have pv := inRange_pos _ _ rXD
  -- the widened seed
  have e0 := seed_widened _ _ _ _ hxpos s1 s2 nRD nXD
  have ra := inRange_of_cube _ _ _ nRD.2.1 rXD (by norm_num) e0
  -- first refinement
  obtain ⟨f1, n1⟩ := refineLane_val RD XD fRD fXD ra rXD
  have c1 := halley_conv _ _ (7 / 20) (83 / 10000) nRD.2.1 pv (by norm_num) (by norm_num) e0
    (by norm_num)
  have e1 := near_cube_bound w64 (1 / 2 ^ 46) (83 / 10000) 10 _ _ _ w64_nonneg pv pow30_w64
    (by norm_num) n1 c1
  have e1' : |binary64.val (refineLane RD XD) ^ 3 - binary64.val XD|
      ≤ 1 / 100 * binary64.val XD :=
    e1.trans (mul_le_mul_of_nonneg_right (by norm_num) pv.le)
  have ra1 := inRange_of_cube _ _ _ n1.2.1 rXD (by norm_num) e1'
  generalize refineLane RD XD = R1 at f1 n1 e1' ra1 ⊢
  -- second refinement
  obtain ⟨f2, n2⟩ := refineLane_val R1 XD f1 fXD ra1 rXD
  have c2 := halley_conv _ _ (1 / 100) (8 / 10 ^ 8) n1.2.1 pv (by norm_num) (by norm_num) e1'
    (by norm_num)
  have e2 := near_cube_bound w64 (1 / 2 ^ 46) (8 / 10 ^ 8) 10 _ _ _ w64_nonneg pv pow30_w64
    (by norm_num) n2 c2
  have e2' : |binary64.val (refineLane R1 XD) ^ 3 - binary64.val XD|
      ≤ 1 / 10 ^ 7 * binary64.val XD :=
    e2.trans (mul_le_mul_of_nonneg_right (by norm_num) pv.le)
  have ra2 := inRange_of_cube _ _ _ n2.2.1 rXD (by norm_num) e2'
  generalize refineLane R1 XD = R2 at f2 n2 e2' ra2 ⊢
  -- narrowing
  obtain ⟨fY, nY, -⟩ := fcvt_64_32 R2 51 f2 ra2 (by norm_num)
  exact ⟨fY, result_narrowed _ _ _ _ hxpos nXD e2' nY⟩

theorem value_pack (s A : Nat) (hs : s ≤ 1) (hA : A < 2 ^ 31) :
    binary32.value (binary32.pack s A)
      = if s = 1 then -binary32.val A else binary32.val A := by
  unfold Fmt.value Fmt.val
  rw [toUnits_pack binary32 s A hs (by rw [b32_signBit]; exact hA)]
  split
  · push_cast
    ring
  · push_cast
    ring

theorem cbrtLane_finite (A : Nat) (h0 : 0 < A) (h1 : A ≤ 0x7F7FFFFF) :
    cbrtLane A = refine2Lane (seedMag A) A := by
  have hA : A < 2 ^ 31 := by omega
  have hr := seedLane_r_pack 0 A (by omega) hA
  rw [pack_zero, pack_zero] at hr
  rw [cbrtLane_eq, Nat.mod_eq_of_lt hA, if_neg (by omega), if_neg (by omega), hr]

/-- One lane of `cbrt_ps` on a finite non-zero input: the output is finite and
its cube is within `10 ^ -6` of the input, relative to the input. -/
theorem cbrtLane_accurate (a : Nat) (ha : a < 2 ^ 32) (h0 : 0 < a % 2 ^ 31)
    (h1 : a % 2 ^ 31 ≤ 0x7F7FFFFF) :
    cbrtLane a % 2 ^ 31 < 0x7F800000 ∧
    |binary32.value (cbrtLane a) ^ 3 - binary32.value a|
      ≤ 1 / 10 ^ 6 * |binary32.value a| := by
  obtain ⟨e, hs, hA⟩ := pack32_of_lt a ha
  generalize a % 2 ^ 31 = A at e hA h0 h1
  generalize a / 2 ^ 31 = s at e hs
  subst e
  obtain ⟨p, hlt⟩ := cbrtLane_pack s A hs hA
  obtain ⟨fY, acc⟩ := refine2Lane_accurate A h0 (by omega)
  rw [← cbrtLane_finite A h0 h1] at fY acc
  rw [b32_infBits] at fY
  have hxpos : 0 < binary32.val A := by
    have := (val32_range A h0 (by omega)).1
    exact lt_of_lt_of_le (by positivity) this
  rw [p, pack32_mod s _ hlt, value_pack s _ hs hlt, value_pack s A hs hA]
  refine ⟨fY, ?_⟩
  generalize binary32.val (cbrtLane A) = y at acc
  generalize binary32.val A = x at acc hxpos
  by_cases h : s = 1
  · rw [if_pos h, if_pos h, abs_neg, abs_of_pos hxpos]
    have e : (-y) ^ 3 - -x = -(y ^ 3 - x) := by ring
    rw [e, abs_neg]
    linarith
  · rw [if_neg h, if_neg h, abs_of_pos hxpos]
    linarith

set_option maxRecDepth 100000 in
set_option exponentiation.threshold 2000 in
/-- The driver's input `0.01234f, 1.12f, 3, -0.0f`, evaluated in the model: the
output patterns are those of `0.22984903`, `1.0384989`, `1.4422495` and `-0.0`. -/
theorem cbrt_ps_driver :
    cbrt_ps false ⟨1011494326, 1066359849, 1077936128, 0x80000000⟩
      = ⟨1047306635, 1065676168, 1069063074, 0x80000000⟩ := by
  decide

theorem value_of_pos (b : Nat) (hs : binary32.sign b = 0) :
    binary32.value b = (binary32.mag b : ℚ) / 2 ^ 149 := by
  unfold Fmt.value Fmt.toUnits
  rw [hs, if_neg (by norm_num), b32_unitExp]
  push_cast
  rfl

theorem value_driver_out :
    binary32.value 1047306635 = 15507851 / 67108864 ∧
    binary32.value 1065676168 = 8711560 / 8388608 ∧
    binary32.value 1069063074 = 12098466 / 8388608 := by
  have h0 : binary32.mag 1047306635 = 15507851 * 2 ^ 123 := by decide
  have h1 : binary32.mag 1065676168 = 8711560 * 2 ^ 126 := by decide
  have h2 : binary32.mag 1069063074 = 12098466 * 2 ^ 126 := by decide
  rw [value_of_pos _ (by decide), value_of_pos _ (by decide), value_of_pos _ (by decide),
    h0, h1, h2]
  norm_num

/-! ## Lanes of the blends and of the seed -/

theorem abs_lane (x : M128) (k : Fin 4) :
    (mm_andnot_ps (mm_set1_ps 0x80000000) x).lane k = x.lane k % 2 ^ 31 := by
  rw [mm_andnot_ps, lane_zip]
  have e : (mm_set1_ps 0x80000000).lane k = 0x80000000 := by fin_cases k <;> rfl
  rw [e, andnot_sign]

theorem blendv_ps_lane (a b m : M128) (k : Fin 4) :
    (mm_blendv_ps a b m).lane k = if m.lane k / 2 ^ 31 % 2 = 1 then b.lane k else a.lane k := by
  rw [mm_blendv_ps, lane_zip3]

theorem sign_lane (x : M128) (k : Fin 4) :
    (mm_and_ps x (mm_set1_ps 0x80000000)).lane k = x.lane k / 2 ^ 31 % 2 * 2 ^ 31 := by
  rw [mm_and_ps, lane_zip]
  have e : (mm_set1_ps 0x80000000).lane k = 0x80000000 := by fin_cases k <;> rfl
  rw [e, and_sign]

theorem blendv_epi8_lane (a b m : M128) (k : Fin 4) :
    (mm_blendv_epi8 a b m).lane k = blendv8 (a.lane k) (b.lane k) (m.lane k) := by
  rw [mm_blendv_epi8, lane_zip3]
  rfl

theorem set1_epi32_lane (c : Int) (k : Fin 4) : (mm_set1_epi32 c).lane k = ofInt32 c := by
  fin_cases k <;> rfl

theorem cmplt_lane (a b : M128) (k : Fin 4) :
    (mm_cmplt_epi32 a b).lane k
      = if toInt32 (a.lane k) < toInt32 (b.lane k) then 0xFFFFFFFF else 0 := by
  rw [mm_cmplt_epi32, lane_zip]

theorem add_epi32_lane (a b : M128) (k : Fin 4) :
    (mm_add_epi32 a b).lane k = (a.lane k + b.lane k) % 2 ^ 32 := by
  rw [mm_add_epi32, lane_zip]

theorem or_ps_lane (a b : M128) (k : Fin 4) :
    (mm_or_ps a b).lane k = a.lane k ||| b.lane k := by
  rw [mm_or_ps, lane_zip]

theorem div3_lane (v : M128) (k : Fin 4) :
    (details.div3_epi32 v).lane k = div3Lane (v.lane k) := by
  rw [div3_epi32_lanes, lane_map]

theorem isSubnorm_lane (x : M128) (k : Fin 4) :
    (mm_cmplt_epi32 (mm_castps_si128 (mm_andnot_ps (mm_set1_ps 0x80000000) x))
        (mm_set1_epi32 0x00800000)).lane k
      = if x.lane k % 2 ^ 31 < 0x00800000 then 0xFFFFFFFF else 0 := by
  have hs : toInt32 (ofInt32 0x00800000) = 0x00800000 := by decide
  have hx := toInt32_of_lt (x.lane k % 2 ^ 31) (Nat.mod_lt _ (by norm_num))
  rw [cmplt_lane, mm_castps_si128, abs_lane, set1_epi32_lane, hs, hx]
  by_cases hc : x.lane k % 2 ^ 31 < 0x00800000
  · rw [if_pos hc, if_pos (by omega)]
  · rw [if_neg hc, if_neg (by omega)]

/-- The quotient and the offset of one lane, for an arbitrary rescaled
pattern `T` below `2 ^ 31`. -/
theorem seed_sum_lane (x T : M128) (k : Fin 4) (hT : T.lane k ≤ 0x7FFFFFFF) :
    (details.div3_epi32 (mm_blendv_epi8
        (mm_castps_si128 (mm_andnot_ps (mm_set1_ps 0x80000000) x)) (mm_castps_si128 T)
        (mm_cmplt_epi32 (mm_castps_si128 (mm_andnot_ps (mm_set1_ps 0x80000000) x))
          (mm_set1_epi32 0x00800000)))).lane k
      = (if x.lane k % 2 ^ 31 < 0x00800000 then T.lane k / 3 else x.lane k % 2 ^ 31 / 3) ∧
    (mm_blendv_epi8 (mm_set1_epi32 709958130) (mm_set1_epi32 642849266)
        (mm_cmplt_epi32 (mm_castps_si128 (mm_andnot_ps (mm_set1_ps 0x80000000) x))
          (mm_set1_epi32 0x00800000))).lane k
      = (if x.lane k % 2 ^ 31 < 0x00800000 then 642849266 else 709958130) := by
  have hB1 : ofInt32 709958130 = 709958130 := by decide
  have hB2 : ofInt32 642849266 = 642849266 := by decide
  have ha : x.lane k % 2 ^ 31 < 2 ^ 31 := Nat.mod_lt _ (by norm_num)
  rw [div3_lane, blendv_epi8_lane, blendv_epi8_lane, isSubnorm_lane, set1_epi32_lane,
    set1_epi32_lane, hB1, hB2, mm_castps_si128, mm_castps_si128, abs_lane]
  by_cases hc : x.lane k % 2 ^ 31 < 0x00800000
  · rw [if_pos hc, if_pos hc, if_pos hc, blendv8_ones, blendv8_ones,
      Nat.mod_eq_of_lt (by omega : T.lane k < 2 ^ 32), div3Lane_of_lt _ (by omega)]
    exact ⟨rfl, rfl⟩
  · rw [if_neg hc, if_neg hc, if_neg hc, blendv8_zero, blendv8_zero,
      Nat.mod_eq_of_lt (by omega : x.lane k % 2 ^ 31 < 2 ^ 32), div3Lane_of_lt _ ha]
    exact ⟨rfl, rfl⟩

theorem seedMag_range (a : Nat) : 642849266 ≤ seedMag a ∧ seedMag a ≤ 0x54FBC49C := by
  unfold seedMag
  have := seedLane_t_lt a
  have : a % 2 ^ 31 < 2 ^ 31 := Nat.mod_lt _ (by norm_num)
  split <;> omega

theorem expo32_range (r : Nat) (h1 : 0x00800000 ≤ r % 2 ^ 31) (h2 : r % 2 ^ 31 ≤ 0x7F7FFFFF) :
    1 ≤ binary32.expo r ∧ binary32.expo r ≤ 254 ∧ ¬ binary32.isNaN r ∧ ¬ binary32.isInf r ∧
      ¬ binary32.isZero r := by
  have e : binary32.expo r = r / 2 ^ 23 % 2 ^ 8 := rfl
  have e2 : binary32.absBits r = r % 2 ^ 31 := rfl
  have hx : binary32.expMax = 255 := b32_expMax
  unfold Fmt.isNaN Fmt.isInf Fmt.isZero
  rw [e, e2, hx]
  omega

/-! ## The rescaled value of a subnormal lane -/

theorem rne_exact (q D : Nat) (hD : 0 < D) : rne (q * D) D = q := by
  unfold rne
  simp only [Nat.mul_div_cancel _ hD, Nat.mul_mod_left]
  rw [if_pos (by omega)]

theorem mag_subnormal (X : Nat) (hX : X < 2 ^ 23) : binary32.mag X = X := by
  unfold Fmt.mag
  have he : binary32.expo X = 0 := by
    rw [expo_eq_div binary32 X (by rw [b32_signBit]; omega), b32_mbits]
    exact Nat.div_eq_of_lt hX
  rw [if_pos he]
  unfold Fmt.frac
  rw [b32_mbits]
  exact Nat.mod_eq_of_lt hX

set_option exponentiation.threshold 512 in
/-- The product of a subnormal magnitude with `2 ^ 24` is exact. -/
theorem rescale_exact (X : Nat) (hX : X < 2 ^ 23) :
    fmul binary32 X 0x4b800000 < 2 ^ 31 ∧
    binary32.mag (fmul binary32 X 0x4b800000) = X * 2 ^ 24 := by
  have hc : binary32.mag 0x4b800000 = 2 ^ 173 := by decide
  have hf := fmul_finite binary32 X 0x4b800000 255 255 (by rw [b32_mbits]; omega)
    (by rw [b32_mbits]; norm_num) (by rw [b32_expMax]) (by rw [b32_expMax])
  rw [mag_subnormal X hX, hc, b32_unitExp] at hf
  have hd : 0 < 2 ^ 149 := Nat.two_pow_pos 149
  have hn : X * 2 ^ 173 = X * 2 ^ 24 * 2 ^ 149 := by
    rw [Nat.mul_assoc, ← Nat.pow_add]
  have hle := roundMag_le binary32 (X * 2 ^ 173) (2 ^ 149) 23 hd (by
    rw [hn, b32_mbits, Nat.mul_comm]
    apply Nat.mul_lt_mul_of_pos_left _ hd
    have : (2 : Nat) ^ (23 + 1 + 23) = 2 ^ 23 * 2 ^ 24 := by rw [← Nat.pow_add]
    rw [this]
    exact Nat.mul_lt_mul_of_pos_right hX (Nat.two_pow_pos 24))
  rw [b32_mbits] at hle
  have hfin : roundMag binary32 (X * 2 ^ 173) (2 ^ 149) < binary32.infBits := by
    rw [b32_infBits]
    omega
  have hm := roundMag_mag binary32 (X * 2 ^ 173) (2 ^ 149) hd hfin
  have hq : X * 2 ^ 173 / 2 ^ 149 = X * 2 ^ 24 := by
    rw [hn, Nat.mul_div_cancel _ hd]
  rw [hq] at hm
  have hk := shiftOf_le_of_lt binary32.mbits (2 ^ binary32.ebits) (X * 2 ^ 24) 23 (by
    rw [b32_mbits]
    have : (2 : Nat) ^ (23 + 1 + 23) = 2 ^ 23 * 2 ^ 24 := by rw [← Nat.pow_add]
    rw [this]
    exact Nat.mul_lt_mul_of_pos_right hX (Nat.two_pow_pos 24))
  generalize shiftOf binary32.mbits (2 ^ binary32.ebits) (X * 2 ^ 24) = j at hm hk
  have h24 : (2 : Nat) ^ 24 = 2 ^ (24 - j) * 2 ^ j := by
    rw [← Nat.pow_add]
    congr 1
    omega
  have hsplit : X * 2 ^ 173 = X * 2 ^ (24 - j) * (2 ^ 149 * 2 ^ j) := by
    rw [hn, h24]
    ring
  have hrne : rne (X * 2 ^ 173) (2 ^ 149 * 2 ^ j) = X * 2 ^ (24 - j) := by
    rw [hsplit]
    exact rne_exact _ _ (Nat.mul_pos hd (Nat.two_pow_pos j))
  rw [hrne] at hm
  rw [hf]
  refine ⟨by omega, ?_⟩
  rw [hm, h24]
  ring

/-- The magnitude bits of the rescaled value depend only on the magnitude bits
of the lane, for lanes below the normal range. -/
theorem fmul_abs (x : Nat) (h : x % 2 ^ 31 < 2 ^ 23) :
    fmul binary32 x 0x4b800000 % 2 ^ 31 = fmul binary32 (x % 2 ^ 31) 0x4b800000 := by
  have hx : x = binary32.pack (x / 2 ^ 31) (x % 2 ^ 31) := by
    unfold Fmt.pack
    rw [b32_signBit]
    omega
  have hf := fmul_finite binary32 (x % 2 ^ 31) 0x4b800000 255 255 (by rw [b32_mbits]; omega)
    (by rw [b32_mbits]; norm_num) (by rw [b32_expMax]) (by rw [b32_expMax])
  obtain ⟨nA, iA⟩ := finite_of_lt binary32 (x % 2 ^ 31) 255 (by rw [b32_mbits]; omega)
    (by rw [b32_expMax])
  have nC : ¬ binary32.isNaN 0x4b800000 := by decide
  have iC : ¬ binary32.isInf 0x4b800000 := by decide
  have hle := roundMag_le_inf binary32
    (binary32.mag (x % 2 ^ 31) * binary32.mag 0x4b800000) (2 ^ binary32.unitExp)
  rw [b32_infBits] at hle
  rw [hf]
  generalize x % 2 ^ 31 = A at *
  generalize x / 2 ^ 31 = s at *
  subst hx
  unfold fmul
  simp only [isNaN_pack, isInf_pack, mag_pack, nA, nC, iA, iC, false_and, and_false, or_self,
    if_false]
  rw [b32_signBit, Nat.add_comm, Nat.add_mul_mod_self_right]
  exact Nat.mod_eq_of_lt (by omega)

/-! ## The refinement over exact arithmetic -/

/-- Every lane of `cbrtRefine`, in both variants, runs the operation sequence
`cbrtRefineWith` on the double-precision operations. -/
theorem refineLane_eq_with (a r : Nat) :
    refineLane a r
      = details.cbrtRefineWith (fmul binary64) (fadd binary64) (fdiv binary64) a r := rfl

theorem cbrtRefineExact_eq {K : Type} [Field K] (a r : K) :
    cbrtRefineExact a r = (r + (a * a * a + r)) * a / (a * a * a + (a * a * a + r)) := rfl

theorem cbrtRefineDivExact_eq {K : Type} [Field K] (a r : K) :
    cbrtRefineDivExact a r = a * a * a + (a * a * a + r) := rfl

theorem cbrtRefineExact_div {K : Type} [Field K] (a r : K) :
    cbrtRefineExact a r = (r + (a * a * a + r)) * a / cbrtRefineDivExact a r := rfl

/-- The error of one exact Halley step, in terms of the error of its input. -/
theorem cbrtRefineExact_sub {K : Type} [LinearOrderedField K] (a c : K)
    (h : 2 * a ^ 3 + c ^ 3 ≠ 0) :
    cbrtRefineExact a (c ^ 3) - c = (a - c) ^ 3 * (a + c) / (2 * a ^ 3 + c ^ 3) := by
  rw [cbrtRefineExact_eq]
  have h2 : a * a * a + (a * a * a + c ^ 3) ≠ 0 := by
    have e : a * a * a + (a * a * a + c ^ 3) = 2 * a ^ 3 + c ^ 3 := by ring
    rw [e]
    exact h
  field_simp
  ring

theorem same_sign_trans {K : Type} [LinearOrderedField K] (x y z : K) (h1 : 0 < x * y)
    (h2 : 0 < y * z) : 0 < x * z := by
  have hy : y ≠ 0 := by
    rintro rfl
    simp at h1
  have hyy : 0 < y * y := mul_self_pos.mpr hy
  have h3 : 0 < x * z * (y * y) := by
    have := mul_pos h1 h2
    have e : x * y * (y * z) = x * z * (y * y) := by ring
    rw [e] at this
    exact this
  exact (mul_pos_iff_of_pos_right hyy).mp h3

/-- For a non-zero `a` and a `v` that is zero or of the sign of `a`, the divisor
of the update has the sign of `a` and so has the update itself. -/
theorem divisor_sign {K : Type} [LinearOrderedField K] (a v : K) (ha : a ≠ 0)
    (hv : v = 0 ∨ 0 < a * v) :
    0 < a * cbrtRefineDivExact a v ∧ 0 < a * cbrtRefineExact a v := by
  have haa : 0 < a * a := mul_self_pos.mpr ha
  have h4 : 0 < a * a * (a * a) := mul_pos haa haa
  have hav : 0 ≤ a * v := by
    rcases hv with h | h
    · rw [h, mul_zero]
    · exact h.le
  have hd : 0 < a * cbrtRefineDivExact a v := by
    rw [cbrtRefineDivExact_eq]
    have e : a * (a * a * a + (a * a * a + v)) = 2 * (a * a * (a * a)) + a * v := by ring
    rw [e]
    linarith
  refine ⟨hd, ?_⟩
  have hdn : cbrtRefineDivExact a v ≠ 0 := by
    intro h0
    rw [h0, mul_zero] at hd
    exact lt_irrefl _ hd
  have hdd : 0 < cbrtRefineDivExact a v * cbrtRefineDivExact a v := mul_self_pos.mpr hdn
  have hn : 0 < a * (v + (a * a * a + v)) := by
    have e : a * (v + (a * a * a + v)) = a * a * (a * a) + 2 * (a * v) := by ring
    rw [e]
    linarith
  rw [cbrtRefineExact_div]
  have e : a * ((v + (a * a * a + v)) * a / cbrtRefineDivExact a v)
      = a * (v + (a * a * a + v)) * (a * cbrtRefineDivExact a v)
        / (cbrtRefineDivExact a v * cbrtRefineDivExact a v) := by
    field_simp
    ring
  rw [e]
  exact div_pos (mul_pos hn hd) hdd

theorem ne_zero_of_mul_pos_right {K : Type} [LinearOrderedField K] (x y : K) (h : 0 < x * y) :
    y ≠ 0 := by
  rintro rfl
  simp at h

theorem seed_sign_lane (x : M128) (k : Fin 4) :
    binary32.sign ((cbrt_ps_seed x).r.lane k) = binary32.sign (x.lane k) := by
  have hm := seedMag_range (x.lane k)
  have e : ∀ b : Nat, binary32.sign b = b / 2 ^ 31 % 2 := fun b => rfl
  rw [e, e, seed_r_lane, seedLane_r]
  omega

/-- The seed of a lane is non-zero and the input of that lane is zero or has
the sign of the seed, the patterns read as rationals. -/
theorem seed_value_sign (x : M128) (k : Fin 4) (hx : x.lane k < 2 ^ 32) :
    binary32.value ((cbrt_ps_seed x).r.lane k) ≠ 0 ∧
    (binary32.value (x.lane k) = 0 ∨
      0 < binary32.value ((cbrt_ps_seed x).r.lane k) * binary32.value (x.lane k)) := by
  rw [seed_r_lane]
  generalize x.lane k = b at hx
  obtain ⟨e, hs, hA⟩ := pack32_of_lt b hx
  generalize b % 2 ^ 31 = A at e hA
  generalize b / 2 ^ 31 = s at e hs
  subst e
  have hm := seedMag_range A
  have hS : seedMag A < 2 ^ 31 := by omega
  rw [seedLane_r_pack s A hs hA, value_pack s _ hs hS, value_pack s A hs hA]
  have hp : 0 < binary32.val (seedMag A) :=
    (val_pos_iff binary32 _).mpr (mag_pos binary32 _ (by rw [b32_signBit]; exact hS) (by omega))
  have hq : 0 ≤ binary32.val A := by
    unfold Fmt.val
    positivity
  by_cases h1 : s = 1
  · rw [if_pos h1, if_pos h1]
    refine ⟨by linarith, ?_⟩
    rcases hq.lt_or_eq with h | h
    · right
      have := mul_pos hp h
      linarith
    · left
      rw [← h, neg_zero]
  · rw [if_neg h1, if_neg h1]
    refine ⟨by linarith, ?_⟩
    rcases hq.lt_or_eq with h | h
    · exact Or.inr (mul_pos hp h)
    · exact Or.inl h.symm

/-- One exact Halley step: an input within `ε c` of `c` gives an output within
`δ c`, where `ε³ (2 + ε) ≤ δ (2 (1 - ε)³ + 1)`. -/
theorem halley_step {K : Type} [LinearOrderedField K] (a c ε δ : K) (hc : 0 < c)
    (hε0 : 0 ≤ ε) (hε1 : ε < 1) (h : |a - c| ≤ ε * c)
    (hδ : ε ^ 3 * (2 + ε) ≤ δ * (2 * (1 - ε) ^ 3 + 1)) :
    |cbrtRefineExact a (c ^ 3) - c| ≤ δ * c := by
  obtain ⟨h1, h2⟩ := abs_le.mp h
  have hlo : (1 - ε) * c ≤ a := by linarith
  have hlo0 : 0 < (1 - ε) * c := mul_pos (by linarith) hc
  have ha : 0 < a := lt_of_lt_of_le hlo0 hlo
  have hc3 : 0 < c ^ 3 := by positivity
  have ha3 : ((1 - ε) * c) ^ 3 ≤ a ^ 3 := pow_le_pow_left₀ hlo0.le hlo 3
  have hD : 0 < 2 * a ^ 3 + c ^ 3 := by positivity
  have hden : (2 * (1 - ε) ^ 3 + 1) * c ^ 3 ≤ 2 * a ^ 3 + c ^ 3 := by
    have e : (2 * (1 - ε) ^ 3 + 1) * c ^ 3 = 2 * ((1 - ε) * c) ^ 3 + c ^ 3 := by ring
    rw [e]
    linarith
  have hnum1 : |a - c| ^ 3 ≤ (ε * c) ^ 3 := pow_le_pow_left₀ (abs_nonneg _) h 3
  have hnum2 : a + c ≤ (2 + ε) * c := by linarith
  have hδ0 : 0 ≤ δ := by
    have h3 : 0 < 2 * (1 - ε) ^ 3 + 1 := by
      have : 0 < 1 - ε := by linarith
      positivity
    by_contra hneg
    have : δ * (2 * (1 - ε) ^ 3 + 1) < 0 := mul_neg_of_neg_of_pos (by linarith) h3
    have : 0 ≤ ε ^ 3 * (2 + ε) := by positivity
    linarith
  rw [cbrtRefineExact_sub a c hD.ne', abs_div, abs_mul, abs_pow, abs_of_pos (by positivity : 0 < a + c),
    abs_of_pos hD, div_le_iff₀ hD]
  calc |a - c| ^ 3 * (a + c) ≤ (ε * c) ^ 3 * ((2 + ε) * c) :=
        mul_le_mul hnum1 hnum2 (by positivity) (by positivity)
    _ = ε ^ 3 * (2 + ε) * c ^ 4 := by ring
    _ ≤ δ * (2 * (1 - ε) ^ 3 + 1) * c ^ 4 := mul_le_mul_of_nonneg_right hδ (by positivity)
    _ = δ * c * ((2 * (1 - ε) ^ 3 + 1) * c ^ 3) := by ring
    _ ≤ δ * c * (2 * a ^ 3 + c ^ 3) := mul_le_mul_of_nonneg_left hden (by positivity)

/-- Lowering the offset by `8 * 2 ^ 23` divides the value of the seed by
`2 ^ 8`, the cube root of the rescaling factor `2 ^ 24`. -/
theorem offset_shift (T : Nat) (hT : T ≤ 0x7FFFFFFF) :
    binary32.val (T / 3 + 709958130) = 2 ^ 8 * binary32.val (T / 3 + 642849266) := by
  have e : T / 3 + 709958130 = (T / 3 + 642849266) + 8 * 2 ^ 23 := by omega
  have hs := mag_shift binary32 (T / 3 + 642849266) 8 (by rw [b32_mbits]; omega)
    (by rw [b32_signBit, b32_mbits]; omega)
  rw [b32_mbits] at hs
  rw [val32_eq, val32_eq, e, hs]
  push_cast
  ring

theorem seedMag_lane (x : M128) (k : Fin 4) :
    (cbrt_ps_seed x).r.lane k % 2 ^ 31 = seedMag (x.lane k) := by
  have hm := seedMag_range (x.lane k)
  rw [seed_r_lane, seedLane_r, Nat.mul_comm, Nat.mul_add_mod]
  exact Nat.mod_eq_of_lt (by omega)

/-! ## The seed to five bits -/

/-- On an interval of patterns the seed bound follows from its two end points,
by monotonicity of the magnitude in the pattern. -/
theorem seed_piece_pq (p q lo hi a : Nat) (h1 : lo ≤ a) (h2 : a ≤ hi) (hhi : hi < 2 ^ 25)
    (c1 : p * binary32.mag hi * (2 ^ 149 * 2 ^ 149)
      ≤ q * binary32.mag (lo / 3 + 709958130) ^ 3)
    (c2 : p * binary32.mag (hi / 3 + 709958130) ^ 3
      ≤ q * binary32.mag lo * (2 ^ 149 * 2 ^ 149)) :
    SeedWithin p q a := by
  have m1 := mag_mono binary32 lo a (by rw [b32_signBit]; omega) h1
  have m2 := mag_mono binary32 a hi (by rw [b32_signBit]; omega) h2
  have m3 := mag_mono binary32 (lo / 3 + 709958130) (a / 3 + 709958130)
    (by rw [b32_signBit]; omega) (by omega)
  have m4 := mag_mono binary32 (a / 3 + 709958130) (hi / 3 + 709958130)
    (by rw [b32_signBit]; omega) (by omega)
  have p3 : binary32.mag (lo / 3 + 709958130) ^ 3 ≤ binary32.mag (a / 3 + 709958130) ^ 3 :=
    Nat.pow_le_pow_left m3 3
  have p4 : binary32.mag (a / 3 + 709958130) ^ 3 ≤ binary32.mag (hi / 3 + 709958130) ^ 3 :=
    Nat.pow_le_pow_left m4 3
  constructor
  · calc p * binary32.mag a * (2 ^ 149 * 2 ^ 149)
        ≤ p * binary32.mag hi * (2 ^ 149 * 2 ^ 149) :=
          Nat.mul_le_mul_right _ (Nat.mul_le_mul_left _ m2)
      _ ≤ q * binary32.mag (lo / 3 + 709958130) ^ 3 := c1
      _ ≤ q * binary32.mag (a / 3 + 709958130) ^ 3 := Nat.mul_le_mul_left _ p3
  · calc p * binary32.mag (a / 3 + 709958130) ^ 3
        ≤ p * binary32.mag (hi / 3 + 709958130) ^ 3 := Nat.mul_le_mul_left _ p4
      _ ≤ q * binary32.mag lo * (2 ^ 149 * 2 ^ 149) := c2
      _ ≤ q * binary32.mag a * (2 ^ 149 * 2 ^ 149) :=
          Nat.mul_le_mul_right _ (Nat.mul_le_mul_left _ m1)

/-- Raising the exponent field of the input by three raises that of the seed
by one, which multiplies the input by 8 and the cube of the seed by 8: the seed
bound has period three in the exponent. -/
theorem seedWithin_shift (p q a : Nat) (h1 : 2 ^ 23 ≤ a) (h2 : a < 255 * 2 ^ 23)
    (base : ∀ a0 : Nat, 2 ^ 23 ≤ a0 → a0 < 2 ^ 25 → SeedWithin p q a0) :
    SeedWithin p q a := by
  obtain ⟨j, a0, ha, hlo, hhi⟩ : ∃ j a0 : Nat, a = a0 + 3 * j * 2 ^ 23 ∧ 2 ^ 23 ≤ a0 ∧ a0 < 2 ^ 25 :=
    ⟨(a / 2 ^ 23 - 1) / 3, a - 3 * ((a / 2 ^ 23 - 1) / 3) * 2 ^ 23, by omega, by omega, by omega⟩
  have hs : a / 3 + 709958130 = (a0 / 3 + 709958130) + j * 2 ^ 23 := by omega
  have m1 : binary32.mag a = binary32.mag a0 * 2 ^ (3 * j) := by
    rw [ha]
    exact mag_shift binary32 a0 (3 * j) (by rw [b32_mbits]; exact hlo)
      (by rw [b32_signBit, b32_mbits]; omega)
  have m2 : binary32.mag (a / 3 + 709958130) = binary32.mag (a0 / 3 + 709958130) * 2 ^ j := by
    rw [hs]
    exact mag_shift binary32 _ j (by rw [b32_mbits]; omega)
      (by rw [b32_signBit, b32_mbits]; omega)
  obtain ⟨c1, c2⟩ := base a0 hlo hhi
  unfold SeedWithin
  rw [m1, m2]
  generalize binary32.mag a0 = M at c1 c2
  generalize binary32.mag (a0 / 3 + 709958130) = S at c1 c2
  have e : (S * 2 ^ j) ^ 3 = S ^ 3 * 2 ^ (3 * j) := by
    rw [Nat.mul_pow, ← Nat.pow_mul, Nat.mul_comm j 3]
  rw [e]
  generalize (2 : Nat) ^ (3 * j) = P
  constructor
  · calc p * (M * P) * (2 ^ 149 * 2 ^ 149) = p * M * (2 ^ 149 * 2 ^ 149) * P := by ring
      _ ≤ q * S ^ 3 * P := Nat.mul_le_mul_right _ c1
      _ = q * (S ^ 3 * P) := by ring
  · calc p * (S ^ 3 * P) = p * S ^ 3 * P := by ring
      _ ≤ q * M * (2 ^ 149 * 2 ^ 149) * P := Nat.mul_le_mul_right _ c2
      _ = q * (M * P) * (2 ^ 149 * 2 ^ 149) := by ring

/-- The seed bound read on rational values. -/
theorem seedWithin_val (p q a : Nat) (hq : 0 < q) (h : SeedWithin p q a) :
    (p : ℚ) / q * binary32.val a ≤ binary32.val (a / 3 + 709958130) ^ 3 ∧
    (p : ℚ) / q * binary32.val (a / 3 + 709958130) ^ 3 ≤ binary32.val a := by
  obtain ⟨c1, c2⟩ := h
  rw [val32_eq, val32_eq]
  generalize binary32.mag a = M at c1 c2
  generalize binary32.mag (a / 3 + 709958130) = S at c1 c2
  have q1 : (p : ℚ) * M * (2 ^ 149 * 2 ^ 149) ≤ q * (S : ℚ) ^ 3 := by exact_mod_cast c1
  have q2 : (p : ℚ) * (S : ℚ) ^ 3 ≤ q * M * (2 ^ 149 * 2 ^ 149) := by exact_mod_cast c2
  have hP : (0 : ℚ) < 2 ^ 149 := by positivity
  have hq' : (0 : ℚ) < q := by exact_mod_cast hq
  generalize (2 : ℚ) ^ 149 = P at *
  have e : ((S : ℚ) / P) ^ 3 = (S : ℚ) ^ 3 / (P * P * P) := by
    rw [div_pow]
    ring
  rw [e]
  constructor
  · rw [le_div_iff₀ (by positivity), div_mul_eq_mul_div, div_mul_eq_mul_div,
      div_le_iff₀ hq']
    have e1 : (p : ℚ) * (M / P) * (P * P * P) = p * M * (P * P) := by
      field_simp
      ring
    rw [e1]
    linarith
  · rw [div_mul_eq_mul_div, div_le_iff₀ hq']
    have hPPP : (0 : ℚ) < P * P * P := by positivity
    have e1 : (p : ℚ) * ((S : ℚ) ^ 3 / (P * P * P)) = p * (S : ℚ) ^ 3 / (P * P * P) := by ring
    have e2 : (M : ℚ) / P * q = q * M * (P * P) / (P * P * P) := by
      field_simp
      ring
    rw [e1, e2]
    exact div_le_div_of_nonneg_right q2 hPPP.le

theorem seed_fine_0 (a : Nat) (h1 : 8388608 ≤ a) (h2 : a ≤ 9243112) :
    SeedWithin 29791 32768 a := by
  by_cases b0 : a ≤ 8776805
  · exact seed_piece_pq 29791 32768 8388608 8776805 a (by omega) b0 (by norm_num)
      (by decide) (by decide)
  by_cases b1 : a ≤ 8984925
  · exact seed_piece_pq 29791 32768 8776806 8984925 a (by omega) b1 (by norm_num)
      (by decide) (by decide)
  by_cases b2 : a ≤ 9097843
  · exact seed_piece_pq 29791 32768 8984926 9097843 a (by omega) b2 (by norm_num)
      (by decide) (by decide)
  by_cases b3 : a ≤ 9159502
  · exact seed_piece_pq 29791 32768 9097844 9159502 a (by omega) b3 (by norm_num)
      (by decide) (by decide)
  by_cases b4 : a ≤ 9193288
  · exact seed_piece_pq 29791 32768 9159503 9193288 a (by omega) b4 (by norm_num)
      (by decide) (by decide)
  by_cases b5 : a ≤ 9211836
  · exact seed_piece_pq 29791 32768 9193289 9211836 a (by omega) b5 (by norm_num)
      (by decide) (by decide)
  by_cases b6 : a ≤ 9222030
  · exact seed_piece_pq 29791 32768 9211837 9222030 a (by omega) b6 (by norm_num)
      (by decide) (by decide)
  by_cases b7 : a ≤ 9228395
  · exact seed_piece_pq 29791 32768 9222031 9228395 a (by omega) b7 (by norm_num)
      (by decide) (by decide)
  by_cases b8 : a ≤ 9235400
  · exact seed_piece_pq 29791 32768 9228396 9235400 a (by omega) b8 (by norm_num)
      (by decide) (by decide)
  · exact seed_piece_pq 29791 32768 9235401 9243112 a (by omega) (by omega) (by norm_num)
      (by decide) (by decide)

theorem seed_fine_1 (a : Nat) (h1 : 9243113 ≤ a) (h2 : a ≤ 9381777) :
    SeedWithin 29791 32768 a := by
  by_cases b0 : a ≤ 9251605
  · exact seed_piece_pq 29791 32768 9243113 9251605 a (by omega) b0 (by norm_num)
      (by decide) (by decide)
  by_cases b1 : a ≤ 9260966
  · exact seed_piece_pq 29791 32768 9251606 9260966 a (by omega) b1 (by norm_num)
      (by decide) (by decide)
  by_cases b2 : a ≤ 9271294
  · exact seed_piece_pq 29791 32768 9260967 9271294 a (by omega) b2 (by norm_num)
      (by decide) (by decide)
  by_cases b3 : a ≤ 9282693
  · exact seed_piece_pq 29791 32768 9271295 9282693 a (by omega) b3 (by norm_num)
      (by decide) (by decide)
  by_cases b4 : a ≤ 9295288
  · exact seed_piece_pq 29791 32768 9282694 9295288 a (by omega) b4 (by norm_num)
      (by decide) (by decide)
  by_cases b5 : a ≤ 9309216
  · exact seed_piece_pq 29791 32768 9295289 9309216 a (by omega) b5 (by norm_num)
      (by decide) (by decide)
  by_cases b6 : a ≤ 9324637
  · exact seed_piece_pq 29791 32768 9309217 9324637 a (by omega) b6 (by norm_num)
      (by decide) (by decide)
  by_cases b7 : a ≤ 9341728
  · exact seed_piece_pq 29791 32768 9324638 9341728 a (by omega) b7 (by norm_num)
      (by decide) (by decide)
  by_cases b8 : a ≤ 9360695
  · exact seed_piece_pq 29791 32768 9341729 9360695 a (by omega) b8 (by norm_num)
      (by decide) (by decide)
  · exact seed_piece_pq 29791 32768 9360696 9381777 a (by omega) (by omega) (by norm_num)
      (by decide) (by decide)

theorem seed_fine_2 (a : Nat) (h1 : 9381778 ≤ a) (h2 : a ≤ 9799935) :
    SeedWithin 29791 32768 a := by
  by_cases b0 : a ≤ 9405242
  · exact seed_piece_pq 29791 32768 9381778 9405242 a (by omega) b0 (by norm_num)
      (by decide) (by decide)
  by_cases b1 : a ≤ 9431409
  · exact seed_piece_pq 29791 32768 9405243 9431409 a (by omega) b1 (by norm_num)
      (by decide) (by decide)
  by_cases b2 : a ≤ 9460644
  · exact seed_piece_pq 29791 32768 9431410 9460644 a (by omega) b2 (by norm_num)
      (by decide) (by decide)
  by_cases b3 : a ≤ 9493379
  · exact seed_piece_pq 29791 32768 9460645 9493379 a (by omega) b3 (by norm_num)
      (by decide) (by decide)
  by_cases b4 : a ≤ 9530124
  · exact seed_piece_pq 29791 32768 9493380 9530124 a (by omega) b4 (by norm_num)
      (by decide) (by decide)
  by_cases b5 : a ≤ 9571480
  · exact seed_piece_pq 29791 32768 9530125 9571480 a (by omega) b5 (by norm_num)
      (by decide) (by decide)
  by_cases b6 : a ≤ 9618169
  · exact seed_piece_pq 29791 32768 9571481 9618169 a (by omega) b6 (by norm_num)
      (by decide) (by decide)
  by_cases b7 : a ≤ 9671062
  · exact seed_piece_pq 29791 32768 9618170 9671062 a (by omega) b7 (by norm_num)
      (by decide) (by decide)
  by_cases b8 : a ≤ 9731217
  · exact seed_piece_pq 29791 32768 9671063 9731217 a (by omega) b8 (by norm_num)
      (by decide) (by decide)
  · exact seed_piece_pq 29791 32768 9731218 9799935 a (by omega) (by omega) (by norm_num)
      (by decide) (by decide)

theorem seed_fine_3 (a : Nat) (h1 : 9799936 ≤ a) (h2 : a ≤ 11728186) :
    SeedWithin 29791 32768 a := by
  by_cases b0 : a ≤ 9878829
  · exact seed_piece_pq 29791 32768 9799936 9878829 a (by omega) b0 (by norm_num)
      (by decide) (by decide)
  by_cases b1 : a ≤ 9969927
  · exact seed_piece_pq 29791 32768 9878830 9969927 a (by omega) b1 (by norm_num)
      (by decide) (by decide)
  by_cases b2 : a ≤ 10075810
  · exact seed_piece_pq 29791 32768 9969928 10075810 a (by omega) b2 (by norm_num)
      (by decide) (by decide)
  by_cases b3 : a ≤ 10199817
  · exact seed_piece_pq 29791 32768 10075811 10199817 a (by omega) b3 (by norm_num)
      (by decide) (by decide)
  by_cases b4 : a ≤ 10346340
  · exact seed_piece_pq 29791 32768 10199818 10346340 a (by omega) b4 (by norm_num)
      (by decide) (by decide)
  by_cases b5 : a ≤ 10521267
  · exact seed_piece_pq 29791 32768 10346341 10521267 a (by omega) b5 (by norm_num)
      (by decide) (by decide)
  by_cases b6 : a ≤ 10732673
  · exact seed_piece_pq 29791 32768 10521268 10732673 a (by omega) b6 (by norm_num)
      (by decide) (by decide)
  by_cases b7 : a ≤ 10991922
  · exact seed_piece_pq 29791 32768 10732674 10991922 a (by omega) b7 (by norm_num)
      (by decide) (by decide)
  by_cases b8 : a ≤ 11315496
  · exact seed_piece_pq 29791 32768 10991923 11315496 a (by omega) b8 (by norm_num)
      (by decide) (by decide)
  · exact seed_piece_pq 29791 32768 11315497 11728186 a (by omega) (by omega) (by norm_num)
      (by decide) (by decide)

theorem seed_fine_4 (a : Nat) (h1 : 11728187 ≤ a) (h2 : a ≤ 16639367) :
    SeedWithin 29791 32768 a := by
  by_cases b0 : a ≤ 12268936
  · exact seed_piece_pq 29791 32768 11728187 12268936 a (by omega) b0 (by norm_num)
      (by decide) (by decide)
  by_cases b1 : a ≤ 13002303
  · exact seed_piece_pq 29791 32768 12268937 13002303 a (by omega) b1 (by norm_num)
      (by decide) (by decide)
  by_cases b2 : a ≤ 14042791
  · exact seed_piece_pq 29791 32768 13002304 14042791 a (by omega) b2 (by norm_num)
      (by decide) (by decide)
  by_cases b3 : a ≤ 14900006
  · exact seed_piece_pq 29791 32768 14042792 14900006 a (by omega) b3 (by norm_num)
      (by decide) (by decide)
  by_cases b4 : a ≤ 15515279
  · exact seed_piece_pq 29791 32768 14900007 15515279 a (by omega) b4 (by norm_num)
      (by decide) (by decide)
  by_cases b5 : a ≤ 15942488
  · exact seed_piece_pq 29791 32768 15515280 15942488 a (by omega) b5 (by norm_num)
      (by decide) (by decide)
  by_cases b6 : a ≤ 16232516
  · exact seed_piece_pq 29791 32768 15942489 16232516 a (by omega) b6 (by norm_num)
      (by decide) (by decide)
  by_cases b7 : a ≤ 16426472
  · exact seed_piece_pq 29791 32768 16232517 16426472 a (by omega) b7 (by norm_num)
      (by decide) (by decide)
  by_cases b8 : a ≤ 16554893
  · exact seed_piece_pq 29791 32768 16426473 16554893 a (by omega) b8 (by norm_num)
      (by decide) (by decide)
  · exact seed_piece_pq 29791 32768 16554894 16639367 a (by omega) (by omega) (by norm_num)
      (by decide) (by decide)

theorem seed_fine_5 (a : Nat) (h1 : 16639368 ≤ a) (h2 : a ≤ 16852952) :
    SeedWithin 29791 32768 a := by
  by_cases b0 : a ≤ 16694696
  · exact seed_piece_pq 29791 32768 16639368 16694696 a (by omega) b0 (by norm_num)
      (by decide) (by decide)
  by_cases b1 : a ≤ 16730834
  · exact seed_piece_pq 29791 32768 16694697 16730834 a (by omega) b1 (by norm_num)
      (by decide) (by decide)
  by_cases b2 : a ≤ 16754393
  · exact seed_piece_pq 29791 32768 16730835 16754393 a (by omega) b2 (by norm_num)
      (by decide) (by decide)
  by_cases b3 : a ≤ 16769735
  · exact seed_piece_pq 29791 32768 16754394 16769735 a (by omega) b3 (by norm_num)
      (by decide) (by decide)
  by_cases b4 : a ≤ 16779719
  · exact seed_piece_pq 29791 32768 16769736 16779719 a (by omega) b4 (by norm_num)
      (by decide) (by decide)
  by_cases b5 : a ≤ 16787840
  · exact seed_piece_pq 29791 32768 16779720 16787840 a (by omega) b5 (by norm_num)
      (by decide) (by decide)
  by_cases b6 : a ≤ 16798394
  · exact seed_piece_pq 29791 32768 16787841 16798394 a (by omega) b6 (by norm_num)
      (by decide) (by decide)
  by_cases b7 : a ≤ 16812104
  · exact seed_piece_pq 29791 32768 16798395 16812104 a (by omega) b7 (by norm_num)
      (by decide) (by decide)
  by_cases b8 : a ≤ 16829894
  · exact seed_piece_pq 29791 32768 16812105 16829894 a (by omega) b8 (by norm_num)
      (by decide) (by decide)
  · exact seed_piece_pq 29791 32768 16829895 16852952 a (by omega) (by omega) (by norm_num)
      (by decide) (by decide)

theorem seed_fine_6 (a : Nat) (h1 : 16852953 ≤ a) (h2 : a ≤ 17961131) :
    SeedWithin 29791 32768 a := by
  by_cases b0 : a ≤ 16882790
  · exact seed_piece_pq 29791 32768 16852953 16882790 a (by omega) b0 (by norm_num)
      (by decide) (by decide)
  by_cases b1 : a ≤ 16921319
  · exact seed_piece_pq 29791 32768 16882791 16921319 a (by omega) b1 (by norm_num)
      (by decide) (by decide)
  by_cases b2 : a ≤ 16970936
  · exact seed_piece_pq 29791 32768 16921320 16970936 a (by omega) b2 (by norm_num)
      (by decide) (by decide)
  by_cases b3 : a ≤ 17034614
  · exact seed_piece_pq 29791 32768 16970937 17034614 a (by omega) b3 (by norm_num)
      (by decide) (by decide)
  by_cases b4 : a ≤ 17115980
  · exact seed_piece_pq 29791 32768 17034615 17115980 a (by omega) b4 (by norm_num)
      (by decide) (by decide)
  by_cases b5 : a ≤ 17219366
  · exact seed_piece_pq 29791 32768 17115981 17219366 a (by omega) b5 (by norm_num)
      (by decide) (by decide)
  by_cases b6 : a ≤ 17349812
  · exact seed_piece_pq 29791 32768 17219367 17349812 a (by omega) b6 (by norm_num)
      (by decide) (by decide)
  by_cases b7 : a ≤ 17512952
  · exact seed_piece_pq 29791 32768 17349813 17512952 a (by omega) b7 (by norm_num)
      (by decide) (by decide)
  by_cases b8 : a ≤ 17714768
  · exact seed_piece_pq 29791 32768 17512953 17714768 a (by omega) b8 (by norm_num)
      (by decide) (by decide)
  · exact seed_piece_pq 29791 32768 17714769 17961131 a (by omega) (by omega) (by norm_num)
      (by decide) (by decide)

theorem seed_fine_7 (a : Nat) (h1 : 17961132 ≤ a) (h2 : a ≤ 22626191) :
    SeedWithin 29791 32768 a := by
  by_cases b0 : a ≤ 18257099
  · exact seed_piece_pq 29791 32768 17961132 18257099 a (by omega) b0 (by norm_num)
      (by decide) (by decide)
  by_cases b1 : a ≤ 18606020
  · exact seed_piece_pq 29791 32768 18257100 18606020 a (by omega) b1 (by norm_num)
      (by decide) (by decide)
  by_cases b2 : a ≤ 19008524
  · exact seed_piece_pq 29791 32768 18606021 19008524 a (by omega) b2 (by norm_num)
      (by decide) (by decide)
  by_cases b3 : a ≤ 19461614
  · exact seed_piece_pq 29791 32768 19008525 19461614 a (by omega) b3 (by norm_num)
      (by decide) (by decide)
  by_cases b4 : a ≤ 19958150
  · exact seed_piece_pq 29791 32768 19461615 19958150 a (by omega) b4 (by norm_num)
      (by decide) (by decide)
  by_cases b5 : a ≤ 20486981
  · exact seed_piece_pq 29791 32768 19958151 20486981 a (by omega) b5 (by norm_num)
      (by decide) (by decide)
  by_cases b6 : a ≤ 21033824
  · exact seed_piece_pq 29791 32768 20486982 21033824 a (by omega) b6 (by norm_num)
      (by decide) (by decide)
  by_cases b7 : a ≤ 21582782
  · exact seed_piece_pq 29791 32768 21033825 21582782 a (by omega) b7 (by norm_num)
      (by decide) (by decide)
  by_cases b8 : a ≤ 22118165
  · exact seed_piece_pq 29791 32768 21582783 22118165 a (by omega) b8 (by norm_num)
      (by decide) (by decide)
  · exact seed_piece_pq 29791 32768 22118166 22626191 a (by omega) (by omega) (by norm_num)
      (by decide) (by decide)

theorem seed_fine_8 (a : Nat) (h1 : 22626192 ≤ a) (h2 : a ≤ 25420814) :
    SeedWithin 29791 32768 a := by
  by_cases b0 : a ≤ 23096183
  · exact seed_piece_pq 29791 32768 22626192 23096183 a (by omega) b0 (by norm_num)
      (by decide) (by decide)
  by_cases b1 : a ≤ 23521136
  · exact seed_piece_pq 29791 32768 23096184 23521136 a (by omega) b1 (by norm_num)
      (by decide) (by decide)
  by_cases b2 : a ≤ 23897639
  · exact seed_piece_pq 29791 32768 23521137 23897639 a (by omega) b2 (by norm_num)
      (by decide) (by decide)
  by_cases b3 : a ≤ 24225368
  · exact seed_piece_pq 29791 32768 23897640 24225368 a (by omega) b3 (by norm_num)
      (by decide) (by decide)
  by_cases b4 : a ≤ 24506354
  · exact seed_piece_pq 29791 32768 24225369 24506354 a (by omega) b4 (by norm_num)
      (by decide) (by decide)
  by_cases b5 : a ≤ 24744191
  · exact seed_piece_pq 29791 32768 24506355 24744191 a (by omega) b5 (by norm_num)
      (by decide) (by decide)
  by_cases b6 : a ≤ 24943355
  · exact seed_piece_pq 29791 32768 24744192 24943355 a (by omega) b6 (by norm_num)
      (by decide) (by decide)
  by_cases b7 : a ≤ 25108655
  · exact seed_piece_pq 29791 32768 24943356 25108655 a (by omega) b7 (by norm_num)
      (by decide) (by decide)
  by_cases b8 : a ≤ 25244843
  · exact seed_piece_pq 29791 32768 25108656 25244843 a (by omega) b8 (by norm_num)
      (by decide) (by decide)
  · exact seed_piece_pq 29791 32768 25244844 25420814 a (by omega) (by omega) (by norm_num)
      (by decide) (by decide)

theorem seed_fine_9 (a : Nat) (h1 : 25420815 ≤ a) (h2 : a ≤ 32945667) :
    SeedWithin 29791 32768 a := by
  by_cases b0 : a ≤ 25705403
  · exact seed_piece_pq 29791 32768 25420815 25705403 a (by omega) b0 (by norm_num)
      (by decide) (by decide)
  by_cases b1 : a ≤ 26157587
  · exact seed_piece_pq 29791 32768 25705404 26157587 a (by omega) b1 (by norm_num)
      (by decide) (by decide)
  by_cases b2 : a ≤ 26856704
  · exact seed_piece_pq 29791 32768 26157588 26856704 a (by omega) b2 (by norm_num)
      (by decide) (by decide)
  by_cases b3 : a ≤ 27894668
  · exact seed_piece_pq 29791 32768 26856705 27894668 a (by omega) b3 (by norm_num)
      (by decide) (by decide)
  by_cases b4 : a ≤ 28971835
  · exact seed_piece_pq 29791 32768 27894669 28971835 a (by omega) b4 (by norm_num)
      (by decide) (by decide)
  by_cases b5 : a ≤ 29892984
  · exact seed_piece_pq 29791 32768 28971836 29892984 a (by omega) b5 (by norm_num)
      (by decide) (by decide)
  by_cases b6 : a ≤ 30716573
  · exact seed_piece_pq 29791 32768 29892985 30716573 a (by omega) b6 (by norm_num)
      (by decide) (by decide)
  by_cases b7 : a ≤ 31481514
  · exact seed_piece_pq 29791 32768 30716574 31481514 a (by omega) b7 (by norm_num)
      (by decide) (by decide)
  by_cases b8 : a ≤ 32216590
  · exact seed_piece_pq 29791 32768 31481515 32216590 a (by omega) b8 (by norm_num)
      (by decide) (by decide)
  · exact seed_piece_pq 29791 32768 32216591 32945667 a (by omega) (by omega) (by norm_num)
      (by decide) (by decide)

theorem seed_fine_10 (a : Nat) (h1 : 32945668 ≤ a) (h2 : a ≤ 33554431) :
    SeedWithin 29791 32768 a := by
  · exact seed_piece_pq 29791 32768 32945668 33554431 a (by omega) (by omega) (by norm_num)
      (by decide) (by decide)

/-- The seed bound on the three lowest normal binades. -/
theorem seed_base_fine (a : Nat) (h1 : 2 ^ 23 ≤ a) (h2 : a < 2 ^ 25) :
    SeedWithin 29791 32768 a := by
  by_cases g0 : a ≤ 9243112
  · exact seed_fine_0 a (by omega) g0
  by_cases g1 : a ≤ 9381777
  · exact seed_fine_1 a (by omega) g1
  by_cases g2 : a ≤ 9799935
  · exact seed_fine_2 a (by omega) g2
  by_cases g3 : a ≤ 11728186
  · exact seed_fine_3 a (by omega) g3
  by_cases g4 : a ≤ 16639367
  · exact seed_fine_4 a (by omega) g4
  by_cases g5 : a ≤ 16852952
  · exact seed_fine_5 a (by omega) g5
  by_cases g6 : a ≤ 17961131
  · exact seed_fine_6 a (by omega) g6
  by_cases g7 : a ≤ 22626191
  · exact seed_fine_7 a (by omega) g7
  by_cases g8 : a ≤ 25420814
  · exact seed_fine_8 a (by omega) g8
  by_cases g9 : a ≤ 32945667
  · exact seed_fine_9 a (by omega) g9
  · exact seed_fine_10 a (by omega) (by omega)

/-- The seed of every normal input: its cube is within a factor `(32/31)³` of
the input, and at least `(31/32)³` of it. -/
theorem seed_normal_fine (a : Nat) (h1 : 2 ^ 23 ≤ a) (h2 : a < 255 * 2 ^ 23) :
    SeedWithin 29791 32768 a :=
  seedWithin_shift 29791 32768 a h1 h2 seed_base_fine

theorem value_eq_val (b : Nat) (h : b < 2 ^ 31) : binary32.value b = binary32.val b := by
  rw [value_of_pos b (sign_pos binary32 b (by rw [b32_signBit]; exact h)), val32_eq]

theorem seed_lane_normal (x : M128) (k : Fin 4) (h1 : 0x00800000 ≤ x.lane k)
    (h2 : x.lane k ≤ 0x7F7FFFFF) :
    (cbrt_ps_seed x).r.lane k = x.lane k / 3 + 709958130 := by
  rw [seed_r_lane, seedLane_r]
  unfold seedMag
  rw [Nat.mod_eq_of_lt (by omega : x.lane k < 2 ^ 31), if_neg (by omega)]
  have : x.lane k / 2 ^ 31 = 0 := Nat.div_eq_of_lt (by omega)
  rw [this]
  norm_num

/-- The rational form of the seed bound for a normal positive pattern. -/
theorem seed_fine_val (a : Nat) (h1 : 0x00800000 ≤ a) (h2 : a ≤ 0x7F7FFFFF) :
    0 < binary32.val a ∧ 0 < binary32.val (a / 3 + 709958130) ∧
    (31 / 32) ^ 3 * binary32.val a ≤ binary32.val (a / 3 + 709958130) ^ 3 ∧
    binary32.val (a / 3 + 709958130) ^ 3 ≤ (32 / 31) ^ 3 * binary32.val a := by
  obtain ⟨b1, b2⟩ := seedWithin_val 29791 32768 a (by norm_num)
    (seed_normal_fine a (by omega) (by omega))
  have p1 : 0 < binary32.val a :=
    (val_pos_iff binary32 a).mpr (mag_pos binary32 a (by rw [b32_signBit]; omega) (by omega))
  have p2 : 0 < binary32.val (a / 3 + 709958130) :=
    (val_pos_iff binary32 _).mpr (mag_pos binary32 _ (by rw [b32_signBit]; omega) (by omega))
  refine ⟨p1, p2, ?_, ?_⟩
  · norm_num at b1 ⊢
    linarith
  · norm_num at b2 ⊢
    linarith

/-- From bounds on the cube to bounds on the number itself, against a real
cube root `c` of `x`. -/
theorem cube_root_bounds (x s : ℚ) (c : ℝ) (hs : 0 < s) (hc : 0 < c) (hx : c ^ 3 = (x : ℝ))
    (h1 : (31 / 32) ^ 3 * x ≤ s ^ 3) (h2 : s ^ 3 ≤ (32 / 31) ^ 3 * x) :
    31 / 32 * c ≤ (s : ℝ) ∧ (s : ℝ) ≤ 32 / 31 * c ∧ |(s : ℝ) - c| ≤ c / 31 := by
  have hsR : (0 : ℝ) < s := by exact_mod_cast hs
  have r1 := (Rat.cast_le (K := ℝ)).mpr h1
  have r2 := (Rat.cast_le (K := ℝ)).mpr h2
  push_cast at r1 r2
  rw [← hx, ← mul_pow] at r1 r2
  have a1 : 31 / 32 * c ≤ (s : ℝ) := le_of_pow_le_pow_left₀ (by norm_num) hsR.le r1
  have a2 : (s : ℝ) ≤ 32 / 31 * c := le_of_pow_le_pow_left₀ (by norm_num) (by positivity) r2
  refine ⟨a1, a2, ?_⟩
  rw [abs_le]
  constructor <;> linarith

/-! ## The claims -/

/-- C1: in every lane `div3_epi32` returns the quotient by 3 truncated toward
zero of the lane read as a signed 32-bit integer, for every 32-bit pattern. -/
theorem div3_epi32_truncates (v : M128) (k : Fin 4) :
    toInt32 ((details.div3_epi32 v).lane k) = Int.tdiv (toInt32 (v.lane k)) 3 := by
  rw [div3_epi32_lanes, lane_map, div3Lane_eq_tdiv]

/-- C2: a lane holding `+0.0` or `-0.0` comes out of `cbrt_ps` with exactly the
input bit pattern, and so it does whatever vector the refinement stage hands to
the two final blends. -/
theorem cbrt_ps_signed_zero (avx : Bool) (x : M128) (k : Fin 4)
    (h : x.lane k = 0 ∨ x.lane k = 0x80000000) :
    (cbrt_ps avx x).lane k = x.lane k ∧
    ∀ r : M128,
      (mm_blendv_ps (mm_blendv_ps r x (cbrt_ps_seed x).isZero) (mm_add_ps x x)
        (mm_castsi128_ps (cbrt_ps_seed x).isNanOrInf)).lane k = x.lane k := by
  constructor
  · rw [cbrt_ps_lane, cbrtLane_eq]
    rcases h with h | h <;> rw [h] <;> rfl
  · intro r
    simp only [mm_blendv_ps, mm_castsi128_ps, lane_zip3, seed_isZero_lane, seed_isNanOrInf_lane,
      seedLane_isZero, seedLane_isNanOrInf]
    rcases h with h | h <;> rw [h] <;> rfl

theorem cbrt_ps_signed_zero_driver :
    (M128.mk 1011494326 1066359849 1077936128 0x80000000).lane 3 = 0x80000000 ∧
    (cbrt_ps false ⟨1011494326, 1066359849, 1077936128, 0x80000000⟩).lane 3 = 0x80000000 :=
  ⟨rfl, (cbrt_ps_signed_zero false ⟨1011494326, 1066359849, 1077936128, 0x80000000⟩ 3
    (Or.inr rfl)).1⟩

/-- C3: a lane holding `+Infinity` or `-Infinity` is classified NaN-or-infinite,
its output is the lane of `x + x`, and that is the same infinity. -/
theorem cbrt_ps_infinity (avx : Bool) (x : M128) (k : Fin 4)
    (h : x.lane k = 0x7F800000 ∨ x.lane k = 0xFF800000) :
    (cbrt_ps_seed x).isNanOrInf.lane k = 0xFFFFFFFF ∧
    (cbrt_ps avx x).lane k = (mm_add_ps x x).lane k ∧
    (cbrt_ps avx x).lane k = x.lane k := by
  rw [seed_isNanOrInf_lane, seedLane_isNanOrInf, cbrt_ps_lane, cbrtLane_eq, mm_add_ps, lane_zip]
  rcases h with h | h <;> rw [h]
  · exact ⟨rfl, rfl, fadd_inf_pos⟩
  · exact ⟨rfl, rfl, fadd_inf_neg⟩

theorem cbrt_ps_infinity_witness :
    (M128.mk 0x7F800000 0xFF800000 0 0).lane 1 = 0xFF800000 ∧
    (cbrt_ps true ⟨0x7F800000, 0xFF800000, 0, 0⟩).lane 1 = 0xFF800000 :=
  ⟨rfl, (cbrt_ps_infinity true ⟨0x7F800000, 0xFF800000, 0, 0⟩ 1 (Or.inr rfl)).2.2⟩


/-- C4: a lane holding any NaN pattern has absolute bits above `0x7F7FFFFF`, its
output is the lane of `x + x`, and that output is a NaN. -/
theorem cbrt_ps_nan (avx : Bool) (x : M128) (k : Fin 4) (h : binary32.isNaN (x.lane k)) :
    0x7F7FFFFF < x.lane k % 2 ^ 31 ∧
    (cbrt_ps avx x).lane k = (mm_add_ps x x).lane k ∧
    binary32.isNaN ((cbrt_ps avx x).lane k) := by
  have ha := isNaN32_abs _ h
  rw [cbrt_ps_lane, cbrtLane_eq, mm_add_ps, lane_zip, if_pos ha, fadd_nan _ _ _ h]
  exact ⟨ha, rfl, isNaN32_quiet _ h⟩

theorem cbrt_ps_nan_witness :
    binary32.isNaN ((M128.mk 0x7FC00000 0xFF800001 0 0).lane 1) ∧
    binary32.isNaN ((cbrt_ps true ⟨0x7FC00000, 0xFF800001, 0, 0⟩).lane 1) :=
  ⟨by decide, (cbrt_ps_nan true ⟨0x7FC00000, 0xFF800001, 0, 0⟩ 1 (by decide)).2.2⟩

/-- C5: flipping the sign bit of a lane flips the sign bit of the output lane
of `cbrt_ps` and changes nothing else; the three masks, the rescaled magnitude
`t` and the magnitude bits of the seed do not depend on the sign bit. -/
theorem cbrt_ps_odd (avx : Bool) (x : M128) (k : Fin 4) (hx : x.lane k < 2 ^ 32) :
    (cbrt_ps avx (M128.map flipSign x)).lane k = flipSign ((cbrt_ps avx x).lane k) ∧
    (cbrt_ps_seed (M128.map flipSign x)).isZero.lane k = (cbrt_ps_seed x).isZero.lane k ∧
    (cbrt_ps_seed (M128.map flipSign x)).isNanOrInf.lane k
      = (cbrt_ps_seed x).isNanOrInf.lane k ∧
    (cbrt_ps_seed (M128.map flipSign x)).isSubnorm.lane k
      = (cbrt_ps_seed x).isSubnorm.lane k ∧
    (cbrt_ps_seed (M128.map flipSign x)).t.lane k = (cbrt_ps_seed x).t.lane k ∧
    (cbrt_ps_seed (M128.map flipSign x)).r.lane k % 2 ^ 31
      = (cbrt_ps_seed x).r.lane k % 2 ^ 31 := by
  rw [cbrt_ps_lane, cbrt_ps_lane, seed_isZero_lane, seed_isZero_lane, seed_isNanOrInf_lane,
    seed_isNanOrInf_lane, seed_isSubnorm_lane, seed_isSubnorm_lane, seed_t_lane, seed_t_lane,
    seed_r_lane, seed_r_lane, lane_map]
  generalize x.lane k = a at hx
  obtain ⟨e, hs, hA⟩ := pack32_of_lt a hx
  have hm := seedMag_lt (a % 2 ^ 31)
  refine ⟨cbrtLane_flipSign a hx, ?_, ?_, ?_, ?_, ?_⟩
  · rw [seedLane_isZero, seedLane_isZero, flipSign_mod]
  · rw [seedLane_isNanOrInf, seedLane_isNanOrInf, flipSign_mod]
  · rw [seedLane_isSubnorm, seedLane_isSubnorm, flipSign_mod]
  · rw [← e, flipSign_pack _ _ hs hA, seedLane_t_pack _ _ hs hA,
      seedLane_t_pack _ _ (by omega) hA]
  · rw [← e, flipSign_pack _ _ hs hA, seedLane_r_pack _ _ hs hA,
      seedLane_r_pack _ _ (by omega) hA, pack32_mod _ _ (by omega), pack32_mod _ _ (by omega)]

theorem cbrt_ps_odd_witness :
    (M128.mk 1011494326 1066359849 1077936128 0x80000000).lane 0 < 2 ^ 32 ∧
    (cbrt_ps false (M128.map flipSign ⟨1011494326, 1066359849, 1077936128, 0x80000000⟩)).lane 0
      = flipSign ((cbrt_ps false ⟨1011494326, 1066359849, 1077936128, 0x80000000⟩).lane 0) :=
  ⟨by decide, (cbrt_ps_odd false ⟨1011494326, 1066359849, 1077936128, 0x80000000⟩ 0
    (by decide)).1⟩

/-- C6: every output lane of `cbrt_ps` is the lane of `x + x` when the
NaN-or-infinite mask is set, otherwise the input lane when the is-zero mask is
set, otherwise the lane of the twice refined seed; each mask lane is all ones
or all zeros. -/
theorem cbrt_ps_blend (avx : Bool) (x : M128) (k : Fin 4) :
    ((cbrt_ps_seed x).isNanOrInf.lane k = 0xFFFFFFFF ∨ (cbrt_ps_seed x).isNanOrInf.lane k = 0) ∧
    ((cbrt_ps_seed x).isZero.lane k = 0xFFFFFFFF ∨ (cbrt_ps_seed x).isZero.lane k = 0) ∧
    (cbrt_ps avx x).lane k =
      if (cbrt_ps_seed x).isNanOrInf.lane k = 0xFFFFFFFF then (mm_add_ps x x).lane k
      else if (cbrt_ps_seed x).isZero.lane k = 0xFFFFFFFF then x.lane k
      else (if avx then refineAVX (cbrt_ps_seed x).r x
        else refineSSE (cbrt_ps_seed x).r x).lane k := by
  rw [seed_isNanOrInf_lane, seed_isZero_lane, seedLane_isNanOrInf, seedLane_isZero, cbrt_ps_lane,
    cbrtLane_eq, mm_add_ps, lane_zip, refined_lane, seed_r_lane]
  have e31 : (2 : Nat) ^ 31 = 2147483648 := by norm_num
  rw [e31]
  by_cases h1 : 0x7F7FFFFF < x.lane k % 2147483648
  · simp [h1]
    omega
  · by_cases h2 : x.lane k % 2147483648 = 0
    · simp [h1, h2]
    · simp [h1, h2]

/-- C7: the output lane `k` of `cbrt_ps` and of `div3_epi32` depends only on
the input lane `k`. -/
theorem lane_independence (avx : Bool) (x y : M128) (k : Fin 4) (h : x.lane k = y.lane k) :
    (cbrt_ps avx x).lane k = (cbrt_ps avx y).lane k ∧
    (details.div3_epi32 x).lane k = (details.div3_epi32 y).lane k := by
  rw [cbrt_ps_lane, cbrt_ps_lane, div3_epi32_lanes, div3_epi32_lanes, lane_map, lane_map, h]
  exact ⟨rfl, rfl⟩

theorem lane_independence_witness :
    (M128.mk 1 2 3 4).lane 2 = (M128.mk 5 6 3 7).lane 2 ∧
    (cbrt_ps false ⟨1, 2, 3, 4⟩).lane 2 = (cbrt_ps false ⟨5, 6, 3, 7⟩).lane 2 ∧
    (details.div3_epi32 ⟨1, 2, 3, 4⟩).lane 2 = (details.div3_epi32 ⟨5, 6, 3, 7⟩).lane 2 :=
  ⟨rfl, lane_independence false ⟨1, 2, 3, 4⟩ ⟨5, 6, 3, 7⟩ 2 rfl⟩

/-- C8: the SSE refinement block (split with movehl, refine each half twice,
narrow, recombine with movelh) gives the same four lanes in the same order as
the AVX block, for every seed and input; hence `cbrt_ps` does not depend on
`USE_AVX`. -/
theorem refine_paths_agree (r x : M128) :
    refineSSE r x = refineAVX r x ∧ cbrt_ps false x = cbrt_ps true x := by
  rw [refineSSE_lanes, refineAVX_lanes, cbrt_ps_lanes, cbrt_ps_lanes]
  exact ⟨rfl, rfl⟩

/-- C9, as stated, fails in its first concrete witness: for the driver's input
`0.01234f` the output is `0.23108...`, which is not `0.2298` to the four digits
given. -/
theorem cbrt_ps_driver_not_2298 :
    ¬ |binary32.value ((cbrt_ps false ⟨1011494326, 1066359849, 1077936128, 0x80000000⟩).lane 0)
        - 2298 / 10000| ≤ 5 / 10000 := by
  rw [cbrt_ps_driver]
  have h := value_driver_out.1
  have e : (M128.mk 1047306635 1065676168 1069063074 0x80000000).lane 0 = 1047306635 := rfl
  rw [e, h]
  norm_num [abs_le]

/-- C9, amended: for every lane holding a finite non-zero single (normal or
subnormal, either sign) the output lane `y` of `cbrt_ps` is finite and satisfies
`|y ^ 3 - x| ≤ 1e-6 * |x|`, the values read as exact rationals; for the
driver's inputs `0.01234`, `1.12` and `3.0` the outputs are `0.2311`, `1.0385`
and `1.4422` to four decimals. -/
theorem cbrt_ps_accurate :
    (∀ (avx : Bool) (x : M128) (k : Fin 4), x.lane k < 2 ^ 32 → 0 < x.lane k % 2 ^ 31 →
      x.lane k % 2 ^ 31 ≤ 0x7F7FFFFF →
      (cbrt_ps avx x).lane k % 2 ^ 31 < 0x7F800000 ∧
      |binary32.value ((cbrt_ps avx x).lane k) ^ 3 - binary32.value (x.lane k)|
        ≤ 1 / 10 ^ 6 * |binary32.value (x.lane k)|) ∧
    |binary32.value ((cbrt_ps false ⟨1011494326, 1066359849, 1077936128, 0x80000000⟩).lane 0)
        - 2311 / 10000| ≤ 1 / 10000 ∧
    |binary32.value ((cbrt_ps false ⟨1011494326, 1066359849, 1077936128, 0x80000000⟩).lane 1)
        - 10385 / 10000| ≤ 1 / 10000 ∧
    |binary32.value ((cbrt_ps false ⟨1011494326, 1066359849, 1077936128, 0x80000000⟩).lane 2)
        - 14422 / 10000| ≤ 1 / 10000 := by
  refine ⟨?_, ?_⟩
  · intro avx x k hx h0 h1
    rw [cbrt_ps_lane]
    exact cbrtLane_accurate (x.lane k) hx h0 h1
  · rw [cbrt_ps_driver]
    obtain ⟨h0, h1, h2⟩ := value_driver_out
    have e0 : (M128.mk 1047306635 1065676168 1069063074 0x80000000).lane 0 = 1047306635 := rfl
    have e1 : (M128.mk 1047306635 1065676168 1069063074 0x80000000).lane 1 = 1065676168 := rfl
    have e2 : (M128.mk 1047306635 1065676168 1069063074 0x80000000).lane 2 = 1069063074 := rfl
    rw [e0, e1, e2, h0, h1, h2]
    norm_num [abs_le]

theorem cbrt_ps_accurate_driver :
    (M128.mk 1011494326 1066359849 1077936128 0x80000000).lane 0 < 2 ^ 32 ∧
    0 < (M128.mk 1011494326 1066359849 1077936128 0x80000000).lane 0 % 2 ^ 31 ∧
    (M128.mk 1011494326 1066359849 1077936128 0x80000000).lane 0 % 2 ^ 31 ≤ 0x7F7FFFFF ∧
    |binary32.value ((cbrt_ps false ⟨1011494326, 1066359849, 1077936128, 0x80000000⟩).lane 0) ^ 3
        - binary32.value ((M128.mk 1011494326 1066359849 1077936128 0x80000000).lane 0)|
      ≤ 1 / 10 ^ 6
        * |binary32.value ((M128.mk 1011494326 1066359849 1077936128 0x80000000).lane 0)| :=
  ⟨by decide, by decide, by decide,
    (cbrt_ps_accurate.1 false ⟨1011494326, 1066359849, 1077936128, 0x80000000⟩ 0
      (by decide) (by decide) (by decide)).2⟩

/-- C10, as stated, fails: for a zero lane both the is-zero mask and the
is-subnormal mask are set. -/
theorem masks_overlap_at_zero :
    ¬ (∀ (x : M128) (k : Fin 4),
      ¬ ((cbrt_ps_seed x).isZero.lane k = 0xFFFFFFFF ∧
         (cbrt_ps_seed x).isSubnorm.lane k = 0xFFFFFFFF)) := by
  intro h
  refine h ⟨0, 0, 0, 0⟩ 0 ?_
  rw [seed_isZero_lane, seed_isSubnorm_lane, seedLane_isZero, seedLane_isSubnorm]
  exact ⟨rfl, rfl⟩

/-- C10, amended: every mask lane is all ones or all zeros, and the three masks
of a lane are in exactly one of four configurations: only NaN-or-infinite set
(absolute bits above `0x7F7FFFFF`), is-zero and is-subnormal both set (absolute
bits zero), only is-subnormal set (absolute bits in `1 .. 0x007FFFFF`), or none
set (absolute bits in `0x00800000 .. 0x7F7FFFFF`). -/
theorem masks_partition (x : M128) (k : Fin 4) :
    let a := x.lane k % 2 ^ 31
    let z := (cbrt_ps_seed x).isZero.lane k
    let s := (cbrt_ps_seed x).isSubnorm.lane k
    let n := (cbrt_ps_seed x).isNanOrInf.lane k
    (0x7F7FFFFF < a ∧ n = 0xFFFFFFFF ∧ z = 0 ∧ s = 0) ∨
    (a = 0 ∧ n = 0 ∧ z = 0xFFFFFFFF ∧ s = 0xFFFFFFFF) ∨
    (0 < a ∧ a < 0x00800000 ∧ n = 0 ∧ z = 0 ∧ s = 0xFFFFFFFF) ∨
    (0x00800000 ≤ a ∧ a ≤ 0x7F7FFFFF ∧ n = 0 ∧ z = 0 ∧ s = 0) := by
  intro a z s n
  have hz : z = if a = 0 then 0xFFFFFFFF else 0 := by
    simp only [z, a, seed_isZero_lane, seedLane_isZero]
  have hs : s = if a < 0x00800000 then 0xFFFFFFFF else 0 := by
    simp only [s, a, seed_isSubnorm_lane, seedLane_isSubnorm]
  have hn : n = if 0x7F7FFFFF < a then 0xFFFFFFFF else 0 := by
    simp only [n, a, seed_isNanOrInf_lane, seedLane_isNanOrInf]
  rw [hz, hs, hn]
  clear hz hs hn
  generalize a = b
  split_ifs <;> omega

/-- C11: no lane has both the is-zero mask and the NaN-or-infinite mask set,
and the two final blends of `cbrt_ps` commute: substituting `x + x` under the
NaN-or-infinite mask first and `x` under the is-zero mask second gives the same
register, for every input and every refined vector, hence the same output. -/
theorem blend_order_irrelevant (avx : Bool) (x : M128) :
    (∀ k : Fin 4, ¬ ((cbrt_ps_seed x).isZero.lane k / 2 ^ 31 % 2 = 1 ∧
        (cbrt_ps_seed x).isNanOrInf.lane k / 2 ^ 31 % 2 = 1)) ∧
    (∀ k : Fin 4, ¬ ((cbrt_ps_seed x).isZero.lane k = 0xFFFFFFFF ∧
        (cbrt_ps_seed x).isNanOrInf.lane k = 0xFFFFFFFF)) ∧
    (∀ r : M128,
      mm_blendv_ps (mm_blendv_ps r (mm_add_ps x x) (mm_castsi128_ps (cbrt_ps_seed x).isNanOrInf))
          x (cbrt_ps_seed x).isZero
        = mm_blendv_ps (mm_blendv_ps r x (cbrt_ps_seed x).isZero) (mm_add_ps x x)
          (mm_castsi128_ps (cbrt_ps_seed x).isNanOrInf)) ∧
    mm_blendv_ps (mm_blendv_ps (if avx then refineAVX (cbrt_ps_seed x).r x
          else refineSSE (cbrt_ps_seed x).r x) (mm_add_ps x x)
          (mm_castsi128_ps (cbrt_ps_seed x).isNanOrInf)) x (cbrt_ps_seed x).isZero
      = cbrt_ps avx x := by
  have excl : ∀ a : Nat, ¬ ((seedLane a).isZero / 2 ^ 31 % 2 = 1 ∧
      (seedLane a).isNanOrInf / 2 ^ 31 % 2 = 1) := by
    intro a
    rw [seedLane_isZero, seedLane_isNanOrInf]
    by_cases h : a % 2 ^ 31 = 0
    · rw [if_pos h, if_neg (by omega)]
      norm_num
    · rw [if_neg h]
      norm_num
  have comm : ∀ r : M128,
      mm_blendv_ps (mm_blendv_ps r (mm_add_ps x x) (mm_castsi128_ps (cbrt_ps_seed x).isNanOrInf))
          x (cbrt_ps_seed x).isZero
        = mm_blendv_ps (mm_blendv_ps r x (cbrt_ps_seed x).isZero) (mm_add_ps x x)
          (mm_castsi128_ps (cbrt_ps_seed x).isNanOrInf) := by
    intro r
    have h0 := excl x.e0
    have h1 := excl x.e1
    have h2 := excl x.e2
    have h3 := excl x.e3
    rw [cbrt_ps_seed_lanes]
    simp only [mm_blendv_ps, mm_castsi128_ps, M128.zip3, M128.map]
    congr 1 <;> split_ifs <;> first | rfl | (exfalso; tauto)
  refine ⟨fun k => ?_, fun k => ?_, comm, ?_⟩
  · rw [seed_isZero_lane, seed_isNanOrInf_lane]
    exact excl _
  · rw [seed_isZero_lane, seed_isNanOrInf_lane, seedLane_isZero, seedLane_isNanOrInf]
    by_cases h : x.lane k % 2 ^ 31 = 0
    · rw [if_pos h, if_neg (by omega)]
      norm_num
    · rw [if_neg h]
      norm_num
  · rw [comm]
    rfl

/-- C12: whatever rescaled pattern `T` up to `0x7FFFFFFF` is blended in, the
signed sum of the quotient `div3_epi32(m)` and the offset `B` lies in
`[642849266, 0x54FBC49C]` and the wrapping `_mm_add_epi32` returns exactly that
sum; the rescaled value `t` of `cbrt_ps` is such a pattern; and the seed `r` of
every lane has magnitude bits in `[642849266, 0x54FBC49C]`, inside the normal
range `[0x00800000, 0x7F7FFFFF]`, so it is a finite, non-zero, normal single
whose sign bit is the sign bit of `x`. -/
theorem seed_is_normal (x : M128) (k : Fin 4) :
    let signBit := mm_set1_ps 0x80000000
    let abs := mm_andnot_ps signBit x
    let isSubnorm := mm_cmplt_epi32 (mm_castps_si128 abs) (mm_set1_epi32 0x00800000)
    let B := mm_blendv_epi8 (mm_set1_epi32 709958130) (mm_set1_epi32 642849266) isSubnorm
    let r := (cbrt_ps_seed x).r.lane k
    (∀ T : M128, T.lane k ≤ 0x7FFFFFFF →
      let q := details.div3_epi32
        (mm_blendv_epi8 (mm_castps_si128 abs) (mm_castps_si128 T) isSubnorm)
      642849266 ≤ toInt32 (q.lane k) + toInt32 (B.lane k) ∧
      toInt32 (q.lane k) + toInt32 (B.lane k) ≤ 0x54FBC49C ∧
      toInt32 ((mm_add_epi32 q B).lane k) = toInt32 (q.lane k) + toInt32 (B.lane k)) ∧
    (cbrt_ps_seed x).t.lane k ≤ 0x7FFFFFFF ∧
    (cbrt_ps_seed x).r = mm_or_ps (mm_castsi128_ps (mm_add_epi32 (details.div3_epi32
        (mm_blendv_epi8 (mm_castps_si128 abs) (mm_castps_si128 (cbrt_ps_seed x).t) isSubnorm)) B))
        (mm_and_ps x signBit) ∧
    642849266 ≤ r % 2 ^ 31 ∧ r % 2 ^ 31 ≤ 0x54FBC49C ∧
    0x00800000 ≤ r % 2 ^ 31 ∧ r % 2 ^ 31 ≤ 0x7F7FFFFF ∧
    r < 2 ^ 32 ∧ r / 2 ^ 31 % 2 = x.lane k / 2 ^ 31 % 2 ∧
    1 ≤ binary32.expo r ∧ binary32.expo r ≤ 254 ∧
    ¬ binary32.isNaN r ∧ ¬ binary32.isInf r ∧ ¬ binary32.isZero r := by
  intro signBit abs isSubnorm B r
  have hr : r = x.lane k / 2 ^ 31 % 2 * 2 ^ 31 + seedMag (x.lane k) := by
    simp only [r, seed_r_lane, seedLane_r]
  obtain ⟨m1, m2⟩ := seedMag_range (x.lane k)
  have hb : x.lane k / 2 ^ 31 % 2 < 2 := Nat.mod_lt _ (by norm_num)
  have hmod : r % 2 ^ 31 = seedMag (x.lane k) := by
    rw [hr, Nat.mul_comm, Nat.mul_add_mod]
    exact Nat.mod_eq_of_lt (by omega)
  have hdiv : r / 2 ^ 31 % 2 = x.lane k / 2 ^ 31 % 2 := by
    rw [hr]
    omega
  obtain ⟨e1, e2, e3, e4, e5⟩ := expo32_range r (by omega) (by omega)
  refine ⟨?_, ?_, rfl, by omega, by omega, by omega, by omega, by omega, hdiv, e1, e2, e3, e4, e5⟩
  · intro T hT q
    obtain ⟨hq, hB⟩ := seed_sum_lane x T k hT
    have hq' : q.lane k
        = if x.lane k % 2 ^ 31 < 0x00800000 then T.lane k / 3 else x.lane k % 2 ^ 31 / 3 := hq
    have hB' : B.lane k = if x.lane k % 2 ^ 31 < 0x00800000 then 642849266 else 709958130 := hB
    have ha : x.lane k % 2 ^ 31 < 2 ^ 31 := Nat.mod_lt _ (by norm_num)
    rw [add_epi32_lane, hq', hB']
    by_cases hc : x.lane k % 2 ^ 31 < 0x00800000
    · rw [if_pos hc, if_pos hc]
      have hs : T.lane k / 3 + 642849266 < 2 ^ 31 := by omega
      rw [Nat.mod_eq_of_lt (by omega : T.lane k / 3 + 642849266 < 2 ^ 32),
        toInt32_of_lt (T.lane k / 3 + 642849266) hs, toInt32_of_lt (T.lane k / 3) (by omega),
        toInt32_of_lt 642849266 (by norm_num)]
      omega
    · rw [if_neg hc, if_neg hc]
      have hs : x.lane k % 2 ^ 31 / 3 + 709958130 < 2 ^ 31 := by omega
      rw [Nat.mod_eq_of_lt (by omega : x.lane k % 2 ^ 31 / 3 + 709958130 < 2 ^ 32),
        toInt32_of_lt (x.lane k % 2 ^ 31 / 3 + 709958130) hs,
        toInt32_of_lt (x.lane k % 2 ^ 31 / 3) (by omega), toInt32_of_lt 709958130 (by norm_num)]
      omega
  · rw [seed_t_lane]
    have := seedLane_t_lt (x.lane k)
    omega

theorem seed_is_normal_driver :
    (M128.mk 5 6 7 8).lane 0 ≤ 0x7FFFFFFF ∧
    toInt32 ((mm_add_epi32 (details.div3_epi32 (mm_blendv_epi8
        (mm_castps_si128 (mm_andnot_ps (mm_set1_ps 0x80000000)
          ⟨1011494326, 1066359849, 1077936128, 0x80000000⟩))
        (mm_castps_si128 ⟨5, 6, 7, 8⟩)
        (mm_cmplt_epi32 (mm_castps_si128 (mm_andnot_ps (mm_set1_ps 0x80000000)
          ⟨1011494326, 1066359849, 1077936128, 0x80000000⟩)) (mm_set1_epi32 0x00800000))))
      (mm_blendv_epi8 (mm_set1_epi32 709958130) (mm_set1_epi32 642849266)
        (mm_cmplt_epi32 (mm_castps_si128 (mm_andnot_ps (mm_set1_ps 0x80000000)
          ⟨1011494326, 1066359849, 1077936128, 0x80000000⟩))
          (mm_set1_epi32 0x00800000)))).lane 0) ≤ 0x54FBC49C :=
  ⟨by decide, by
    have h := ((seed_is_normal ⟨1011494326, 1066359849, 1077936128, 0x80000000⟩ 0).1
      ⟨5, 6, 7, 8⟩ (by decide))
    exact h.2.2 ▸ h.2.1⟩

/-- C13: in every lane the seed of `cbrt_ps` is the sign bit of `x` OR-ed with
`a / 3 + 709958130` when the absolute bit pattern `a` of `x` is at least
`0x00800000`, and with `t / 3 + 642849266` when `a < 0x00800000`, where `t` is
the bit pattern of `|x * 2^24|` (the product is exact for these lanes) and the
division is the truncating integer division. -/
theorem seed_formula (x : M128) (k : Fin 4) :
    let signBit := mm_set1_ps 0x80000000
    let sign := (mm_and_ps x signBit).lane k
    let a := (mm_andnot_ps signBit x).lane k
    let t := (mm_andnot_ps signBit
      (mm_mul_ps x (mm_castsi128_ps (mm_set1_epi32 0x4b800000)))).lane k
    (0x00800000 ≤ a → (cbrt_ps_seed x).r.lane k = sign ||| (a / 3 + 709958130)) ∧
    (a < 0x00800000 → (cbrt_ps_seed x).r.lane k = sign ||| (t / 3 + 642849266) ∧
      binary32.val t = binary32.val a * 2 ^ 24) ∧
    sign = x.lane k / 2 ^ 31 % 2 * 2 ^ 31 ∧ a = x.lane k % 2 ^ 31 ∧
    t = (cbrt_ps_seed x).t.lane k ∧
    ((a / 3 : Nat) : Int) = Int.tdiv (a : Int) 3 ∧ ((t / 3 : Nat) : Int) = Int.tdiv (t : Int) 3 := by
  intro signBit sign a t
  have hsign : sign = x.lane k / 2 ^ 31 % 2 * 2 ^ 31 := sign_lane x k
  have ha : a = x.lane k % 2 ^ 31 := abs_lane x k
  have ht : t = (cbrt_ps_seed x).t.lane k := rfl
  have hr : (cbrt_ps_seed x).r.lane k = x.lane k / 2 ^ 31 % 2 * 2 ^ 31 + seedMag (x.lane k) := by
    rw [seed_r_lane, seedLane_r]
  have hm := seedMag_range (x.lane k)
  have hor : ∀ i : Nat, i < 2 ^ 31 → sign ||| i = x.lane k / 2 ^ 31 % 2 * 2 ^ 31 + i := by
    intro i hi
    rw [hsign, Nat.or_comm]
    exact or_sign i _ hi
  have htl : t = (seedLane (x.lane k)).t := by rw [ht, seed_t_lane]
  refine ⟨?_, ?_, hsign, ha, ht, ?_, ?_⟩
  · intro h
    rw [hr, hor _ (by omega)]
    unfold seedMag
    rw [← ha, if_neg (by omega)]
  · intro h
    constructor
    · rw [hr, hor _ (by have := seedLane_t_lt (x.lane k); omega)]
      unfold seedMag
      rw [← ha, if_pos h, htl]
    · obtain ⟨e1, e2⟩ := rescale_exact a (by omega)
      have hta : t = fmul binary32 a 0x4b800000 := by
        rw [htl, seedLane_t, ha]
        exact fmul_abs _ (by omega)
      rw [val32_eq, val32_eq, hta, e2, mag_subnormal a (by omega)]
      push_cast
      ring
  · rw [Int.tdiv_eq_ediv (Int.ofNat_nonneg a) (by norm_num)]
    rfl
  · rw [Int.tdiv_eq_ediv (Int.ofNat_nonneg t) (by norm_num)]
    rfl

theorem seed_formula_driver :
    0x00800000 ≤ (mm_andnot_ps (mm_set1_ps 0x80000000) ⟨1011494326, 5, 1077936128, 0x80000000⟩).lane 0 ∧
    (cbrt_ps_seed ⟨1011494326, 5, 1077936128, 0x80000000⟩).r.lane 0
      = (mm_and_ps ⟨1011494326, 5, 1077936128, 0x80000000⟩ (mm_set1_ps 0x80000000)).lane 0
        ||| ((mm_andnot_ps (mm_set1_ps 0x80000000)
          ⟨1011494326, 5, 1077936128, 0x80000000⟩).lane 0 / 3 + 709958130) ∧
    (mm_andnot_ps (mm_set1_ps 0x80000000) ⟨1011494326, 5, 1077936128, 0x80000000⟩).lane 1
      < 0x00800000 ∧
    (cbrt_ps_seed ⟨1011494326, 5, 1077936128, 0x80000000⟩).r.lane 1
      = (mm_and_ps ⟨1011494326, 5, 1077936128, 0x80000000⟩ (mm_set1_ps 0x80000000)).lane 1
        ||| ((mm_andnot_ps (mm_set1_ps 0x80000000) (mm_mul_ps
          ⟨1011494326, 5, 1077936128, 0x80000000⟩
          (mm_castsi128_ps (mm_set1_epi32 0x4b800000)))).lane 1 / 3 + 642849266) :=
  ⟨by decide, (seed_formula ⟨1011494326, 5, 1077936128, 0x80000000⟩ 0).1 (by decide), by decide,
    ((seed_formula ⟨1011494326, 5, 1077936128, 0x80000000⟩ 1).2.1 (by decide)).1⟩

/-- C14, as stated, fails: for the lane value 3 the high half `h` of the
product with `0x55555556` is 1, whose bit 0 is set, and `div3_epi32` returns
`h = 1`, not `h + 1`. -/
theorem div3_epi32_not_low_bit :
    (mul64 3 0x55555556 / 2 ^ 32) % 2 = 1 ∧
    (details.div3_epi32 ⟨3, 3, 3, 3⟩).lane 0 = mul64 3 0x55555556 / 2 ^ 32 ∧
    (details.div3_epi32 ⟨3, 3, 3, 3⟩).lane 0 ≠ mul64 3 0x55555556 / 2 ^ 32 + 1 := by
  decide

/-- C14, amended: in every lane `div3_epi32` returns `h + 1` (wrapping) when
the sign bit (bit 31) of `h` is set and `h` otherwise, where `h` is the high 32
bits of the signed 64-bit product of the lane with `0x55555556`; read as signed
integers, the result is `h + 1` for negative `h` and `h` otherwise. -/
theorem div3_epi32_correction (v : M128) (k : Fin 4) :
    let h := mul64 (v.lane k) 0x55555556 / 2 ^ 32
    h = (mm_mul_epi32 (M128.mk (v.lane k) 0 0 0) (mm_set1_epi32 0x55555556)).lane 1 ∧
    (details.div3_epi32 v).lane k = (if h / 2 ^ 31 % 2 = 1 then (h + 1) % 2 ^ 32 else h) ∧
    toInt32 ((details.div3_epi32 v).lane k)
      = (if toInt32 h < 0 then toInt32 h + 1 else toInt32 h) := by
  intro h
  have hlt : h < 2 ^ 32 := by
    have := mul64_lt (v.lane k) 0x55555556
    omega
  have hd : (details.div3_epi32 v).lane k = (h + h / 2 ^ 31) % 2 ^ 32 := by
    rw [div3_lane]
    rfl
  refine ⟨rfl, ?_, ?_⟩
  · rw [hd]
    by_cases hb : h / 2 ^ 31 % 2 = 1
    · rw [if_pos hb]
      congr 2
      omega
    · rw [if_neg hb]
      have : h / 2 ^ 31 = 0 := by omega
      rw [this, Nat.add_zero]
      exact Nat.mod_eq_of_lt hlt
  · rw [hd]
    unfold toInt32
    have e : (2 : Nat) ^ 32 = 4294967296 := by norm_num
    have e1 : (2 : Nat) ^ 31 = 2147483648 := by norm_num
    have e2 : (2 : Int) ^ 32 = 4294967296 := by norm_num
    rw [e] at hlt
    rw [e, e1, e2, Nat.mod_eq_of_lt hlt]
    generalize h = g at hlt
    split_ifs <;> omega

/-- C15: both variants of `cbrtRefine` apply one operation sequence to every
lane, and that sequence read over exact arithmetic is
`((v + (a³ + v)) * a) / (a³ + (a³ + v))` with `a³ = (a * a) * a`, whose divisor
is `2a³ + v` and which equals the Halley update `a * (a³ + 2v) / (2a³ + v)`
wherever `2a³ + v` is non-zero. -/
theorem cbrtRefine_is_halley {K : Type} [Field K] (a v : K) (h : 2 * a ^ 3 + v ≠ 0) :
    cbrtRefineExact a v = ((v + (a * a * a + v)) * a) / (a * a * a + (a * a * a + v)) ∧
    cbrtRefineDivExact a v = 2 * a ^ 3 + v ∧ cbrtRefineDivExact a v ≠ 0 ∧
    cbrtRefineExact a v = halleySpec a v ∧
    (∀ A R : M128d, details.cbrtRefine A R
      = ⟨details.cbrtRefineWith (fmul binary64) (fadd binary64) (fdiv binary64) A.d0 R.d0,
         details.cbrtRefineWith (fmul binary64) (fadd binary64) (fdiv binary64) A.d1 R.d1⟩) ∧
    (∀ A R : M256d, details.cbrtRefine256 A R
      = ⟨details.cbrtRefineWith (fmul binary64) (fadd binary64) (fdiv binary64) A.d0 R.d0,
         details.cbrtRefineWith (fmul binary64) (fadd binary64) (fdiv binary64) A.d1 R.d1,
         details.cbrtRefineWith (fmul binary64) (fadd binary64) (fdiv binary64) A.d2 R.d2,
         details.cbrtRefineWith (fmul binary64) (fadd binary64) (fdiv binary64) A.d3 R.d3⟩) := by
  have hd : cbrtRefineDivExact a v = 2 * a ^ 3 + v := by
    rw [cbrtRefineDivExact_eq]
    ring
  refine ⟨rfl, hd, by rw [hd]; exact h, ?_, fun A R => ?_, fun A R => ?_⟩
  rotate_left
  · rw [cbrtRefine_lanes]
    simp only [refineLane_eq_with]
  · rw [cbrtRefine256_lanes]
    simp only [refineLane_eq_with]
  rw [cbrtRefineExact_div, hd]
  unfold halleySpec
  congr 1
  ring

theorem cbrtRefine_is_halley_witness :
    (2 : ℚ) * 1 ^ 3 + 2 ≠ 0 ∧ cbrtRefineExact (1 : ℚ) 2 = halleySpec 1 2 ∧
      cbrtRefineExact (1 : ℚ) 2 = 5 / 4 :=
  ⟨by norm_num, (cbrtRefine_is_halley (1 : ℚ) 2 (by norm_num)).2.2.2.1, by
    rw [cbrtRefineExact_eq]; norm_num⟩

/-- C16: over exact arithmetic, for a non-zero seed `a` and a value `v` that is
zero or has the sign of `a`, the divisor `2a³ + v` of the update is non-zero and
has the sign of `a`, the updated seed is non-zero and has the sign of `a`, and
so the divisor of the second update is non-zero with the sign of `a` as well;
in `cbrt_ps` the seed of every lane carries the sign bit of `x`, so the seed is
non-zero and `x` is zero or has the sign of the seed. -/
theorem halley_divisor_nonzero {K : Type} [LinearOrderedField K] (a v : K) (ha : a ≠ 0)
    (hv : v = 0 ∨ 0 < a * v) :
    cbrtRefineDivExact a v = 2 * a ^ 3 + v ∧
    cbrtRefineDivExact a v ≠ 0 ∧ 0 < a * cbrtRefineDivExact a v ∧
    cbrtRefineExact a v ≠ 0 ∧ 0 < a * cbrtRefineExact a v ∧
    cbrtRefineDivExact (cbrtRefineExact a v) v ≠ 0 ∧
    0 < a * cbrtRefineDivExact (cbrtRefineExact a v) v ∧
    (∀ (x : M128) (k : Fin 4),
      binary32.sign ((cbrt_ps_seed x).r.lane k) = binary32.sign (x.lane k)) ∧
    (∀ (x : M128) (k : Fin 4), x.lane k < 2 ^ 32 →
      binary32.value ((cbrt_ps_seed x).r.lane k) ≠ 0 ∧
      (binary32.value (x.lane k) = 0 ∨
        0 < binary32.value ((cbrt_ps_seed x).r.lane k) * binary32.value (x.lane k))) := by
  obtain ⟨h1, h2⟩ := divisor_sign a v ha hv
  have hn := ne_zero_of_mul_pos_right _ _ h2
  have hv2 : v = 0 ∨ 0 < cbrtRefineExact a v * v := by
    rcases hv with h | h
    · exact Or.inl h
    · right
      have h2' : 0 < cbrtRefineExact a v * a := by rw [mul_comm]; exact h2
      exact same_sign_trans _ _ _ h2' h
  obtain ⟨h3, -⟩ := divisor_sign (cbrtRefineExact a v) v hn hv2
  refine ⟨?_, ne_zero_of_mul_pos_right _ _ h1, h1, hn, h2, ne_zero_of_mul_pos_right _ _ h3,
    same_sign_trans _ _ _ h2 h3, seed_sign_lane, seed_value_sign⟩
  rw [cbrtRefineDivExact_eq]
  ring

theorem halley_divisor_nonzero_witness :
    (-2 : ℚ) ≠ 0 ∧ ((-3 : ℚ) = 0 ∨ 0 < (-2 : ℚ) * (-3)) ∧
    cbrtRefineDivExact (-2 : ℚ) (-3) ≠ 0 ∧
    cbrtRefineDivExact (cbrtRefineExact (-2 : ℚ) (-3)) (-3) ≠ 0 :=
  ⟨by norm_num, Or.inr (by norm_num),
    (halley_divisor_nonzero (-2 : ℚ) (-3) (by norm_num) (Or.inr (by norm_num))).2.1,
    (halley_divisor_nonzero (-2 : ℚ) (-3) (by norm_num) (Or.inr (by norm_num))).2.2.2.2.2.1⟩

/-- C17: in exact arithmetic, for every `c > 0` and every seed `a` with
`|a - c| ≤ c / 32`, two applications of the coded update to `a` with the value
`c³` end within `c * 2⁻²⁴` of `c`, strictly; the first application is already
within `c / 45000`. -/
theorem two_refinements_suffice {K : Type} [LinearOrderedField K] (c a : K) (hc : 0 < c)
    (h : |a - c| ≤ c / 32) :
    |cbrtRefineExact a (c ^ 3) - c| ≤ c / 45000 ∧
    |cbrtRefineExact (cbrtRefineExact a (c ^ 3)) (c ^ 3) - c| < c * (1 / 2 ^ 24) := by
  have s1 : |cbrtRefineExact a (c ^ 3) - c| ≤ 1 / 45000 * c :=
    halley_step a c (1 / 32) (1 / 45000) hc (by norm_num) (by norm_num)
      (by rw [one_div_mul_eq_div]; exact h) (by norm_num)
  have s2 : |cbrtRefineExact (cbrtRefineExact a (c ^ 3)) (c ^ 3) - c| ≤ 1 / 2 ^ 25 * c :=
    halley_step _ c (1 / 45000) (1 / 2 ^ 25) hc (by norm_num) (by norm_num) s1 (by norm_num)
  refine ⟨by rw [← one_div_mul_eq_div]; exact s1, lt_of_le_of_lt s2 ?_⟩
  rw [mul_comm]
  exact mul_lt_mul_of_pos_left (by norm_num) hc

theorem two_refinements_suffice_witness :
    (0 : ℚ) < 1 ∧ |(33 / 32 : ℚ) - 1| ≤ 1 / 32 ∧
    |cbrtRefineExact (cbrtRefineExact (33 / 32 : ℚ) (1 ^ 3)) (1 ^ 3) - 1| < 1 * (1 / 2 ^ 24) :=
  ⟨by norm_num, by norm_num [abs_le],
    (two_refinements_suffice (1 : ℚ) (33 / 32) (by norm_num) (by norm_num [abs_le])).2⟩

/-- C18, as stated, fails on the upper side: for `x = 0x3FFFFFFF` (the largest
single below 2) the seed is `0x3FA66F47` and its cube exceeds `(33/32)³ x`. -/
theorem seed_exceeds_five_bits :
    (0x00800000 ≤ 0x3FFFFFFF ∧ 0x3FFFFFFF ≤ 0x7F7FFFFF) ∧
    (cbrt_ps_seed ⟨0x3FFFFFFF, 0, 0, 0⟩).r.lane 0 = 0x3FFFFFFF / 3 + 709958130 ∧
    ¬ (binary32.value ((cbrt_ps_seed ⟨0x3FFFFFFF, 0, 0, 0⟩).r.lane 0) ^ 3
        ≤ (33 / 32) ^ 3 * binary32.value 0x3FFFFFFF) := by
  have hr : (cbrt_ps_seed ⟨0x3FFFFFFF, 0, 0, 0⟩).r.lane 0 = 0x3FFFFFFF / 3 + 709958130 :=
    seed_lane_normal ⟨0x3FFFFFFF, 0, 0, 0⟩ 0 (by decide) (by decide)
  refine ⟨by norm_num, hr, ?_⟩
  have e : 0x3FFFFFFF / 3 + 709958130 = 1067872071 := by norm_num
  have m1 : binary32.mag 1067872071 = 10907463 * 2 ^ 126 := by decide
  have m2 : binary32.mag 0x3FFFFFFF = 16777215 * 2 ^ 126 := by decide
  rw [hr, e, value_of_pos _ (by decide), value_of_pos _ (by decide), m1, m2]
  norm_num

/-- C18, amended: for every positive normal finite `x` (bit pattern `a` in
`[0x00800000, 0x7F7FFFFF]`) the seed `s` of `cbrt_ps` has the bit pattern
`a / 3 + 709958130` and satisfies `(31/32)³ x ≤ s³ ≤ (32/31)³ x`, the values
decoded exactly as rationals; equivalently, for the real cube root `c` of `x`,
`31/32 c ≤ s ≤ 32/31 c`, so `|s - c| ≤ c / 31`. -/
theorem seed_accuracy (x : M128) (k : Fin 4) (h1 : 0x00800000 ≤ x.lane k)
    (h2 : x.lane k ≤ 0x7F7FFFFF) :
    (cbrt_ps_seed x).r.lane k = x.lane k / 3 + 709958130 ∧
    0 < binary32.value (x.lane k) ∧ 0 < binary32.value ((cbrt_ps_seed x).r.lane k) ∧
    (31 / 32) ^ 3 * binary32.value (x.lane k)
      ≤ binary32.value ((cbrt_ps_seed x).r.lane k) ^ 3 ∧
    binary32.value ((cbrt_ps_seed x).r.lane k) ^ 3
      ≤ (32 / 31) ^ 3 * binary32.value (x.lane k) ∧
    ∀ c : ℝ, 0 < c → c ^ 3 = ((binary32.value (x.lane k) : ℚ) : ℝ) →
      31 / 32 * c ≤ ((binary32.value ((cbrt_ps_seed x).r.lane k) : ℚ) : ℝ) ∧
      ((binary32.value ((cbrt_ps_seed x).r.lane k) : ℚ) : ℝ) ≤ 32 / 31 * c ∧
      |((binary32.value ((cbrt_ps_seed x).r.lane k) : ℚ) : ℝ) - c| ≤ c / 31 := by
  have hr := seed_lane_normal x k h1 h2
  obtain ⟨p1, p2, b1, b2⟩ := seed_fine_val (x.lane k) h1 h2
  rw [hr, value_eq_val _ (by omega), value_eq_val _ (by omega)]
  exact ⟨rfl, p1, p2, b1, b2, fun c hc hx => cube_root_bounds _ _ c p2 hc hx b1 b2⟩

theorem seed_accuracy_driver :
    (0x00800000 ≤ (M128.mk 1011494326 1066359849 1077936128 0x80000000).lane 2 ∧
      (M128.mk 1011494326 1066359849 1077936128 0x80000000).lane 2 ≤ 0x7F7FFFFF) ∧
    (31 / 32) ^ 3 * binary32.value ((M128.mk 1011494326 1066359849 1077936128 0x80000000).lane 2)
      ≤ binary32.value
        ((cbrt_ps_seed ⟨1011494326, 1066359849, 1077936128, 0x80000000⟩).r.lane 2) ^ 3 ∧
    binary32.value ((cbrt_ps_seed ⟨1011494326, 1066359849, 1077936128, 0x80000000⟩).r.lane 2) ^ 3
      ≤ (32 / 31) ^ 3
        * binary32.value ((M128.mk 1011494326 1066359849 1077936128 0x80000000).lane 2) :=
  ⟨⟨by decide, by decide⟩,
    (seed_accuracy ⟨1011494326, 1066359849, 1077936128, 0x80000000⟩ 2
      (by decide) (by decide)).2.2.2.1,
    (seed_accuracy ⟨1011494326, 1066359849, 1077936128, 0x80000000⟩ 2
      (by decide) (by decide)).2.2.2.2.1⟩

/-- C19: over exact arithmetic the coded update satisfies
`cbrtRefine(a, c³) - c = (a - c)³ (a + c) / (2a³ + c³)` wherever `2a³ + c³` is
non-zero, and a non-zero exact cube root is a fixed point. -/
theorem cbrtRefine_cubic {K : Type} [LinearOrderedField K] (a c : K)
    (h : 2 * a ^ 3 + c ^ 3 ≠ 0) :
    cbrtRefineExact a (c ^ 3) - c = (a - c) ^ 3 * (a + c) / (2 * a ^ 3 + c ^ 3) ∧
    (c ≠ 0 → cbrtRefineExact c (c ^ 3) = c) := by
  constructor
  · exact cbrtRefineExact_sub a c h
  · intro hc
    rw [cbrtRefineExact_eq]
    have h3 : c * c * c + (c * c * c + c ^ 3) ≠ 0 := by
      have e : c * c * c + (c * c * c + c ^ 3) = 3 * c ^ 3 := by ring
      rw [e]
      exact mul_ne_zero (by norm_num) (pow_ne_zero 3 hc)
    field_simp
    ring

theorem cbrtRefine_cubic_witness :
    (2 : ℚ) * 2 ^ 3 + 1 ^ 3 ≠ 0 ∧
    cbrtRefineExact (2 : ℚ) (1 ^ 3) - 1 = (2 - 1) ^ 3 * (2 + 1) / (2 * 2 ^ 3 + 1 ^ 3) ∧
    cbrtRefineExact (1 : ℚ) (1 ^ 3) = 1 :=
  ⟨by norm_num, (cbrtRefine_cubic (2 : ℚ) 1 (by norm_num)).1,
    (cbrtRefine_cubic (1 : ℚ) 1 (by norm_num)).2 (by norm_num)⟩

/-- C20: in exact rational arithmetic the integer part of
`(127 - 127/3 - 0.03306235651) * 2^23` is `B1 = 709958130`, the integer part of
`(127 - 127/3 - 24/3 - 0.03306235651) * 2^23` is `B2 = 642849266`, the two
derivations and the two constants differ by exactly `8 * 2^23`, these are the
offsets the seed of `cbrt_ps` uses, and replacing `B1` by `B2` divides the
value of the seed by `2^8`: the `24/3` exponent steps of the `2^24` rescaling. -/
theorem offsets_match_derivation :
    ⌊B1_derivation⌋ = 709958130 ∧ ⌊B2_derivation⌋ = 642849266 ∧
    B1_derivation - B2_derivation = 24 / 3 * 2 ^ 23 ∧
    ((709958130 : Int) - 642849266 = 8 * 2 ^ 23) ∧
    (∀ (x : M128) (k : Fin 4),
      (cbrt_ps_seed x).r.lane k % 2 ^ 31
        = if x.lane k % 2 ^ 31 < 0x00800000
          then (cbrt_ps_seed x).t.lane k / 3 + ⌊B2_derivation⌋.toNat
          else x.lane k % 2 ^ 31 / 3 + ⌊B1_derivation⌋.toNat) ∧
    (∀ T : Nat, T ≤ 0x7FFFFFFF →
      binary32.val (T / 3 + 709958130) = 2 ^ 8 * binary32.val (T / 3 + 642849266)) := by
  have h1 : ⌊B1_derivation⌋ = 709958130 := by
    rw [Int.floor_eq_iff]
    unfold B1_derivation
    constructor <;> norm_num
  have h2 : ⌊B2_derivation⌋ = 642849266 := by
    rw [Int.floor_eq_iff]
    unfold B2_derivation
    constructor <;> norm_num
  refine ⟨h1, h2, ?_, by norm_num, ?_, offset_shift⟩
  · unfold B1_derivation B2_derivation
    ring
  · intro x k
    rw [h1, h2, seedMag_lane, seed_t_lane]
    rfl

theorem offsets_match_derivation_witness :
    (0x7FFFFF : Nat) ≤ 0x7FFFFFFF ∧
    binary32.val (0x7FFFFF / 3 + 709958130) = 2 ^ 8 * binary32.val (0x7FFFFF / 3 + 642849266) :=
  ⟨by norm_num, offsets_match_derivation.2.2.2.2.2 0x7FFFFF (by norm_num)⟩

end simd
